import Mathlib

/-!
Verification of the genome-compression repository (shared balanced DAG tree).

The development shallowly embeds the current-generation core
(`src/src/shared_tree.cpp`, `src/src/dna.cpp`, `src/include/utility.h`,
with declarations mirrored from `src/include/balanced_shared_tree.h` where the
matching header of `shared_tree.cpp` is not part of the sources).
Machine integers are modelled as `Nat` with explicit `% 2^w` wherever the
source can overflow; fallible operations return `Option`.
-/

/-! ## Bit-twiddling layer (dna.cpp:100-123)

`dna::transposed` and `dna::mirrored` are compositions of masked swap steps
of the shape `((v >> k) & m) | ((v & m) << k)`.  Each such step, for the mask
constants used in the source, permutes the 64 bit positions by exchanging
adjacent `k`-blocks.  We prove that characterization once per instance and
derive the algebra (involutivity, commutativity) from the index permutations.
-/

/-- One masked-swap step `((v >> k) & m) | ((v & m) << k)` (dna.cpp:103-121). -/
def maskedSwap (m k v : Nat) : Nat := ((v >>> k) &&& m) ||| ((v &&& m) <<< k)

/-- The bit-index permutation realised by a masked swap with shift `k`:
adjacent `k`-blocks of bit positions are exchanged. -/
def blockSwap (k i : Nat) : Nat := if (i / k) % 2 = 0 then i + k else i - k

/-- Bits at positions `≥ 64` of a word `< 2^64` are clear. -/
theorem testBit_high (v j : Nat) (hv : v < 2 ^ 64) (hj : 64 ≤ j) :
    v.testBit j = false :=
  Nat.testBit_lt_two_pow (lt_of_lt_of_le hv (Nat.pow_le_pow_right (by norm_num) hj))

/-- Extends a bounded mask characterization to all bit positions. -/
theorem mask_char_of_ball (m k : Nat) (hm64 : m < 2 ^ 64)
    (hball : ∀ j, j < 64 → m.testBit j = decide ((j / k) % 2 = 0)) :
    ∀ j, m.testBit j = (decide (j < 64) && decide ((j / k) % 2 = 0)) := by
  intro j
  by_cases h : j < 64
  · simp [h, hball j h]
  · simp [h, testBit_high m j hm64 (by omega)]

/-- A masked swap maps words below `2^64` to words below `2^64`. -/
theorem maskedSwap_lt (m k v : Nat) (hmk : m <<< k < 2 ^ 64) (hm : m < 2 ^ 64)
    (hv : v < 2 ^ 64) : maskedSwap m k v < 2 ^ 64 := by
  have h1 : (v >>> k) &&& m < 2 ^ 64 := lt_of_le_of_lt Nat.and_le_right hm
  have h2 : (v &&& m) <<< k < 2 ^ 64 := by
    have : (v &&& m) <<< k ≤ m <<< k := by
      simp only [Nat.shiftLeft_eq]
      exact Nat.mul_le_mul_right _ Nat.and_le_right
    omega
  calc maskedSwap m k v < 2 ^ 64 := by
        have := Nat.or_lt_two_pow h1 h2
        exact this

/-- Bit-level behaviour of one masked swap: given the mask characterization and
the block arithmetic facts for the concrete shift, the step permutes bit
indices by `blockSwap k`. -/
theorem maskedSwap_testBit (m k v : Nat)
    (hm : ∀ j, m.testBit j = (decide (j < 64) && decide ((j / k) % 2 = 0)))
    (hv : v < 2 ^ 64)
    (hA : ∀ j, j < 64 → (j / k) % 2 = 0 → k ≤ j → ((j - k) / k) % 2 ≠ 0)
    (hB : ∀ j, j < 64 → (j / k) % 2 ≠ 0 → k ≤ j ∧ j - k < 64 ∧ ((j - k) / k) % 2 = 0)
    (hC : ∀ j, ¬ j < 64 → j - k < 64 → ((j - k) / k) % 2 ≠ 0)
    (i : Nat) :
    (maskedSwap m k v).testBit i = (decide (i < 64) && v.testBit (blockSwap k i)) := by
  simp only [maskedSwap, Nat.testBit_or, Nat.testBit_and, Nat.testBit_shiftRight,
    Nat.testBit_shiftLeft, hm, blockSwap]
  by_cases h64 : i < 64
  · by_cases hpar : (i / k) % 2 = 0
    · by_cases hki : k ≤ i
      · have hodd := hA i h64 hpar hki
        simp [h64, hpar, hki, hodd, Nat.add_comm]
      · simp [h64, hpar, hki, Nat.add_comm]
    · obtain ⟨hki, hlt, hev⟩ := hB i h64 hpar
      simp [h64, hpar, hki, hlt, hev]
  · by_cases hlt : i - k < 64
    · have hodd := hC i h64 hlt
      simp [h64, hodd]
    · simp [h64, hlt]

/-- Mask constant of the odd/even bit swap (dna.cpp:103). -/
def mask1 : Nat := 0x5555555555555555

/-- Mask constant of the pair swap (dna.cpp:105). -/
def mask2 : Nat := 0x3333333333333333

/-- Mask constant of the nibble swap (dna.cpp:115). -/
def mask4 : Nat := 0x0F0F0F0F0F0F0F0F

/-- Mask constant of the byte swap (dna.cpp:117). -/
def mask8 : Nat := 0x00FF00FF00FF00FF

/-- Mask constant of the 2-byte swap (dna.cpp:119). -/
def mask16 : Nat := 0x0000FFFF0000FFFF

/-- Mask constant of the 4-byte swap (dna.cpp:121). -/
def mask32 : Nat := 0x00000000FFFFFFFF

theorem mask1_char : ∀ j, mask1.testBit j = (decide (j < 64) && decide ((j / 1) % 2 = 0)) :=
  mask_char_of_ball mask1 1 (by norm_num [mask1]) (by decide)

theorem mask2_char : ∀ j, mask2.testBit j = (decide (j < 64) && decide ((j / 2) % 2 = 0)) :=
  mask_char_of_ball mask2 2 (by norm_num [mask2]) (by decide)

theorem mask4_char : ∀ j, mask4.testBit j = (decide (j < 64) && decide ((j / 4) % 2 = 0)) :=
  mask_char_of_ball mask4 4 (by norm_num [mask4]) (by decide)

theorem mask8_char : ∀ j, mask8.testBit j = (decide (j < 64) && decide ((j / 8) % 2 = 0)) :=
  mask_char_of_ball mask8 8 (by norm_num [mask8]) (by decide)

theorem mask16_char : ∀ j, mask16.testBit j = (decide (j < 64) && decide ((j / 16) % 2 = 0)) :=
  mask_char_of_ball mask16 16 (by norm_num [mask16]) (by decide)

theorem mask32_char : ∀ j, mask32.testBit j = (decide (j < 64) && decide ((j / 32) % 2 = 0)) :=
  mask_char_of_ball mask32 32 (by norm_num [mask32]) (by decide)

/-- The six swap steps used by the source, with their mask constants. -/
def swapStep : Nat → Nat → Nat
  | 1, v => maskedSwap mask1 1 v
  | 2, v => maskedSwap mask2 2 v
  | 4, v => maskedSwap mask4 4 v
  | 8, v => maskedSwap mask8 8 v
  | 16, v => maskedSwap mask16 16 v
  | 32, v => maskedSwap mask32 32 v
  | _, v => v

theorem swapStep1_testBit (v : Nat) (hv : v < 2 ^ 64) (i : Nat) :
    (swapStep 1 v).testBit i = (decide (i < 64) && v.testBit (blockSwap 1 i)) :=
  maskedSwap_testBit mask1 1 v mask1_char hv
    (fun j => by omega) (fun j => by omega) (fun j => by omega) i

theorem swapStep2_testBit (v : Nat) (hv : v < 2 ^ 64) (i : Nat) :
    (swapStep 2 v).testBit i = (decide (i < 64) && v.testBit (blockSwap 2 i)) :=
  maskedSwap_testBit mask2 2 v mask2_char hv
    (fun j => by omega) (fun j => by omega) (fun j => by omega) i

theorem swapStep4_testBit (v : Nat) (hv : v < 2 ^ 64) (i : Nat) :
    (swapStep 4 v).testBit i = (decide (i < 64) && v.testBit (blockSwap 4 i)) :=
  maskedSwap_testBit mask4 4 v mask4_char hv
    (fun j => by omega) (fun j => by omega) (fun j => by omega) i

theorem swapStep8_testBit (v : Nat) (hv : v < 2 ^ 64) (i : Nat) :
    (swapStep 8 v).testBit i = (decide (i < 64) && v.testBit (blockSwap 8 i)) :=
  maskedSwap_testBit mask8 8 v mask8_char hv
    (fun j => by omega) (fun j => by omega) (fun j => by omega) i

theorem swapStep16_testBit (v : Nat) (hv : v < 2 ^ 64) (i : Nat) :
    (swapStep 16 v).testBit i = (decide (i < 64) && v.testBit (blockSwap 16 i)) :=
  maskedSwap_testBit mask16 16 v mask16_char hv
    (fun j => by omega) (fun j => by omega) (fun j => by omega) i

theorem swapStep32_testBit (v : Nat) (hv : v < 2 ^ 64) (i : Nat) :
    (swapStep 32 v).testBit i = (decide (i < 64) && v.testBit (blockSwap 32 i)) :=
  maskedSwap_testBit mask32 32 v mask32_char hv
    (fun j => by omega) (fun j => by omega) (fun j => by omega) i

/-- The applicable shifts. -/
def swapShifts : List Nat := [1, 2, 4, 8, 16, 32]

theorem swapStep_testBit (k : Nat) (hk : k ∈ swapShifts) (v : Nat) (hv : v < 2 ^ 64)
    (i : Nat) :
    (swapStep k v).testBit i = (decide (i < 64) && v.testBit (blockSwap k i)) := by
  fin_cases hk
  · exact swapStep1_testBit v hv i
  · exact swapStep2_testBit v hv i
  · exact swapStep4_testBit v hv i
  · exact swapStep8_testBit v hv i
  · exact swapStep16_testBit v hv i
  · exact swapStep32_testBit v hv i

theorem swapStep_lt (k : Nat) (hk : k ∈ swapShifts) (v : Nat) (hv : v < 2 ^ 64) :
    swapStep k v < 2 ^ 64 := by
  fin_cases hk
  · exact maskedSwap_lt _ _ _ (by decide) (by decide) hv
  · exact maskedSwap_lt _ _ _ (by decide) (by decide) hv
  · exact maskedSwap_lt _ _ _ (by decide) (by decide) hv
  · exact maskedSwap_lt _ _ _ (by decide) (by decide) hv
  · exact maskedSwap_lt _ _ _ (by decide) (by decide) hv
  · exact maskedSwap_lt _ _ _ (by decide) (by decide) hv

theorem blockSwap_lt (k : Nat) (hk : k ∈ swapShifts) (i : Nat) (hi : i < 64) :
    blockSwap k i < 64 := by
  fin_cases hk <;> simp only [blockSwap] <;> split <;> omega

/-- Two distinct swap steps commute (their index permutations act on disjoint
bits of the position). -/
theorem swapStep_comm (a b : Nat) (ha : a ∈ swapShifts) (hb : b ∈ swapShifts)
    (hab : ∀ i, i < 64 → blockSwap a (blockSwap b i) = blockSwap b (blockSwap a i))
    (v : Nat) (hv : v < 2 ^ 64) :
    swapStep a (swapStep b v) = swapStep b (swapStep a v) := by
  apply Nat.eq_of_testBit_eq
  intro i
  rw [swapStep_testBit a ha _ (swapStep_lt b hb v hv) i,
      swapStep_testBit b hb _ (swapStep_lt a ha v hv) i]
  by_cases h : i < 64
  · rw [swapStep_testBit b hb v hv, swapStep_testBit a ha v hv]
    simp [h, blockSwap_lt a ha i h, blockSwap_lt b hb i h, hab i h]
  · simp [h]

/-- Each swap step is an involution. -/
theorem swapStep_invol (a : Nat) (ha : a ∈ swapShifts)
    (hai : ∀ i, i < 64 → blockSwap a (blockSwap a i) = i)
    (v : Nat) (hv : v < 2 ^ 64) :
    swapStep a (swapStep a v) = v := by
  apply Nat.eq_of_testBit_eq
  intro i
  rw [swapStep_testBit a ha _ (swapStep_lt a ha v hv) i]
  by_cases h : i < 64
  · rw [swapStep_testBit a ha v hv]
    simp [h, blockSwap_lt a ha i h, hai i h]
  · simp [h, testBit_high v i hv (by omega)]

theorem blockSwap_self (a : Nat) (ha : a ∈ swapShifts) :
    ∀ i, i < 64 → blockSwap a (blockSwap a i) = i := by
  fin_cases ha <;> decide

theorem blockSwap_comm (a b : Nat) (ha : a ∈ swapShifts) (hb : b ∈ swapShifts)
    (hne : a ≠ b) :
    ∀ i, i < 64 → blockSwap a (blockSwap b i) = blockSwap b (blockSwap a i) := by
  fin_cases ha <;> fin_cases hb <;> first
    | exact absurd rfl hne
    | decide

/-! ## Strand (class dna; src/src/dna.cpp, src/include/dna.h) -/

/-- A DNA strand: a fixed-width word of nucleotides packed four bits each into
a 64-bit unsigned integer (dna.h:73). -/
structure dna where
  val : Nat
  deriving DecidableEq, Repr

/-- Wellformedness of the underlying machine word (`std::uint64_t`). -/
abbrev dna.wfv (d : dna) : Prop := d.val < 2 ^ 64

/-- Sequential composition of swap steps. -/
def applyChain (ks : List Nat) (v : Nat) : Nat := ks.foldl (fun w k => swapStep k w) v

/-- dna::transposed (dna.cpp:100-107): swap odd/even bits, then swap
consecutive bit pairs. -/
def dna.transposed (d : dna) : dna := ⟨applyChain [1, 2] d.val⟩

/-- The swap steps applied by dna::mirrored for a strand of configured length
`L`: each of the four swaps is guarded by `if constexpr (length >= …)`
(dna.cpp:112-123), so the chain depends on `L`. -/
def mirrorChain (L : Nat) : List Nat :=
  (if 2 ≤ L then [4] else []) ++ (if 4 ≤ L then [8] else []) ++
  (if 8 ≤ L then [16] else []) ++ (if 16 ≤ L then [32] else [])

/-- dna::mirrored (dna.cpp:112-123). -/
def dna.mirrored (L : Nat) (d : dna) : dna := ⟨applyChain (mirrorChain L) d.val⟩

/-- dna::inverted (dna.h:51): `transposed().mirrored()`. -/
def dna.inverted (L : Nat) (d : dna) : dna := (d.transposed).mirrored L

/-- dna::invariant (dna.h:52): `*this == mirrored()`. -/
def dna.invariant (L : Nat) (d : dna) : Bool := d = d.mirrored L

theorem mirrorChain_mem (L : Nat) : ∀ k ∈ mirrorChain L, k ∈ swapShifts := by
  intro k hk
  simp only [mirrorChain, List.mem_append] at hk
  rcases hk with ((h | h) | h) | h <;> split at h <;> simp_all [swapShifts]

theorem mirrorChain_nodup (L : Nat) : (mirrorChain L).Nodup := by
  simp only [mirrorChain]
  split <;> split <;> split <;> split <;> decide

theorem applyChain_lt (ks : List Nat) (h : ∀ k ∈ ks, k ∈ swapShifts) (v : Nat)
    (hv : v < 2 ^ 64) : applyChain ks v < 2 ^ 64 := by
  induction ks generalizing v with
  | nil => exact hv
  | cons k ks ih =>
    exact ih (fun j hj => h j (List.mem_cons_of_mem _ hj))
      _ (swapStep_lt k (h k (List.mem_cons_self _ _)) v hv)

/-- A single swap step commutes past a chain not containing its shift. -/
theorem swapStep_applyChain_comm (k : Nat) (hk : k ∈ swapShifts) (ks : List Nat)
    (hks : ∀ j ∈ ks, j ∈ swapShifts) (hne : k ∉ ks) (v : Nat) (hv : v < 2 ^ 64) :
    swapStep k (applyChain ks v) = applyChain ks (swapStep k v) := by
  induction ks generalizing v with
  | nil => rfl
  | cons j ks ih =>
    have hj : j ∈ swapShifts := hks j (List.mem_cons_self _ _)
    have hmem : ∀ i ∈ ks, i ∈ swapShifts := fun i hi => hks i (List.mem_cons_of_mem _ hi)
    have hkj : k ≠ j := fun hc => hne (hc ▸ (List.mem_cons_self _ _))
    show swapStep k (applyChain ks (swapStep j v)) = applyChain ks (swapStep j (swapStep k v))
    rw [ih hmem (fun hc => hne (List.mem_cons_of_mem _ hc)) _ (swapStep_lt j hj v hv),
        swapStep_comm k j hk hj (blockSwap_comm k j hk hj hkj) v hv]

/-- A nodup chain of swap steps is an involution. -/
theorem applyChain_invol (ks : List Nat) (hks : ∀ j ∈ ks, j ∈ swapShifts)
    (hnd : ks.Nodup) (v : Nat) (hv : v < 2 ^ 64) :
    applyChain ks (applyChain ks v) = v := by
  induction ks generalizing v with
  | nil => rfl
  | cons k ks ih =>
    have hk : k ∈ swapShifts := hks k (List.mem_cons_self _ _)
    have hmem : ∀ i ∈ ks, i ∈ swapShifts := fun i hi => hks i (List.mem_cons_of_mem _ hi)
    have hnotin : k ∉ ks := (List.nodup_cons.mp hnd).1
    show applyChain ks (swapStep k (applyChain ks (swapStep k v))) = v
    rw [swapStep_applyChain_comm k hk ks hmem hnotin _ (swapStep_lt k hk v hv),
        swapStep_invol k hk (blockSwap_self k hk) v hv]
    exact ih hmem (List.nodup_cons.mp hnd).2 v hv

/-- Two chains with disjoint shifts commute. -/
theorem applyChain_applyChain_comm (ks js : List Nat)
    (hks : ∀ j ∈ ks, j ∈ swapShifts) (hjs : ∀ j ∈ js, j ∈ swapShifts)
    (hdisj : ∀ j ∈ ks, j ∉ js) (v : Nat) (hv : v < 2 ^ 64) :
    applyChain ks (applyChain js v) = applyChain js (applyChain ks v) := by
  induction ks generalizing v with
  | nil => rfl
  | cons k ks ih =>
    have hk : k ∈ swapShifts := hks k (List.mem_cons_self _ _)
    have hmem : ∀ i ∈ ks, i ∈ swapShifts := fun i hi => hks i (List.mem_cons_of_mem _ hi)
    show applyChain ks (swapStep k (applyChain js v)) = applyChain js (applyChain ks (swapStep k v))
    rw [swapStep_applyChain_comm k hk js hjs (hdisj k (List.mem_cons_self _ _)) v hv]
    exact ih hmem (fun i hi => hdisj i (List.mem_cons_of_mem _ hi)) _
      (swapStep_lt k hk v hv)

theorem dna.transposed_wfv (d : dna) (h : d.wfv) : d.transposed.wfv :=
  applyChain_lt [1, 2] (by decide) d.val h

theorem dna.mirrored_wfv (L : Nat) (d : dna) (h : d.wfv) : (d.mirrored L).wfv :=
  applyChain_lt (mirrorChain L) (mirrorChain_mem L) d.val h

/-- Transposition is an involution (spec §8 algebraic invariants). -/
theorem dna.transposed_transposed (d : dna) (h : d.wfv) : d.transposed.transposed = d := by
  simp only [dna.transposed]
  rw [applyChain_invol [1, 2] (by decide) (by decide) d.val h]

/-- Mirroring is an involution (spec §8 algebraic invariants). -/
theorem dna.mirrored_mirrored (L : Nat) (d : dna) (h : d.wfv) :
    (d.mirrored L).mirrored L = d := by
  simp only [dna.mirrored]
  rw [applyChain_invol (mirrorChain L) (mirrorChain_mem L) (mirrorChain_nodup L) d.val h]

/-- Mirroring and transposition commute. -/
theorem dna.mirrored_transposed_comm (L : Nat) (d : dna) (h : d.wfv) :
    (d.transposed).mirrored L = (d.mirrored L).transposed := by
  simp only [dna.transposed, dna.mirrored]
  have hge : ∀ k ∈ mirrorChain L, 4 ≤ k := by
    intro k hk
    simp only [mirrorChain, List.mem_append] at hk
    rcases hk with ((h | h) | h) | h <;> split at h <;> simp_all
  rw [applyChain_applyChain_comm (mirrorChain L) [1, 2] (mirrorChain_mem L) (by decide)
    (fun j hj hc => by have := hge j hj; fin_cases hc <;> omega)
    d.val h]

/-! ## Canonicalization of strands (dna.cpp:137-145, utility.h:158-170) -/

/-- Strict `operator<` on `std::tuple<dna, bool, bool, bool>` as used by
`variadic_min` in dna::canonical: lexicographic, `false < true`. -/
def dnaTupLt (x y : dna × Bool × Bool × Bool) : Bool :=
  decide (x.1.val < y.1.val) ||
    (x.1.val == y.1.val &&
      ((!x.2.1 && y.2.1) ||
        (x.2.1 == y.2.1 &&
          ((!x.2.2.1 && y.2.2.1) ||
            (x.2.2.1 == y.2.2.1 && (!x.2.2.2 && y.2.2.2))))))

/-- utility.h variadic_min (utility.h:158-170) specialised to four arguments:
a running strict-minimum that keeps the earlier argument on ties. -/
def vmin4 {α : Type} (lt : α → α → Bool) (a b c d : α) : α :=
  let m1 := if lt b a then b else a
  let m2 := if lt c m1 then c else m1
  if lt d m2 then d else m2

theorem vmin4_mem {α : Type} (lt : α → α → Bool) (a b c d : α) :
    vmin4 lt a b c d = a ∨ vmin4 lt a b c d = b ∨ vmin4 lt a b c d = c ∨
      vmin4 lt a b c d = d := by
  simp only [vmin4]
  split <;> split <;> split <;> simp

/-- dna::canonical (dna.cpp:137-145): the minimum of the four transforms, with
the transform flags and the mirror-invariance flag of the strand itself.
Candidate order in the source: current, transpose, mirror, both (where both is
`transposed().mirrored()`). -/
def dna.canonical (L : Nat) (d : dna) : dna × Bool × Bool × Bool :=
  let inv := d.invariant L
  vmin4 dnaTupLt (d, false, false, inv) (d.transposed, false, true, inv)
    (d.mirrored L, true, false, inv) (d.transposed.mirrored L, true, true, inv)

/-- Flag application of access_leaf (shared_tree.cpp:231-236): mirror first,
then transpose. -/
def dna.applyTx (L : Nat) (m t : Bool) (x : dna) : dna :=
  let x1 := if m then x.mirrored L else x
  if t then x1.transposed else x1

theorem dna.applyTx_wfv (L : Nat) (m t : Bool) (x : dna) (h : x.wfv) :
    (dna.applyTx L m t x).wfv := by
  simp only [dna.applyTx]
  split <;> split <;>
    first
      | exact dna.transposed_wfv _ (dna.mirrored_wfv L x h)
      | exact dna.mirrored_wfv L x h
      | exact dna.transposed_wfv x h
      | exact h

theorem dna.invariant_eq (L : Nat) (d : dna) (h : d.invariant L = true) :
    d.mirrored L = d := by
  simp only [dna.invariant, decide_eq_true_eq] at h
  exact h.symm

/-- Applying the returned flags — with the mirror bit clamped by the invariance
flag, exactly as `pointer`'s constructor does — to the canonical strand
recovers the original strand. -/
theorem dna.canonical_recover (L : Nat) (d : dna) (h : d.wfv) :
    ((d.canonical L).1).wfv ∧
    dna.applyTx L ((d.canonical L).2.1 && !(d.canonical L).2.2.2)
      (d.canonical L).2.2.1 (d.canonical L).1 = d ∧
    (d.canonical L).2.2.2 = d.invariant L := by
  have hmem := vmin4_mem dnaTupLt (d, false, false, d.invariant L)
    (d.transposed, false, true, d.invariant L)
    (d.mirrored L, true, false, d.invariant L)
    (d.transposed.mirrored L, true, true, d.invariant L)
  have hcan : d.canonical L = vmin4 dnaTupLt (d, false, false, d.invariant L)
      (d.transposed, false, true, d.invariant L)
      (d.mirrored L, true, false, d.invariant L)
      (d.transposed.mirrored L, true, true, d.invariant L) := rfl
  rw [← hcan] at hmem
  rcases hmem with h1 | h1 | h1 | h1 <;> rw [h1]
  · refine ⟨h, ?_, rfl⟩
    simp [dna.applyTx]
  · refine ⟨dna.transposed_wfv d h, ?_, rfl⟩
    simp [dna.applyTx, dna.transposed_transposed d h]
  · refine ⟨dna.mirrored_wfv L d h, ?_, rfl⟩
    by_cases hinv : d.invariant L = true
    · simp [dna.applyTx, hinv, dna.invariant_eq L d hinv]
    · simp only [Bool.not_eq_true] at hinv
      simp [dna.applyTx, hinv, dna.mirrored_mirrored L d h]
  · refine ⟨dna.mirrored_wfv L _ (dna.transposed_wfv d h), ?_, rfl⟩
    by_cases hinv : d.invariant L = true
    · have hmt : d.transposed.mirrored L = d.transposed := by
        rw [dna.mirrored_transposed_comm L d h, dna.invariant_eq L d hinv]
      simp [dna.applyTx, hinv, hmt, dna.transposed_transposed d h]
    · simp only [Bool.not_eq_true] at hinv
      simp [dna.applyTx, hinv, dna.mirrored_mirrored L _ (dna.transposed_wfv d h),
        dna.transposed_transposed d h]

/-! ## Strand parsing (valid_nac / to_nac, dna.cpp:16-48, dna.cpp:78-82) -/

/-- valid_nac (dna.cpp:16-22). -/
def valid_nac (c : Char) : Bool :=
  let code := c.toUpper
  code == 'A' || code == 'C' || code == 'G' || code == 'T' ||
  code == 'R' || code == 'Y' || code == 'K' || code == 'M' ||
  code == 'S' || code == 'W' || code == 'B' || code == 'D' ||
  code == 'H' || code == 'V' || code == 'N' || code == '-'

/-- to_nac (dna.cpp:24-48): the nibble value of a nucleotide code; the unknown
symbol branch terminates the program (`exit(1)`), modelled as `none`. -/
def to_nac (c : Char) : Option Nat :=
  match c.toUpper with
  | 'A' => some 0b0001
  | 'C' => some 0b0010
  | 'G' => some 0b0100
  | 'T' => some 0b1000
  | 'R' => some 0b0011
  | 'Y' => some 0b1100
  | 'K' => some 0b0111
  | 'M' => some 0b1110
  | 'S' => some 0b0000
  | 'W' => some 0b1001
  | 'B' => some 0b0101
  | 'D' => some 0b1011
  | 'H' => some 0b1101
  | 'V' => some 0b1010
  | 'N' => some 0b0110
  | '-' => some 0b1111
  | _ => none

/-- set_nucleotide (dna.cpp:195-205) applied to nibbles `i, i+1, …` in turn:
clear the nibble (`&= ~(0xf << 4i)` on the 64-bit word) then or the code in. -/
def setNibbles : List Char → Nat → Nat → Option Nat
  | [], _, acc => some acc
  | c :: cs, i, acc =>
    match to_nac c with
    | none => none
    | some code =>
      setNibbles cs (i + 1)
        ((acc &&& (0xFFFFFFFFFFFFFFFF ^^^ (0xf <<< (4 * i)))) ||| (code <<< (4 * i)))

/-- dna::dna(std::string_view) (dna.cpp:78-82): asserts the text has exactly
the configured length, then sets each nucleotide via to_nac.  The word starts
from zero (the source leaves the member formally uninitialized and only ever
assigns the low `4L` bits). -/
def dna.ofText (L : Nat) (s : String) : Option dna :=
  if s.length ≠ L then none
  else (setNibbles s.data 0 0).map dna.mk

theorem setNibbles_isNone (cs : List Char) (i acc : Nat) :
    (setNibbles cs i acc) = none ↔ ∃ c ∈ cs, to_nac c = none := by
  induction cs generalizing i acc with
  | nil => simp [setNibbles]
  | cons c cs ih =>
    simp only [setNibbles]
    cases hc : to_nac c with
    | none => simp [hc]
    | some code => simp [hc, ih]

/-! ## Strand serialization (dna.cpp:151-163, utility.h:178-194) -/

/-- binary_write (utility.h:178-184): an unsigned value as `n` big-endian
bytes. -/
def binaryWriteBytes (n : Nat) (value : Nat) : List Nat :=
  (List.range n).map (fun i => (value >>> (8 * (n - 1 - i))) % 256)

/-- binary_read (utility.h:186-194): recompose big-endian bytes. -/
def binaryReadBytes (bs : List Nat) : Nat := bs.foldl (fun acc b => acc * 256 + b) 0

/-- dna::serialize (dna.cpp:151-153): writes the full 64-bit word — 8 bytes —
using binary_write's default width `sizeof(std::uint64_t)`, regardless of the
configured strand length. -/
def dna.serialize (d : dna) : List Nat := binaryWriteBytes 8 d.val

/-- dna::deserialize (dna.cpp:159-163): reads back a full 64-bit word. -/
def dna.deserialize (bs : List Nat) : dna × List Nat :=
  (⟨binaryReadBytes (bs.take 8)⟩, bs.drop 8)

/-- dna::bytes (dna.h:55): `(size() + 1) / 2`, i.e. `⌈L/2⌉`. -/
def dna.bytes (L : Nat) : Nat := (L + 1) / 2

theorem binaryWriteBytes_succ (n v : Nat) :
    binaryWriteBytes (n + 1) v = (v >>> (8 * n)) % 256 :: binaryWriteBytes n v := by
  simp only [binaryWriteBytes, List.range_succ_eq_map, List.map_cons, List.map_map]
  have h1 : ((fun i => v >>> (8 * (n + 1 - 1 - i)) % 256) ∘ Nat.succ)
      = (fun i => v >>> (8 * (n - 1 - i)) % 256) := by
    funext i
    simp only [Function.comp_apply]
    have heq : 8 * (n + 1 - 1 - Nat.succ i) = 8 * (n - 1 - i) := by omega
    rw [heq]
  have h0 : n + 1 - 1 - 0 = n := by omega
  rw [h1, h0]

theorem binaryWriteBytes_length (n v : Nat) : (binaryWriteBytes n v).length = n := by
  simp [binaryWriteBytes]

theorem binaryReadBytes_write (n v : Nat) :
    ∀ a, (binaryWriteBytes n v).foldl (fun acc b => acc * 256 + b) a
      = a * 256 ^ n + v % 256 ^ n := by
  induction n generalizing v with
  | zero => intro a; simp [binaryWriteBytes, Nat.mod_one]
  | succ n ih =>
    intro a
    rw [binaryWriteBytes_succ, List.foldl_cons, ih]
    have hshift : v >>> (8 * n) = v / 256 ^ n := by
      rw [Nat.shiftRight_eq_div_pow]
      norm_num [Nat.pow_mul]
    have h256 : (256 : Nat) ^ (n + 1) = 256 ^ n * 256 := by ring
    have hmod : v % (256 ^ n * 256) = v % 256 ^ n + 256 ^ n * (v / 256 ^ n % 256) :=
      Nat.mod_mul
    rw [hshift, h256, hmod]
    ring

/-- Round trip of the 8-byte strand serialization. -/
theorem dna.deserialize_serialize (d : dna) (h : d.wfv) (rest : List Nat) :
    dna.deserialize (d.serialize ++ rest) = (d, rest) := by
  have hlen : (binaryWriteBytes 8 d.val).length = 8 := binaryWriteBytes_length 8 d.val
  have hread : binaryReadBytes (binaryWriteBytes 8 d.val) = d.val := by
    have h1 := binaryReadBytes_write 8 d.val 0
    have hmod : d.val % 256 ^ 8 = d.val := Nat.mod_eq_of_lt (by
      have h2 : (256 : Nat) ^ 8 = 2 ^ 64 := by norm_num
      have h3 : d.val < 2 ^ 64 := h
      omega)
    unfold binaryReadBytes
    rw [h1, Nat.zero_mul, Nat.zero_add, hmod]
  simp only [dna.deserialize, dna.serialize]
  rw [List.take_append_of_le_length (by omega), List.drop_append_of_le_length (by omega)]
  rw [List.take_of_length_le (by omega), List.drop_of_length_le (by omega)]
  simp [hread]

/-! ## Disjoint-or arithmetic helper -/

/-- Bitwise or of numbers without common bits is addition. -/
theorem or_disjoint_eq_add (b a : Nat) (h : a &&& b = 0) : a ||| b = a + b := by
  induction b using Nat.binaryRec generalizing a with
  | z => simp
  | f pb nb ih =>
    rw [← Nat.bit_decomp a] at h ⊢
    rw [Nat.lor_bit]
    rw [Nat.land_bit] at h
    obtain ⟨hn, hb⟩ := Nat.bit_eq_zero_iff.mp h
    have hih := ih _ hn
    have hval : ∀ x m, Nat.bit x m = 2 * m + x.toNat := by
      intro x m
      cases x <;> simp [Nat.bit] <;> omega
    rw [hval, hval, hval, hih]
    have : (a.bodd || pb).toNat = a.bodd.toNat + pb.toNat := by
      cases hab : a.bodd <;> cases hpb : pb <;> simp_all
    omega

theorem shiftLeft_or_eq_add (x y k : Nat) (hx : x < 2 ^ k) :
    x ||| (y <<< k) = x + y <<< k := by
  apply or_disjoint_eq_add
  apply Nat.eq_of_testBit_eq
  intro i
  rw [Nat.testBit_and, Nat.testBit_shiftLeft]
  by_cases h : k ≤ i
  · have : x.testBit i = false :=
      Nat.testBit_lt_two_pow (lt_of_lt_of_le hx (Nat.pow_le_pow_right (by norm_num) h))
    simp [this]
  · simp [h]

/-! ## Pointer (class pointer; shared_tree.cpp:17-163)

The header declaring this generation's `pointer` is not among the sources;
the field layout, `to_ulong`-based equality, `address_bits = {4, 12, 20, 28}`
and the `mirrored`/`transposed`/`inverted` accessors are modelled from the
spec (§4.2) and the sibling declaration balanced_shared_tree.h:36-83, while
all constructor bodies and the serialization routines follow
shared_tree.cpp:76-163 directly. -/

/-- Annotated pointer: 32-bit index word plus mirror, transpose and invariant
tag bits. -/
structure pointer where
  data : Nat
  mirror : Bool
  transpose : Bool
  invariant : Bool
  deriving DecidableEq, Repr

/-- address_bits (spec §4.2; balanced_shared_tree.h:38). -/
def address_bits : List Nat := [4, 12, 20, 28]

/-- pointer::pointer(std::nullptr_t) (shared_tree.cpp:96-97): all 29 data bits
set, mirror and transpose clear, invariant set. -/
def pointer.null : pointer := ⟨0x1fffffff, false, false, true⟩

/-- pointer::pointer(std::size_t, bool, bool, bool) (shared_tree.cpp:85-86):
the index is truncated to the 32-bit data member and the mirror bit is clamped
to false for invariant pointers. -/
def pointer.ofIndex (index : Nat) (m t inv : Bool) : pointer :=
  ⟨index % 2 ^ 32, m && !inv, t, inv⟩

/-- pointer::to_ulong (shared_tree.cpp:103-107): the invariance bit is
neglected; mirror and transpose sit above the 28-bit address space
(`address_bits.back() + 1`, `+ 2`). -/
def pointer.toUlong (p : pointer) : Nat :=
  p.data ||| ((cond p.mirror 1 0) <<< 29) ||| ((cond p.transpose 1 0) <<< 30)

/-- Pointer equality is `to_ulong` equality (spec §4.2: the triple
`(index, mirror, transpose)`; invariance participates only through the mirror
clamping). -/
def pointer.beq (p q : pointer) : Bool := p.toUlong == q.toUlong

/-- The check `p == nullptr`. -/
def pointer.isNull (p : pointer) : Bool := p.beq pointer.null

/-- pointer::empty — null check. -/
def pointer.emptyb (p : pointer) : Bool := p.isNull

/-- pointer::pointer(const pointer&, bool, bool) (shared_tree.cpp:76-80): the
copy-transform constructor.  The mirror toggle is suppressed for invariant
sources, the transpose toggle for null sources. -/
def pointer.transform (other : pointer) (m t : Bool) : pointer :=
  ⟨other.data, (m != other.mirror) && !other.invariant,
    (t != other.transpose) && !other.isNull, other.invariant⟩

/-- pointer::mirrored (spec §4.2: toggles mirror unless invariant). -/
def pointer.mirrored (p : pointer) : pointer := p.transform true false

/-- pointer::transposed (spec §4.2: toggles transpose; null stays null). -/
def pointer.transposed (p : pointer) : pointer := p.transform false true

/-- pointer::inverted (spec §4.2: mirrored then transposed). -/
def pointer.inverted (p : pointer) : pointer := (p.mirrored).transposed

/-- pointer::index (shared_tree.cpp:113-116). -/
def pointer.index (p : pointer) : Nat := p.data

/-! ### Segmented variable-width serialization (shared_tree.cpp:25-67,122-163) -/

/-- address_space (shared_tree.cpp:25-27). -/
def address_space (segment : Nat) : Nat := 2 ^ address_bits.getD segment 0

/-- address_start (shared_tree.cpp:33-39). -/
def address_start (segment : Nat) : Nat :=
  [0, address_space 0, address_space 0 + address_space 1,
    address_space 0 + address_space 1 + address_space 2].getD segment 0

/-- layer_segment (shared_tree.cpp:44-49). -/
def layer_segment (index : Nat) : Nat :=
  if index < address_start 1 then 0
  else if index < address_start 2 then 1
  else if index < address_start 3 then 2
  else 3

/-- compress_pointer (shared_tree.cpp:54-58): the all-ones null index maps to
segment 3 with all-ones offset. -/
def compress_pointer (index : Nat) : Nat × Nat :=
  if index = 0x1fffffff then (3, 0xfffffff)
  else (layer_segment index, index - address_start (layer_segment index))

/-- decompress_pointer (shared_tree.cpp:64-67). -/
def decompress_pointer (segment offset : Nat) : Nat :=
  if segment = 3 ∧ offset = 0xfffffff then 0x1fffffff
  else address_start segment + offset

/-- pointer::bytes (shared_tree.cpp:122-125). -/
def pointer.bytes (p : pointer) : Nat :=
  (4 + address_bits.getD (compress_pointer p.data).1 0) / 8

/-- The trailing offset bytes emitted by the serialization loop
(shared_tree.cpp:138-141), most significant byte first; `n` is the number of
full offset bytes, i.e. `(address_bits[segment] - 4) / 8`. -/
def offsetBytes (offset : Nat) : Nat → List Nat
  | 0 => []
  | n + 1 => (offset >>> (8 * n)) % 256 :: offsetBytes offset n

/-- pointer::serialize (shared_tree.cpp:133-142): one header byte with the top
four offset bits, the mirror and transpose bits and the segment tag, then the
remaining offset bytes.  The header is an `std::uint8_t`, hence `% 256`. -/
def pointer.serializeSeg (p : pointer) (seg offset : Nat) : List Nat :=
  (((offset >>> (address_bits.getD seg 0 - 4)) ||| (cond p.mirror 1 0) <<< 4 |||
    (cond p.transpose 1 0) <<< 5 ||| seg <<< 6) % 256)
    :: offsetBytes offset ((address_bits.getD seg 0 - 4) / 8)

def pointer.serialize (p : pointer) : List Nat :=
  pointer.serializeSeg p (compress_pointer p.data).1 (compress_pointer p.data).2

/-- Reassembly of the offset bytes on deserialization
(shared_tree.cpp:156-159): byte `i` of the list is ored in at shift
`k - 8 * (i + 1)`. -/
def orBytes : List Nat → Nat → Nat
  | [], _ => 0
  | b :: bs, k => (b <<< (k - 8)) ||| orBytes bs (k - 8)

/-- Pointer rebuilt from a header byte and the following offset bytes
(shared_tree.cpp:147-162): segment, transpose and mirror bits come from the
header, the offset from the header's low nibble and the extra bytes, and the
absolute index through decompress_pointer; the invariance flag is false. -/
def pointer.parseHeader (loaded : Nat) (rest : List Nat) : pointer :=
  pointer.ofIndex
    (decompress_pointer ((loaded >>> 6) &&& 3)
      (((loaded &&& 0xf) <<< (address_bits.getD ((loaded >>> 6) &&& 3) 0 - 4)) |||
        orBytes (rest.take ((address_bits.getD ((loaded >>> 6) &&& 3) 0 - 4) / 8))
          (address_bits.getD ((loaded >>> 6) &&& 3) 0 - 4)))
    (((loaded >>> 4) &&& 1) == 1) (((loaded >>> 5) &&& 1) == 1) false

/-- pointer::deserialize (shared_tree.cpp:147-163). -/
def pointer.deserialize (bs : List Nat) : pointer × List Nat :=
  (pointer.parseHeader (bs.headD 0) bs.tail,
    bs.tail.drop ((address_bits.getD (((bs.headD 0) >>> 6) &&& 3) 0 - 4) / 8))

theorem or_mul_pow_eq_add (x y k : Nat) (hx : x < 2 ^ k) :
    x ||| y * 2 ^ k = x + y * 2 ^ k := by
  have h := shiftLeft_or_eq_add x y k hx
  rwa [Nat.shiftLeft_eq] at h

theorem and_mod_pow (x m : Nat) : x &&& (2 ^ m - 1) = x % 2 ^ m :=
  Nat.and_pow_two_sub_one_eq_mod x m

theorem offsetBytes_length (off : Nat) : ∀ n, (offsetBytes off n).length = n := by
  intro n
  induction n with
  | zero => rfl
  | succ n ih => simp [offsetBytes, ih]

theorem orBytes_offsetBytes (off : Nat) : ∀ n, orBytes (offsetBytes off n) (8 * n) = off % 2 ^ (8 * n) := by
  intro n
  induction n with
  | zero => simp [offsetBytes, orBytes, Nat.mod_one]
  | succ n ih =>
    show ((off >>> (8 * n)) % 256) <<< (8 * (n + 1) - 8) |||
      orBytes (offsetBytes off n) (8 * (n + 1) - 8) = _
    have hk : 8 * (n + 1) - 8 = 8 * n := by omega
    rw [hk, ih, Nat.lor_comm, Nat.shiftLeft_eq,
      or_mul_pow_eq_add _ _ _ (Nat.mod_lt _ (by positivity))]
    have hshift : off >>> (8 * n) = off / 2 ^ (8 * n) := Nat.shiftRight_eq_div_pow off _
    have hpow : (2 : Nat) ^ (8 * (n + 1)) = 2 ^ (8 * n) * 256 := by
      rw [show 8 * (n + 1) = 8 * n + 8 by omega, Nat.pow_add]
    have hmod : off % (2 ^ (8 * n) * 256)
        = off % 2 ^ (8 * n) + 2 ^ (8 * n) * (off / 2 ^ (8 * n) % 256) := Nat.mod_mul
    rw [hpow, hmod, hshift]
    ring

/-- Field extraction from a serialized header byte. -/
theorem header_fields (a mb tb s : Nat) (ha : a < 16) (hmb : mb < 2) (htb : tb < 2)
    (hs : s < 4) :
    a + mb * 2 ^ 4 + tb * 2 ^ 5 + s * 2 ^ 6 < 256 ∧
    ((a + mb * 2 ^ 4 + tb * 2 ^ 5 + s * 2 ^ 6) >>> 6) &&& 3 = s ∧
    ((a + mb * 2 ^ 4 + tb * 2 ^ 5 + s * 2 ^ 6) >>> 5) &&& 1 = tb ∧
    ((a + mb * 2 ^ 4 + tb * 2 ^ 5 + s * 2 ^ 6) >>> 4) &&& 1 = mb ∧
    (a + mb * 2 ^ 4 + tb * 2 ^ 5 + s * 2 ^ 6) &&& 15 = a := by
  have h3 : ∀ x : Nat, x &&& 3 = x % 4 := fun x => by
    have h := and_mod_pow x 2
    norm_num at h
    exact h
  have h1 : ∀ x : Nat, x &&& 1 = x % 2 := fun x => by
    have h := and_mod_pow x 1
    simpa using h
  have hf : ∀ x : Nat, x &&& 15 = x % 16 := fun x => by
    have h := and_mod_pow x 4
    norm_num at h
    exact h
  simp only [Nat.shiftRight_eq_div_pow, h3, h1, hf]
  norm_num
  omega

/-- The or-composed header byte equals its additive decomposition. -/
theorem header_or_eq_add (a mb tb s : Nat) (ha : a < 16) (hmb : mb < 2) (htb : tb < 2) :
    a ||| mb <<< 4 ||| tb <<< 5 ||| s <<< 6
      = a + mb * 2 ^ 4 + tb * 2 ^ 5 + s * 2 ^ 6 := by
  simp only [Nat.shiftLeft_eq]
  rw [or_mul_pow_eq_add a mb 4 (by norm_num; omega)]
  rw [or_mul_pow_eq_add _ tb 5 (by norm_num; omega)]
  rw [or_mul_pow_eq_add _ s 6 (by norm_num; omega)]

/-- General serialization round trip, parameterized by the segment facts. -/
theorem pointer_roundtrip_aux (index : Nat) (m t inv : Bool) (extra : List Nat)
    (seg offset : Nat)
    (hc : compress_pointer index = (seg, offset))
    (hs : seg < 4)
    (hoff : offset < 2 ^ (8 * seg + 4))
    (hbits : address_bits.getD seg 0 = 8 * seg + 4)
    (hne : ¬(seg = 3 ∧ offset = 0xfffffff))
    (hdec : address_start seg + offset = index)
    (hindex : index < 2 ^ 32) :
    pointer.deserialize (pointer.serialize (pointer.ofIndex index m t inv) ++ extra)
      = (⟨index, m && !inv, t, false⟩, extra) := by
  have hdata : (pointer.ofIndex index m t inv).data = index := by
    show index % 2 ^ 32 = index
    exact Nat.mod_eq_of_lt hindex
  set mb : Nat := cond (m && !inv) 1 0 with hmb
  set tb : Nat := cond t 1 0 with htb
  have hmb2 : mb < 2 := by cases m <;> cases inv <;> simp [hmb]
  have htb2 : tb < 2 := by cases t <;> simp [htb]
  have hk : address_bits.getD seg 0 - 4 = 8 * seg := by omega
  have hn : 8 * seg / 8 = seg := by omega
  have ha : offset >>> (8 * seg) < 16 := by
    rw [Nat.shiftRight_eq_div_pow]
    have h2 : (2 : Nat) ^ (8 * seg + 4) = 2 ^ (8 * seg) * 16 := by
      rw [Nat.pow_add]
    exact Nat.div_lt_of_lt_mul (by omega)
  obtain ⟨h256, hseg', htb', hmb', ha'⟩ :=
    header_fields (offset >>> (8 * seg)) mb tb seg ha hmb2 htb2 hs
  -- the serialized byte list
  have hser : pointer.serialize (pointer.ofIndex index m t inv)
      = ((offset >>> (8 * seg)) + mb * 2 ^ 4 + tb * 2 ^ 5 + seg * 2 ^ 6)
        :: offsetBytes offset seg := by
    show pointer.serializeSeg (pointer.ofIndex index m t inv)
      (compress_pointer (pointer.ofIndex index m t inv).data).1
      (compress_pointer (pointer.ofIndex index m t inv).data).2 = _
    rw [hdata, hc]
    show (((offset >>> (address_bits.getD seg 0 - 4)) ||| mb <<< 4 |||
        tb <<< 5 ||| seg <<< 6) % 256)
      :: offsetBytes offset ((address_bits.getD seg 0 - 4) / 8) = _
    rw [hk, hn, header_or_eq_add _ mb tb seg ha hmb2 htb2, Nat.mod_eq_of_lt h256]
  rw [hser]
  -- deserialization
  have htake : (offsetBytes offset seg ++ extra).take seg = offsetBytes offset seg := by
    rw [List.take_append_of_le_length (by rw [offsetBytes_length]),
      List.take_of_length_le (by rw [offsetBytes_length])]
  have hdrop : (offsetBytes offset seg ++ extra).drop seg = extra := by
    rw [List.drop_append_of_le_length (by rw [offsetBytes_length]),
      List.drop_of_length_le (by rw [offsetBytes_length])]
    exact List.nil_append extra
  have hofs : ((offset >>> (8 * seg)) <<< (8 * seg)) ||| offset % 2 ^ (8 * seg) = offset := by
    rw [Nat.lor_comm, Nat.shiftLeft_eq,
      or_mul_pow_eq_add _ _ _ (Nat.mod_lt _ (by positivity)),
      Nat.shiftRight_eq_div_pow,
      Nat.mul_comm (offset / 2 ^ (8 * seg)) (2 ^ (8 * seg)), Nat.add_comm]
    exact Nat.div_add_mod offset (2 ^ (8 * seg))
  have hdecomp : decompress_pointer seg offset = index := by
    simp only [decompress_pointer]
    rw [if_neg hne]
    exact hdec
  have hmbool : (mb == 1) = (m && !inv) := by cases h : (m && !inv) <;> simp [hmb, h]
  have htbool : (tb == 1) = t := by cases h : t <;> simp [htb, h]
  have hparse : pointer.parseHeader
      ((offset >>> (8 * seg)) + mb * 2 ^ 4 + tb * 2 ^ 5 + seg * 2 ^ 6)
      (offsetBytes offset seg ++ extra) = ⟨index, m && !inv, t, false⟩ := by
    simp only [pointer.parseHeader, hseg', htb', hmb', ha', hbits]
    have h4 : 8 * seg + 4 - 4 = 8 * seg := by omega
    rw [h4, hn, htake, orBytes_offsetBytes, hofs, hdecomp, hmbool, htbool]
    show pointer.ofIndex index (m && !inv) t false = _
    simp only [pointer.ofIndex]
    rw [Nat.mod_eq_of_lt hindex]
    cases m <;> cases inv <;> rfl
  rw [List.cons_append]
  simp only [pointer.deserialize, List.headD_cons, List.tail_cons]
  rw [hseg', hbits]
  have h4 : 8 * seg + 4 - 4 = 8 * seg := by omega
  rw [h4, hn, hdrop, hparse]

theorem compress_pointer_spec (index : Nat) (hne : index ≠ 0x1fffffff) :
    compress_pointer index
      = (layer_segment index, index - address_start (layer_segment index)) := by
  unfold compress_pointer
  rw [if_neg hne]

theorem address_start_one : address_start 1 = 16 := by decide

theorem address_start_two : address_start 2 = 4112 := by decide

theorem address_start_three : address_start 3 = 1052688 := by decide

/-- Round trip of the segmented pointer encoding for every index strictly
below the last in-space index `1052688 + 2^28 - 1` (which collides with the
null encoding). -/
theorem pointer_roundtrip (index : Nat) (m t inv : Bool) (extra : List Nat)
    (h : index < 269488143) :
    pointer.deserialize (pointer.serialize (pointer.ofIndex index m t inv) ++ extra)
      = (⟨index, m && !inv, t, false⟩, extra) := by
  have hne : index ≠ 0x1fffffff := by omega
  have h32 : index < 2 ^ 32 := by omega
  have hcomp := compress_pointer_spec index hne
  by_cases c1 : index < 16
  · have hls : layer_segment index = 0 := by
      unfold layer_segment
      rw [if_pos (by rw [address_start_one]; omega)]
    rw [hls] at hcomp
    refine pointer_roundtrip_aux index m t inv extra 0 (index - address_start 0) hcomp
      (by norm_num) (by show index - 0 < 2 ^ 4; omega) (by decide) (by simp)
      (by show 0 + (index - 0) = index; omega) h32
  · by_cases c2 : index < 4112
    · have hls : layer_segment index = 1 := by
        unfold layer_segment
        rw [if_neg (by rw [address_start_one]; omega),
          if_pos (by rw [address_start_two]; omega)]
      rw [hls, address_start_one] at hcomp
      refine pointer_roundtrip_aux index m t inv extra 1 (index - 16) hcomp
        (by norm_num) (by show index - 16 < 2 ^ 12; norm_num; omega) (by decide) (by simp)
        (by rw [address_start_one]; omega) h32
    · by_cases c3 : index < 1052688
      · have hls : layer_segment index = 2 := by
          unfold layer_segment
          rw [if_neg (by rw [address_start_one]; omega),
            if_neg (by rw [address_start_two]; omega),
            if_pos (by rw [address_start_three]; omega)]
        rw [hls, address_start_two] at hcomp
        refine pointer_roundtrip_aux index m t inv extra 2 (index - 4112) hcomp
          (by norm_num) (by show index - 4112 < 2 ^ 20; norm_num; omega) (by decide)
          (by simp) (by rw [address_start_two]; omega) h32
      · have hls : layer_segment index = 3 := by
          unfold layer_segment
          rw [if_neg (by rw [address_start_one]; omega),
            if_neg (by rw [address_start_two]; omega),
            if_neg (by rw [address_start_three]; omega)]
        rw [hls, address_start_three] at hcomp
        refine pointer_roundtrip_aux index m t inv extra 3 (index - 1052688) hcomp
          (by norm_num) (by show index - 1052688 < 2 ^ 28; norm_num; omega) (by decide)
          (by norm_num; omega) (by rw [address_start_three]; omega) h32

theorem pointer_serialize_length (p : pointer) :
    (p.serialize).length = (compress_pointer p.data).1 + 1 := by
  have hs : (compress_pointer p.data).1 < 4 := by
    unfold compress_pointer layer_segment
    split_ifs <;> norm_num
  show (pointer.serializeSeg p (compress_pointer p.data).1 (compress_pointer p.data).2).length = _
  unfold pointer.serializeSeg
  rw [List.length_cons, offsetBytes_length]
  set s := (compress_pointer p.data).1
  interval_cases s <;> simp [address_bits]

/-- C5 (amended): for every pointer index strictly inside the segmented
address space except its final index 269488143 (whose encoding is reserved
for the null pointer), serialization writes exactly `segment + 1` bytes
(1, 2, 3 or 4), the invariant flag does not influence the byte stream, and
deserializing the stream yields a pointer that compares equal to the
original. -/
theorem C5_segmented_serialization (index : Nat) (m t inv : Bool) (extra : List Nat)
    (h : index < 269488143) :
    ((pointer.ofIndex index m t inv).serialize).length = layer_segment index + 1 ∧
    (∀ b : Bool,
      pointer.serialize ⟨(pointer.ofIndex index m t inv).data,
        (pointer.ofIndex index m t inv).mirror,
        (pointer.ofIndex index m t inv).transpose, b⟩
        = (pointer.ofIndex index m t inv).serialize) ∧
    ((pointer.deserialize ((pointer.ofIndex index m t inv).serialize ++ extra)).1).beq
      (pointer.ofIndex index m t inv) = true ∧
    (pointer.deserialize ((pointer.ofIndex index m t inv).serialize ++ extra)).2 = extra := by
  have h32 : index < 2 ^ 32 := by omega
  have hrt := pointer_roundtrip index m t inv extra h
  refine ⟨?_, ?_, ?_, ?_⟩
  · rw [pointer_serialize_length]
    have hdata : (pointer.ofIndex index m t inv).data = index := by
      show index % 2 ^ 32 = index
      exact Nat.mod_eq_of_lt h32
    rw [hdata, compress_pointer_spec index (by omega)]
  · intro b
    rfl
  · rw [hrt]
    show pointer.beq ⟨index, m && !inv, t, false⟩ ⟨index % 2 ^ 32, m && !inv, t, inv⟩ = true
    have hmod : index % 4294967296 = index := Nat.mod_eq_of_lt (by omega)
    simp [pointer.beq, pointer.toUlong, hmod]
  · rw [hrt]

/-- C5 witness at a segment-1 index. -/
theorem C5_segmented_serialization_witness :
    20 < 269488143 ∧
    (((pointer.ofIndex 20 true false false).serialize).length = layer_segment 20 + 1 ∧
    (∀ b : Bool,
      pointer.serialize ⟨(pointer.ofIndex 20 true false false).data,
        (pointer.ofIndex 20 true false false).mirror,
        (pointer.ofIndex 20 true false false).transpose, b⟩
        = (pointer.ofIndex 20 true false false).serialize) ∧
    ((pointer.deserialize ((pointer.ofIndex 20 true false false).serialize ++ [7])).1).beq
      (pointer.ofIndex 20 true false false) = true ∧
    (pointer.deserialize ((pointer.ofIndex 20 true false false).serialize ++ [7])).2 = [7]) :=
  ⟨by decide, C5_segmented_serialization 20 true false false [7] (by decide)⟩

/-- C5 counterexample: the final in-space index `1052688 + 2^28 - 1` is inside
the segmented address space, yet its serialization decodes to the null
pointer, not to a pointer equal to the original — the round trip of the claim
fails there. -/
theorem C5_null_collision_counterexample :
    269488143 < address_start 3 + address_space 3 ∧
    ((pointer.deserialize
      ((pointer.ofIndex 269488143 false false false).serialize ++ [])).1).beq
      (pointer.ofIndex 269488143 false false false) = false ∧
    ((pointer.deserialize
      ((pointer.ofIndex 269488143 false false false).serialize ++ [])).1).isNull = true := by
  refine ⟨by decide, by decide, by decide⟩

/-- A pointer compares equal to null exactly when its data word is all-ones
(29 bits) and both tag bits are clear; the invariance bit is free. -/
theorem pointer_isNull_char (p : pointer) (h : p.isNull = true) :
    p.data = 0x1fffffff ∧ p.mirror = false ∧ p.transpose = false := by
  have hu : p.toUlong = 0x1fffffff := by
    simp only [pointer.isNull, pointer.beq, beq_iff_eq] at h
    exact h
  have hb29 : Nat.testBit 0x1fffffff 29 = false := by decide
  have hb30 : Nat.testBit 0x1fffffff 30 = false := by decide
  cases p with
  | mk data mirror transpose invariant =>
    simp only [pointer.toUlong] at hu
    cases mirror
    · cases transpose
      · refine ⟨?_, rfl, rfl⟩
        simpa using hu
      · exfalso
        have h30 := congrArg (fun x => Nat.testBit x 30) hu
        simp only [Nat.testBit_or, Nat.testBit_shiftLeft, Bool.cond_true, Bool.cond_false,
          hb30] at h30
        simp at h30
    · exfalso
      have h29 := congrArg (fun x => Nat.testBit x 29) hu
      simp only [Nat.testBit_or, Nat.testBit_shiftLeft, Bool.cond_true, Bool.cond_false,
        hb29] at h29
      simp at h29

/-- C6 (amended): the null pointer has all 29 index bits set, clear mirror and
transpose bits and a set invariant flag; for every pointer comparing equal to
null, transposing keeps it null, and mirroring and inverting keep it null
whenever its invariant flag is set (as it is on the canonical null).  A
null-equal pointer with a clear invariant flag — as produced by
deserialization — is not closed under mirroring (see the counterexample). -/
theorem C6_null_pointer_transforms :
    pointer.null.data = 2 ^ 29 - 1 ∧ pointer.null.mirror = false ∧
    pointer.null.transpose = false ∧ pointer.null.invariant = true ∧
    (∀ p : pointer, p.isNull = true → (p.transposed).isNull = true) ∧
    (∀ p : pointer, p.isNull = true → p.invariant = true →
      (p.mirrored).isNull = true ∧ (p.inverted).isNull = true) := by
  refine ⟨by decide, rfl, rfl, rfl, ?_, ?_⟩
  · intro p h
    obtain ⟨hd, hm, ht⟩ := pointer_isNull_char p h
    cases p with
    | mk data mirror transpose invariant =>
      simp only at hd hm ht
      subst hd hm ht
      cases invariant <;> decide
  · intro p h hinv
    obtain ⟨hd, hm, ht⟩ := pointer_isNull_char p h
    cases p with
    | mk data mirror transpose invariant =>
      simp only at hd hm ht hinv
      subst hd hm ht hinv
      decide

/-- C6 witness at the canonical null pointer itself. -/
theorem C6_null_pointer_transforms_witness :
    pointer.null.isNull = true ∧
    (pointer.null.transposed).isNull = true ∧
    (pointer.null.mirrored).isNull = true ∧ (pointer.null.inverted).isNull = true := by
  refine ⟨by decide, C6_null_pointer_transforms.2.2.2.2.1 pointer.null (by decide), ?_, ?_⟩
  · exact (C6_null_pointer_transforms.2.2.2.2.2 pointer.null (by decide) (by decide)).1
  · exact (C6_null_pointer_transforms.2.2.2.2.2 pointer.null (by decide) (by decide)).2

/-- C6 counterexample: deserializing the serialized null pointer yields a
null-equal pointer whose invariant flag is clear; mirroring it (and hence
inverting it) produces a pointer that no longer compares equal to null,
because the mirror guard tests the invariant flag rather than nullness
(shared_tree.cpp:78). -/
theorem C6_nonnull_mirror_counterexample :
    (pointer.deserialize (pointer.serialize pointer.null ++ [])).1
      = ⟨0x1fffffff, false, false, false⟩ ∧
    (pointer.mk 0x1fffffff false false false).isNull = true ∧
    ((pointer.mk 0x1fffffff false false false).mirrored).isNull = false ∧
    ((pointer.mk 0x1fffffff false false false).inverted).isNull = false := by
  refine ⟨by decide, by decide, by decide, by decide⟩

/-- C8: the source contains no capacity check at all.  At the first index past
the segmented address space, `2^28 + 1052688`, serialization silently
corrupts the pointer instead of failing: the offset's high bit leaks into the
mirror bit of the header, so the bytes decode to index 1052688 with a spurious
mirror flag — no `Capacity` error exists anywhere in the code. -/
theorem C8_no_capacity_check_corruption :
    (pointer.ofIndex 269488144 false false false).serialize.length = 4 ∧
    (pointer.deserialize
      ((pointer.ofIndex 269488144 false false false).serialize ++ [])).1
      = ⟨1052688, true, false, false⟩ := by
  refine ⟨by decide, by decide⟩

/-- C7: dna::serialize writes the full 8-byte machine word through
binary_write's default width for every configured strand length, although
`dna::bytes()` — used by the tree's size accounting — promises
`⌈L/2⌉ = 6` bytes at the default length 12; deserialization reads the same
8 bytes back and is a correct inverse. -/
theorem C7_serialize_writes_full_word (d : dna) (rest : List Nat) (h : d.wfv) :
    (d.serialize).length = 8 ∧ dna.bytes 12 = 6 ∧
    dna.deserialize (d.serialize ++ rest) = (d, rest) :=
  ⟨binaryWriteBytes_length 8 d.val, rfl, dna.deserialize_serialize d h rest⟩

/-- C7 witness at a concrete strand. -/
theorem C7_serialize_writes_full_word_witness :
    (dna.mk 81985529216486895).wfv ∧
    (((dna.mk 81985529216486895).serialize).length = 8 ∧ dna.bytes 12 = 6 ∧
      dna.deserialize ((dna.mk 81985529216486895).serialize ++ [3]) =
        (dna.mk 81985529216486895, [3])) :=
  ⟨by decide, C7_serialize_writes_full_word (dna.mk 81985529216486895) [3] (by decide)⟩

/-- to_nac succeeds exactly on the characters valid_nac accepts. -/
theorem to_nac_isSome_eq_valid_nac (c : Char) : (to_nac c).isSome = valid_nac c := by
  unfold to_nac valid_nac
  split <;> simp_all

/-- C9 (amended): parsing a text of exactly the configured length fails
precisely when some character is not one of the FASTA codes accepted by the
source — `A C G T R Y K M S W B D H V N` and `-` (the indeterminate code),
case-insensitively.  Each accepted code maps to its §3 nibble value, with the
indeterminate nibble `1111` spelled `-`, not `X`. -/
theorem C9_strand_parsing (L : Nat) (s : String) (hlen : s.length = L) :
    (dna.ofText L s = none ↔ ¬ (∀ c ∈ s.data, valid_nac c = true)) ∧
    (∀ c : Char, (to_nac c).isSome = valid_nac c) ∧
    (to_nac 'A' = some 1 ∧ to_nac 'C' = some 2 ∧ to_nac 'G' = some 4 ∧
     to_nac 'T' = some 8 ∧ to_nac 'R' = some 3 ∧ to_nac 'Y' = some 12 ∧
     to_nac 'K' = some 7 ∧ to_nac 'M' = some 14 ∧ to_nac 'S' = some 0 ∧
     to_nac 'W' = some 9 ∧ to_nac 'B' = some 5 ∧ to_nac 'D' = some 11 ∧
     to_nac 'H' = some 13 ∧ to_nac 'V' = some 10 ∧ to_nac 'N' = some 6 ∧
     to_nac '-' = some 15 ∧ to_nac 'a' = some 1 ∧ to_nac 'X' = none) := by
  refine ⟨?_, to_nac_isSome_eq_valid_nac, by decide⟩
  unfold dna.ofText
  rw [if_neg (by omega)]
  constructor
  · intro h
    have hnone : setNibbles s.data 0 0 = none := by
      cases hs : setNibbles s.data 0 0 with
      | none => rfl
      | some v => rw [hs] at h; simp at h
    obtain ⟨c, hc, hn⟩ := (setNibbles_isNone s.data 0 0).mp hnone
    intro hall
    have := hall c hc
    rw [← to_nac_isSome_eq_valid_nac] at this
    rw [hn] at this
    simp at this
  · intro h
    have : ∃ c ∈ s.data, to_nac c = none := by
      by_contra hno
      push_neg at hno
      exact h (fun c hc => by
        have h1 := hno c hc
        have h2 := to_nac_isSome_eq_valid_nac c
        cases ht : to_nac c with
        | none => exact absurd ht (h1)
        | some v => rw [ht] at h2; simpa using h2.symm)
    rw [← setNibbles_isNone s.data 0 0] at this
    rw [this]
    rfl

/-- C9 witness on a well-formed strand text. -/
theorem C9_strand_parsing_witness :
    ("ACGTACGTACGT".length = 12) ∧
    ((dna.ofText 12 "ACGTACGTACGT" = none ↔
      ¬ (∀ c ∈ "ACGTACGTACGT".data, valid_nac c = true)) ∧
    (∀ c : Char, (to_nac c).isSome = valid_nac c) ∧
    (to_nac 'A' = some 1 ∧ to_nac 'C' = some 2 ∧ to_nac 'G' = some 4 ∧
     to_nac 'T' = some 8 ∧ to_nac 'R' = some 3 ∧ to_nac 'Y' = some 12 ∧
     to_nac 'K' = some 7 ∧ to_nac 'M' = some 14 ∧ to_nac 'S' = some 0 ∧
     to_nac 'W' = some 9 ∧ to_nac 'B' = some 5 ∧ to_nac 'D' = some 11 ∧
     to_nac 'H' = some 13 ∧ to_nac 'V' = some 10 ∧ to_nac 'N' = some 6 ∧
     to_nac '-' = some 15 ∧ to_nac 'a' = some 1 ∧ to_nac 'X' = none)) :=
  ⟨by decide, C9_strand_parsing 12 "ACGTACGTACGT" (by decide)⟩

/-- C9 counterexample: the spec's §3 alphabet lists `X` as the indeterminate
code, but the parser rejects `X` (it terminates via the unknown-symbol
branch); the indeterminate nibble is written `-` in the source. -/
theorem C9_indeterminate_counterexample :
    to_nac 'X' = none ∧ valid_nac 'X' = false ∧
    dna.ofText 12 "XXXXXXXXXXXX" = none ∧ to_nac '-' = some 15 := by
  refine ⟨by decide, by decide, by decide, by decide⟩

/-! ## Node (class node; shared_tree.cpp:166-196, balanced_shared_tree.h:96-117) -/

/-- An inner node: an ordered pair of child pointers. -/
structure node where
  left : pointer
  right : pointer
  deriving DecidableEq, Repr

instance : Inhabited pointer := ⟨pointer.null⟩

instance : Inhabited node := ⟨⟨pointer.null, pointer.null⟩⟩

instance : Inhabited dna := ⟨⟨0⟩⟩

/-- node::mirrored (balanced_shared_tree.h:103): swap children and mirror
each. -/
def node.mirroredN (n : node) : node := ⟨n.right.mirrored, n.left.mirrored⟩

/-- node::transposed (balanced_shared_tree.h:104): transpose both children. -/
def node.transposedN (n : node) : node := ⟨n.left.transposed, n.right.transposed⟩

/-- node::inverted (balanced_shared_tree.h:105): `mirrored().transposed()`. -/
def node.invertedN (n : node) : node := (n.mirroredN).transposedN

/-- node::operator== of the current generation (shared_tree.cpp:175-177):
exact equality of the children array, i.e. pairwise pointer equality. -/
def node.beqN (a b : node) : Bool := a.left.beq b.left && a.right.beq b.right

/-- Lexicographic comparison on the raw packed words (spec §4.2: pointer
ordering is on the packed word, used as the canonicalization tiebreaker). -/
def node.keyLt (a b : node) : Bool :=
  decide (a.left.toUlong < b.left.toUlong) ||
    (a.left.toUlong == b.left.toUlong && decide (a.right.toUlong < b.right.toUlong))

/-- node::canonical.  Modelled from the spec: the member is declared in the
missing header of shared_tree.cpp (used at shared_tree.cpp:665); spec §4.3
specifies the four candidates self, mirrored, transposed, inverted, the
lexicographically smallest of which is returned with its transform witness. -/
def node.canonical (n : node) : node × Bool × Bool :=
  vmin4 (fun x y => node.keyLt x.1 y.1)
    (n, false, false) (n.mirroredN, true, false)
    (n.transposedN, false, true) (n.invertedN, true, true)

/-! ## Tree store (class shared_tree; shared_tree.cpp:199-291) -/

/-- The tree store: deduplicated leaves, one node vector per layer, and the
root pointer (balanced_shared_tree.h:217-220 for the current generation's
field layout). -/
structure shared_tree where
  root : pointer
  nodes : List (List node)
  leaves : List dna
  deriving Repr

/-- shared_tree::access_leaf (shared_tree.cpp:231-236): fetch the strand and
apply the pointer's mirror then transpose flags. -/
def access_leaf (L : Nat) (leaves : List dna) (p : pointer) : dna :=
  let leaf := leaves.getD p.index default
  let leaf1 := if p.mirror then leaf.mirrored L else leaf
  if p.transpose then leaf1.transposed else leaf1

/-- shared_tree::access_node (shared_tree.cpp:242-244). -/
def access_node (nodes : List (List node)) (layer : Nat) (p : pointer) : node :=
  (nodes.getD layer []).getD p.index default

/-- shared_tree::node_count (shared_tree.cpp:221-225). -/
def shared_tree.node_count (t : shared_tree) : Nat :=
  (t.nodes.map List.length).sum

/-- shared_tree::leaf_count. -/
def shared_tree.leaf_count (t : shared_tree) : Nat := t.leaves.length

/-- The indexing loop of shared_tree::operator[] (shared_tree.cpp:268-291).
The first argument counts the remaining iterations: at `m + 1` the loop body
runs for `layer = m`, descending by child-subtree size `1u << layer` (a 32-bit
unsigned shift, hence the `% 2^32`); when the current pointer is mirrored the
node's children are taken as (right, left).  The pointers pushed down are
built with the copy-transform constructor carrying the current flags. -/
def indexGo (L : Nat) (nodes : List (List node)) : Nat → pointer → Nat → pointer × Nat
  | 0, cur, idx => (cur, idx)
  | m + 1, cur, idx =>
    let nd := access_node nodes m cur
    let size := 2 ^ m % 2 ^ 32
    let first := if cur.mirror then nd.right else nd.left
    let second := if cur.mirror then nd.left else nd.right
    if idx < size then
      indexGo L nodes m (pointer.transform first cur.mirror cur.transpose) idx
    else
      indexGo L nodes m (pointer.transform second cur.mirror cur.transpose) (idx - size)

/-- shared_tree::operator[] (shared_tree.cpp:268-291): run the descent from
the root across all node layers, then read the reached leaf pointer. -/
def shared_tree.get (L : Nat) (t : shared_tree) (i : Nat) : dna :=
  access_leaf L t.leaves (indexGo L t.nodes t.nodes.length t.root i).1

/-! ## Semantics: the strand sequence denoted by a pointer -/

/-- Mirror of a sequence of strands: reverse the order and mirror each
strand. -/
def mirrorSeq (L : Nat) (s : List dna) : List dna := (s.reverse).map (dna.mirrored L)

/-- Transpose of a sequence of strands. -/
def transposeSeq (s : List dna) : List dna := s.map dna.transposed

/-- Flag application on sequences, in access_leaf's order: mirror first, then
transpose. -/
def seqTx (L : Nat) (m t : Bool) (s : List dna) : List dna :=
  (if t then transposeSeq else id) ((if m then mirrorSeq L else id) s)

/-- The strand sequence denoted by a pointer at a level: level 0 refers to the
leaf vector, level `k+1` to node layer `k`. -/
def denoteAt (L : Nat) (nodes : List (List node)) (leaves : List dna) :
    Nat → pointer → List dna
  | 0, p => if p.isNull then [] else [access_leaf L leaves p]
  | k + 1, p =>
    if p.isNull then []
    else
      seqTx L p.mirror p.transpose
        (denoteAt L nodes leaves k (access_node nodes k p).left ++
         denoteAt L nodes leaves k (access_node nodes k p).right)

/-- Structural wellformedness of a pointer at a level: null, or in-bounds with
recursively wellformed children. -/
def wfAt (nodes : List (List node)) (leaves : List dna) : Nat → pointer → Prop
  | 0, p => p.isNull = true ∨ p.index < leaves.length
  | k + 1, p => p.isNull = true ∨
      (k < nodes.length ∧ p.index < (nodes.getD k []).length ∧
       wfAt nodes leaves k (access_node nodes k p).left ∧
       wfAt nodes leaves k (access_node nodes k p).right)

/-- Machine-level wellformedness of a pointer value: the mirror bit is clamped
by the invariance bit, the all-ones data word occurs only in the canonical
null, and the data word fits the 32-bit member. -/
def pWF (p : pointer) : Prop :=
  (p.invariant = true → p.mirror = false) ∧
  (p.data = 0x1fffffff → p = pointer.null) ∧ p.data < 2 ^ 32

/-- Truthfulness of the invariance flag: an invariant-marked non-null pointer
denotes a mirror-invariant, full subtree sequence. -/
def truthfulAt (L : Nat) (nodes : List (List node)) (leaves : List dna)
    (lev : Nat) (p : pointer) : Prop :=
  p.invariant = true → p.isNull = false →
    mirrorSeq L (denoteAt L nodes leaves lev p) = denoteAt L nodes leaves lev p ∧
    (denoteAt L nodes leaves lev p).length = 2 ^ lev

/-- Fullness of the denoted sequence. -/
def fullAt (L : Nat) (nodes : List (List node)) (leaves : List dna)
    (lev : Nat) (p : pointer) : Prop :=
  (denoteAt L nodes leaves lev p).length = 2 ^ lev

/-- The logical left child: the stored children are taken as (right, left)
when the pointer is mirrored, and the selected child is wrapped with the
copy-transform constructor carrying the pointer's flags, exactly as
operator[] and the iterator do. -/
def logicalL (nodes : List (List node)) (k : Nat) (p : pointer) : pointer :=
  pointer.transform
    (if p.mirror then (access_node nodes k p).right else (access_node nodes k p).left)
    p.mirror p.transpose

/-- The logical right child. -/
def logicalR (nodes : List (List node)) (k : Nat) (p : pointer) : pointer :=
  pointer.transform
    (if p.mirror then (access_node nodes k p).left else (access_node nodes k p).right)
    p.mirror p.transpose

/-- Left-completeness, the shape invariant behind the indexing operator: at
every node, the logical left child is present, the logical right child is
null or preceded by a full logical left child, recursively. -/
def lcAt (L : Nat) (nodes : List (List node)) (leaves : List dna) :
    Nat → pointer → Prop
  | 0, _ => True
  | k + 1, p => p.isNull = false →
      (logicalL nodes k p).isNull = false ∧
      lcAt L nodes leaves k (logicalL nodes k p) ∧
      ((logicalR nodes k p).isNull = true ∨
        (lcAt L nodes leaves k (logicalR nodes k p) ∧
         fullAt L nodes leaves k (logicalL nodes k p)))

/-! ## Tree constructor (class tree_constructor; shared_tree.cpp:619-763)

The constructor's hash maps (`leaves : hash_map<dna>`, `nodes :
std::vector<hash_map<node>>`) hold, at every moment, exactly the enumeration
of the parent store's vectors: each successful map insertion uses the store's
current size as value and is immediately followed by the matching store
append, and entries are never removed, so a key is in a map with value `i`
iff the store holds it at position `i` (and store entries are pairwise
distinct, since an entry is only appended after a failed lookup).  The maps
are therefore embedded as index lookups on the store vectors themselves; for
the same reason the constructor's per-layer map vector always has the same
length as the store's layer vector, so `nodes.size()` is embedded as
`tree_nodes.length`. -/

structure tree_constructor where
  tree_nodes : List (List node)
  tree_leaves : List dna
  roots : List pointer
  deriving Repr

/-- Position of the first list element satisfying a predicate. -/
def posOf {α : Type} (p : α → Bool) : List α → Option Nat
  | [] => none
  | a :: l => if p a then some 0 else (posOf p l).map (fun i => i + 1)

/-- hash_map<dna>::emplace lookup: position of an equal strand. -/
def lookupLeaf (leaves : List dna) (k : dna) : Option Nat :=
  posOf (fun x => x == k) leaves

/-- hash_map<node>::emplace lookup: position of an equal node (node
operator==, shared_tree.cpp:175-177). -/
def lookupNode (layer : List node) (k : node) : Option Nat :=
  posOf (fun x => node.beqN x k) layer

/-- tree_constructor::emplace_leaf (shared_tree.cpp:630-637): canonicalize,
look the canonical strand up, append it to the store on a miss, and return a
pointer to it carrying the canonicalization flags. -/
def tree_constructor.emplace_leaf (L : Nat) (c : tree_constructor) (leaf : dna) :
    tree_constructor × pointer :=
  let can := (dna.canonical L leaf).1
  let m := (dna.canonical L leaf).2.1
  let t := (dna.canonical L leaf).2.2.1
  let inv := (dna.canonical L leaf).2.2.2
  match lookupLeaf c.tree_leaves can with
  | some index => (c, pointer.ofIndex index m t inv)
  | none =>
      ({ c with tree_leaves := c.tree_leaves ++ [can] },
       pointer.ofIndex c.tree_leaves.length m t inv)

/-- tree_constructor::emplace_node (shared_tree.cpp:662-672): canonicalize
the created node, look it up in the layer, append it to the store layer on a
miss, and return a pointer carrying the canonicalization flags and the
mirror-invariance check `left == right.mirrored()`. -/
def tree_constructor.emplace_node (c : tree_constructor) (layer : Nat)
    (l r : pointer) : tree_constructor × pointer :=
  let can := (node.canonical ⟨l, r⟩).1
  let m := (node.canonical ⟨l, r⟩).2.1
  let t := (node.canonical ⟨l, r⟩).2.2
  let inv := l.beq r.mirrored
  match lookupNode (c.tree_nodes.getD layer []) can with
  | some index => (c, pointer.ofIndex index m t inv)
  | none =>
      ({ c with
          tree_nodes :=
            c.tree_nodes.set layer (c.tree_nodes.getD layer [] ++ [can]) },
       pointer.ofIndex (c.tree_nodes.getD layer []).length m t inv)

/-- tree_constructor::emplace_leaves(dna, dna) (shared_tree.cpp:643-647). -/
def tree_constructor.emplace_leaves2 (L : Nat) (c : tree_constructor)
    (left right : dna) : tree_constructor × pointer :=
  let r1 := c.emplace_leaf L left
  let r2 := r1.1.emplace_leaf L right
  r2.1.emplace_node 0 r1.2 r2.2

/-- tree_constructor::emplace_leaves(dna) (shared_tree.cpp:653-656); the
defaulted right child of emplace_node is the null pointer
(balanced_shared_tree.h:250). -/
def tree_constructor.emplace_leaves1 (L : Nat) (c : tree_constructor)
    (last : dna) : tree_constructor × pointer :=
  let r1 := c.emplace_leaf L last
  r1.1.emplace_node 0 r1.2 pointer.null

/-- utility.h foreach_pair (utility.h:17-29), threading mutable state through
the two callbacks and collecting their results. -/
def foreachPair {σ α β : Type} (f2 : σ → α → α → σ × β) (f1 : σ → α → σ × β) :
    σ → List α → σ × List β
  | s, [] => (s, [])
  | s, [a] => ((f1 s a).1, [(f1 s a).2])
  | s, a :: b :: rest =>
      ((foreachPair f2 f1 (f2 s a b).1 rest).1,
       (f2 s a b).2 :: (foreachPair f2 f1 (f2 s a b).1 rest).2)

theorem foreachPair_length {σ α β : Type} (f2 : σ → α → α → σ × β)
    (f1 : σ → α → σ × β) :
    ∀ (l : List α) (s : σ), ((foreachPair f2 f1 s l).2).length = (l.length + 1) / 2
  | [], _ => by simp [foreachPair]
  | [_], _ => by simp [foreachPair]
  | _ :: _ :: rest, s => by
      simp only [foreachPair, List.length_cons]
      rw [foreachPair_length f2 f1 rest]
      omega

theorem foreachPair_pres {σ α β : Type} (f2 : σ → α → α → σ × β)
    (f1 : σ → α → σ × β) (P : σ → Prop)
    (h2 : ∀ s a b, P s → P (f2 s a b).1) (h1 : ∀ s a, P s → P (f1 s a).1) :
    ∀ (l : List α) (s : σ), P s → P (foreachPair f2 f1 s l).1
  | [], _, hs => hs
  | [a], s, hs => h1 s a hs
  | a :: b :: rest, s, hs =>
      foreachPair_pres f2 f1 P h2 h1 rest (f2 s a b).1 (h2 s a b hs)

/-- tree_constructor::reduce_leaves.  Modelled from the spec: the member is
declared in the missing current-generation header; spec §4.5 step 1 and the
older-generation template (balanced_shared_tree.h:282-298) pair the segment's
strands with emplace_leaves, adding node layer 0 first when the tree is still
of depth 1 (`parent.depth() == 1`, depth() being nodes.size() + 1). -/
def tree_constructor.reduce_leaves (L : Nat) (c : tree_constructor)
    (seg : List dna) : tree_constructor × List pointer :=
  let c0 := if c.tree_nodes.length + 1 = 1
    then { c with tree_nodes := c.tree_nodes ++ [[]] } else c
  foreachPair (fun s a b => tree_constructor.emplace_leaves2 L s a b)
    (fun s a => tree_constructor.emplace_leaves1 L s a) c0 seg

/-- tree_constructor::reduce_nodes (shared_tree.cpp:697-712): add a layer if
`parent.depth() - 2 < index`, then pair the pointers with emplace_node into
layer `index`. -/
def tree_constructor.reduce_nodes (c : tree_constructor) (ps : List pointer)
    (index : Nat) : tree_constructor × List pointer :=
  let c0 := if c.tree_nodes.length + 1 - 2 < index
    then { c with tree_nodes := c.tree_nodes ++ [[]] } else c
  foreachPair (fun s a b => s.emplace_node index a b)
    (fun s a => s.emplace_node index a pointer.null) c0 ps

theorem emplace_node_nodes_length (c : tree_constructor) (layer : Nat)
    (l r : pointer) :
    ((c.emplace_node layer l r).1).tree_nodes.length = c.tree_nodes.length := by
  simp only [tree_constructor.emplace_node]
  split
  · rfl
  · simp

theorem reduce_nodes_out_length (c : tree_constructor) (ps : List pointer)
    (index : Nat) :
    ((c.reduce_nodes ps index).2).length = (ps.length + 1) / 2 := by
  simp only [tree_constructor.reduce_nodes]
  exact foreachPair_length _ _ ps _

theorem reduce_nodes_depth (c : tree_constructor) (ps : List pointer)
    (index : Nat) :
    ((c.reduce_nodes ps index).1).tree_nodes.length = c.tree_nodes.length ∨
    (((c.reduce_nodes ps index).1).tree_nodes.length = c.tree_nodes.length + 1 ∧
      c.tree_nodes.length ≤ index) := by
  have key : ∀ (c0 : tree_constructor) (l : List pointer),
      (foreachPair (fun (s : tree_constructor) a b => s.emplace_node index a b)
        (fun (s : tree_constructor) a => s.emplace_node index a pointer.null)
        c0 l).1.tree_nodes.length = c0.tree_nodes.length := by
    intro c0 l
    refine foreachPair_pres _ _
      (fun s => s.tree_nodes.length = c0.tree_nodes.length) ?_ ?_ l c0 rfl
    · intro s a b hs; rw [emplace_node_nodes_length]; exact hs
    · intro s a hs; rw [emplace_node_nodes_length]; exact hs
  simp only [tree_constructor.reduce_nodes]
  split
  case isTrue h =>
    right
    rw [key]
    refine ⟨by simp, by omega⟩
  case isFalse h =>
    left
    rw [key]

/-- The tie-up loop of tree_constructor::reduce_segment.  Modelled from the
spec: reduce_segment is declared in the missing current-generation header;
spec §4.5 steps 2-3 and the older-generation template
(balanced_shared_tree.h:304-313) run `layer = reduce_nodes(layer, index)` for
`index = 1, 2, ...` while `layer.size() > 1 || index < nodes.size()`. -/
def reduceBulkGo (c : tree_constructor) (ps : List pointer) (index : Nat) :
    tree_constructor × List pointer :=
  if 1 < ps.length ∨ index < c.tree_nodes.length then
    reduceBulkGo (c.reduce_nodes ps index).1 (c.reduce_nodes ps index).2 (index + 1)
  else (c, ps)
termination_by 2 * ps.length + (c.tree_nodes.length - index)
decreasing_by
  have h1 := reduce_nodes_out_length c ps index
  have h2 := reduce_nodes_depth c ps index
  omega

/-- tree_constructor::reduce_segment.  Modelled from the spec: declared in
the missing current-generation header; spec §4.5 reduces the segment's leaves,
ties the layers up to a single root, and records that root in `roots` (the
caller shared_tree.cpp:751 discards the return value, so the segment root is
recorded by reduce_segment itself). -/
def tree_constructor.reduce_segment (L : Nat) (c : tree_constructor)
    (seg : List dna) : tree_constructor :=
  let r1 := c.reduce_leaves L seg
  let r2 := reduceBulkGo r1.1 r1.2 1
  { r2.1 with roots := r2.1.roots ++ [r2.2.headD pointer.null] }

/-- The loop of tree_constructor::reduce_roots (shared_tree.cpp:677-690):
starting at `index = nodes.size()`, halve the root list with reduce_nodes
until one pointer remains. -/
def reduceRootsGo (c : tree_constructor) (rs : List pointer) (index : Nat) :
    tree_constructor × List pointer :=
  if 1 < rs.length then
    reduceRootsGo (c.reduce_nodes rs index).1 (c.reduce_nodes rs index).2 (index + 1)
  else (c, rs)
termination_by rs.length
decreasing_by
  have h1 := reduce_nodes_out_length c rs index
  omega

/-- tree_constructor::reduce_roots (shared_tree.cpp:677-690); `roots.front()`
of an empty root list is undefined in the source, embedded as the default
null. -/
def tree_constructor.reduce_roots (c : tree_constructor) :
    tree_constructor × pointer :=
  ((reduceRootsGo c c.roots c.tree_nodes.length).1,
   (reduceRootsGo c c.roots c.tree_nodes.length).2.headD pointer.null)

/-- utility.h chunks: split a list into blocks of `n` (the last may be
short). -/
def chunksList {α : Type} (n : Nat) : List α → List (List α)
  | [] => []
  | a :: rest => (a :: rest.take (n - 1)) :: chunksList n (rest.drop (n - 1))
termination_by l => l.length
decreasing_by
  simp only [List.length_drop, List.length_cons]
  omega

/-- tree_constructor::reduce(const std::vector<dna>&) (shared_tree.cpp:743-763):
reduce each 2^25-strand segment, then tie the segment roots up. -/
def tree_constructor.reduce (L : Nat) (c : tree_constructor) (data : List dna) :
    tree_constructor × pointer :=
  ((chunksList (2 ^ 25) data).foldl (fun s seg => s.reduce_segment L seg) c).reduce_roots

/-- shared_tree::shared_tree(std::vector<dna>&) (shared_tree.cpp:212-215):
run a fresh constructor over the data; the store is written through the
parent reference and the returned pointer becomes the root. -/
def shared_tree.build (L : Nat) (data : List dna) : shared_tree :=
  ⟨((tree_constructor.mk [] [] []).reduce L data).2,
   ((tree_constructor.mk [] [] []).reduce L data).1.tree_nodes,
   ((tree_constructor.mk [] [] []).reduce L data).1.tree_leaves⟩

/-! ## Iterator (shared_tree::iterator; shared_tree.cpp:540-614)

The stack entry's layer field is a std::size_t in which the maximum value
marks a leaf entry; the marker, always produced by the wraparound of
`layer - 1` at zero (or of `nodes.size() - 1` on an empty tree), is embedded
as `Option Nat` via the wrapping predecessor. -/

structure iterEntry where
  layer : Option Nat
  current : pointer
  deriving DecidableEq, Repr

/-- The wrapping predecessor of a std::size_t used as a layer number, with
the wraparound value read as the leaf marker. -/
def sizeTPred (n : Nat) : Option Nat := if n = 0 then none else some (n - 1)

/-- Termination weight of a stack entry: a complete subtree hung at node
layer `k` has 2^(k+1) leaves, so 4^(k+1) dominates twice the weight of the
layer below. -/
def entryWeight (e : iterEntry) : Nat :=
  match e.layer with
  | none => 1
  | some k => 4 ^ (k + 1)

def stackWeight (s : List iterEntry) : Nat := (s.map entryWeight).sum

theorem stackWeight_cons (e : iterEntry) (rest : List iterEntry) :
    stackWeight (e :: rest) = entryWeight e + stackWeight rest := by
  simp [stackWeight]

theorem stackWeight_append (a b : List iterEntry) :
    stackWeight (a ++ b) = stackWeight a + stackWeight b := by
  simp [stackWeight]

theorem entryWeight_pos (e : iterEntry) : 0 < entryWeight e := by
  cases e with
  | mk l c =>
    cases l with
    | none => exact Nat.one_pos
    | some k => exact Nat.pos_pow_of_pos _ (by omega)

/-- shared_tree::iterator::next_leaf (shared_tree.cpp:587-614): expand the
top of the stack until it is a leaf entry or the stack is empty.  Each
non-null child is wrapped with the copy-transform constructor carrying the
popped pointer's flags; the later push ends up on top, so a mirrored node
pushes left before right and a plain node right before left. -/
def nextLeaf (t : shared_tree) : List iterEntry → List iterEntry
  | [] => []
  | e :: rest =>
    match hl : e.layer with
    | none => e :: rest
    | some k =>
      nextLeaf t
        ((if e.current.mirror then
            (if (access_node t.nodes k e.current).right.isNull then []
             else [⟨sizeTPred k,
                    pointer.transform (access_node t.nodes k e.current).right
                      e.current.mirror e.current.transpose⟩]) ++
            (if (access_node t.nodes k e.current).left.isNull then []
             else [⟨sizeTPred k,
                    pointer.transform (access_node t.nodes k e.current).left
                      e.current.mirror e.current.transpose⟩])
          else
            (if (access_node t.nodes k e.current).left.isNull then []
             else [⟨sizeTPred k,
                    pointer.transform (access_node t.nodes k e.current).left
                      e.current.mirror e.current.transpose⟩]) ++
            (if (access_node t.nodes k e.current).right.isNull then []
             else [⟨sizeTPred k,
                    pointer.transform (access_node t.nodes k e.current).right
                      e.current.mirror e.current.transpose⟩])) ++ rest)
termination_by s => stackWeight s
decreasing_by
  have h4 : 4 ^ (k + 1) = 4 * 4 ^ k := by rw [Nat.pow_succ]; ring
  have hw : ∀ p : pointer,
      entryWeight ⟨sizeTPred k, p⟩ = 4 ^ k := by
    intro p
    cases k with
    | zero => simp [entryWeight, sizeTPred]
    | succ j => simp [entryWeight, sizeTPred]
  have h1 : 0 < 4 ^ k := Nat.pos_pow_of_pos _ (by omega)
  rw [stackWeight_append, stackWeight_cons]
  have he : entryWeight e = 4 ^ (k + 1) := by simp [entryWeight, hl]
  rw [he]
  split <;> split <;> split <;>
    simp only [stackWeight, List.map_append, List.map_nil, List.map_cons,
      List.sum_append, List.sum_nil, List.sum_cons, hw] <;> omega

theorem nextLeaf_weight_le (t : shared_tree) :
    ∀ (s : List iterEntry), stackWeight (nextLeaf t s) ≤ stackWeight s := by
  intro s
  induction s using nextLeaf.induct t with
  | case1 => simp [nextLeaf]
  | case2 e rest hl =>
      rw [nextLeaf, hl]
  | case3 e rest k hl ih =>
      rw [nextLeaf, hl]
      refine le_trans ih ?_
      have h4 : 4 ^ (k + 1) = 4 * 4 ^ k := by rw [Nat.pow_succ]; ring
      have hw : ∀ p : pointer, entryWeight ⟨sizeTPred k, p⟩ = 4 ^ k := by
        intro p
        cases k with
        | zero => simp [entryWeight, sizeTPred]
        | succ j => simp [entryWeight, sizeTPred]
      have h1 : 0 < 4 ^ k := Nat.pos_pow_of_pos _ (by omega)
      rw [stackWeight_append, stackWeight_cons]
      have he : entryWeight e = 4 ^ (k + 1) := by simp [entryWeight, hl]
      rw [he]
      split <;> split <;> split <;>
        simp only [stackWeight, List.map_append, List.map_nil, List.map_cons,
          List.sum_append, List.sum_nil, List.sum_cons, hw] <;> omega

/-- The full traversal: shared_tree::iterator::operator* reads the leaf under
the stack top through access_leaf, operator++ pops it and searches the next
leaf (shared_tree.cpp:565-579). -/
def iterEmit (L : Nat) (t : shared_tree) (stack : List iterEntry) : List dna :=
  match h : nextLeaf t stack with
  | [] => []
  | e :: rest => access_leaf L t.leaves e.current :: iterEmit L t rest
termination_by stackWeight stack
decreasing_by
  have h1 := nextLeaf_weight_le t stack
  rw [h, stackWeight_cons] at h1
  have h2 := entryWeight_pos e
  omega

/-- begin()/end() iteration (balanced_shared_tree.h:214-215, current
generation per shared_tree.cpp:553-557): the iterator starts from the stack
[(nodes.size() - 1, root)] when the root is non-null, and ends when the stack
is empty. -/
def shared_tree.iterList (L : Nat) (t : shared_tree) : List dna :=
  if t.root.isNull then []
  else iterEmit L t [⟨sizeTPred t.nodes.length, t.root⟩]

/-! ## Frequency sorting (shared_tree.cpp:316-483) -/

/-- shared_tree::histogram (shared_tree.cpp:316-326): reference counts of the
child layer's entries by the nodes of layer `layer`. -/
def shared_tree.histogram (t : shared_tree) (layer : Nat) : List Nat :=
  (t.nodes.getD layer []).foldl
    (fun acc nd =>
      let acc1 := if nd.left.isNull then acc
        else acc.set nd.left.index (acc.getD nd.left.index 0 + 1)
      if nd.right.isNull then acc1
        else acc1.set nd.right.index (acc1.getD nd.right.index 0 + 1))
    (List.replicate
      (if layer = 0 then t.leaves.length else (t.nodes.getD (layer - 1) []).length) 0)

/-- invert_indices (shared_tree.cpp:360-365): starts from a copy of the input
and writes `inverted[indices[i]] = i`. -/
def invert_indices (indices : List Nat) : List Nat :=
  (List.range indices.length).foldl (fun acc i => acc.set (indices.getD i 0) i) indices

/-- reorder_layer (shared_tree.cpp:371-377): starts from a copy of the
children and writes `reordered[indices[i]] = children[i]`. -/
def reorder_layer {α : Type} [Inhabited α] (children : List α) (indices : List Nat) :
    List α :=
  (List.range indices.length).foldl
    (fun acc i => acc.set (indices.getD i 0) (children.getD i default)) children

/-- The rewire_pointer lambda (shared_tree.cpp:387-394): null pointers pass
through; otherwise the index is remapped and the flags rebuilt through the
value constructor. -/
def rewire_pointer (indices : List Nat) (old : pointer) : pointer :=
  if old.emptyb then old
  else pointer.ofIndex (indices.getD old.index 0) old.mirror old.transpose old.invariant

/-- The rewire_node lambda (shared_tree.cpp:397-401). -/
def rewire_node (indices : List Nat) (old : node) : node :=
  ⟨rewire_pointer indices old.left, rewire_pointer indices old.right⟩

/-- shared_tree::rewire_nodes (shared_tree.cpp:385-403). -/
def shared_tree.rewire_nodes (t : shared_tree) (layer : Nat) (indices : List Nat) :
    shared_tree :=
  { t with nodes := t.nodes.set layer ((t.nodes.getD layer []).map (rewire_node indices)) }

/-- std::stable_sort of iota(n) under the comparator
`frequencies[a] > frequencies[b]` (shared_tree.cpp:409-414): its output is
the unique permutation of iota(n) ordered by descending frequency with ties
in ascending position, which insertion sort under the total relation
`frequencies[b] <= frequencies[a]` also produces. -/
def sortIndices (frequencies : List Nat) : List Nat :=
  List.insertionSort (fun a b => frequencies.getD b 0 ≤ frequencies.getD a 0)
    (List.range frequencies.length)

/-- shared_tree::sort_leaves (shared_tree.cpp:409-420). -/
def shared_tree.sort_leaves (t : shared_tree) : shared_tree :=
  let indices := invert_indices (sortIndices (t.histogram 0))
  shared_tree.rewire_nodes { t with leaves := reorder_layer t.leaves indices } 0 indices

/-- shared_tree::sort_nodes (shared_tree.cpp:426-436). -/
def shared_tree.sort_nodes (t : shared_tree) (layer : Nat) : shared_tree :=
  let indices := invert_indices (sortIndices (t.histogram (layer + 1)))
  let reordered := reorder_layer (t.nodes.getD layer []) indices
  shared_tree.rewire_nodes { t with nodes := t.nodes.set layer reordered }
    (layer + 1) indices

/-- shared_tree::sort_tree (shared_tree.cpp:443-483): sort_leaves and the odd
layers below the topmost run as the first wave of tasks, the even layers
below the topmost as the second; the futures of a wave are all joined before
the next wave starts and the tasks of a wave touch pairwise disjoint layers,
so the concurrent execution equals this sequential one. -/
def shared_tree.sort_tree (t : shared_tree) : shared_tree :=
  let t1 := t.sort_leaves
  let t2 := ((List.range (t1.nodes.length - 1)).filter (fun l => l % 2 = 1)).foldl
    shared_tree.sort_nodes t1
  ((List.range (t2.nodes.length - 1)).filter (fun l => l % 2 = 0)).foldl
    shared_tree.sort_nodes t2

/-! ## Pointer algebra under machine wellformedness -/

theorem pWF_null : pWF pointer.null :=
  ⟨fun _ => rfl, fun _ => rfl, by decide⟩

theorem null_isNull : pointer.null.isNull = true := by decide

theorem pWF_ofIndex (index : Nat) (m t inv : Bool) (h : index < 0x1fffffff) :
    pWF (pointer.ofIndex index m t inv) := by
  refine ⟨?_, ?_, ?_⟩
  · intro hi
    have hi' : inv = true := hi
    simp [pointer.ofIndex, hi']
  · intro hd
    exfalso
    simp only [pointer.ofIndex] at hd
    rw [Nat.mod_eq_of_lt (by omega)] at hd
    omega
  · show index % 2 ^ 32 < 2 ^ 32
    exact Nat.mod_lt _ (by norm_num)

theorem ofIndex_data (index : Nat) (m t inv : Bool) (h : index < 2 ^ 32) :
    (pointer.ofIndex index m t inv).data = index := by
  show index % 2 ^ 32 = index
  exact Nat.mod_eq_of_lt h

theorem isNull_false_of_data (p : pointer) (h : p.data ≠ 0x1fffffff) :
    p.isNull = false := by
  cases hn : p.isNull
  · rfl
  · exact absurd (pointer_isNull_char p hn).1 h

theorem ofIndex_isNull (index : Nat) (m t inv : Bool) (h : index < 0x1fffffff) :
    (pointer.ofIndex index m t inv).isNull = false := by
  apply isNull_false_of_data
  show index % 2 ^ 32 ≠ 0x1fffffff
  rw [Nat.mod_eq_of_lt (by omega)]
  omega

theorem transform_null (m t : Bool) : pointer.null.transform m t = pointer.null := by
  cases m <;> cases t <;> rfl

theorem transform_data (p : pointer) (m t : Bool) : (p.transform m t).data = p.data := rfl

theorem transform_invariant (p : pointer) (m t : Bool) :
    (p.transform m t).invariant = p.invariant := rfl

theorem pWF_transform (p : pointer) (m t : Bool) (h : pWF p) : pWF (p.transform m t) := by
  obtain ⟨h1, h2, h3⟩ := h
  by_cases hd : p.data = 0x1fffffff
  · rw [h2 hd, transform_null]
    exact pWF_null
  · refine ⟨?_, ?_, h3⟩
    · intro hi
      have hpi : p.invariant = true := hi
      simp [pointer.transform, hpi]
    · intro hd'
      exact absurd hd' hd

theorem isNull_transform (p : pointer) (m t : Bool) (h : pWF p) :
    (p.transform m t).isNull = p.isNull := by
  by_cases hd : p.data = 0x1fffffff
  · rw [h.2.1 hd, transform_null]
  · rw [isNull_false_of_data p hd]
    exact isNull_false_of_data _ hd

theorem transform_transform (p : pointer) (m1 t1 m2 t2 : Bool) (h : pWF p) :
    (p.transform m1 t1).transform m2 t2 = p.transform (m2 != m1) (t2 != t1) := by
  have hn : (p.transform m1 t1).isNull = p.isNull := isNull_transform p m1 t1 h
  simp only [pointer.transform, pointer.mk.injEq] at hn ⊢
  refine ⟨trivial, ?_, ?_, trivial⟩
  · cases hm : p.mirror <;> cases hi : p.invariant <;> cases m1 <;> cases m2 <;> rfl
  · rw [hn]
    cases ht : p.transpose <;> cases hn2 : p.isNull <;> cases t1 <;> cases t2 <;> rfl

theorem transform_id (p : pointer) (h : pWF p) : p.transform false false = p := by
  by_cases hd : p.data = 0x1fffffff
  · rw [h.2.1 hd, transform_null]
  · have hn : p.isNull = false := isNull_false_of_data p hd
    cases p with
    | mk d pm pt pi =>
      simp only [pointer.transform, pointer.mk.injEq]
      refine ⟨trivial, ?_, ?_, trivial⟩
      · cases hpi : pi
        · simp
        · have := h.1 hpi
          simp_all
      · simp [hn]

theorem toUlong_eq_add (p : pointer) (hp : p.data < 2 ^ 29) :
    p.toUlong = p.data + (cond p.mirror 1 0) * 2 ^ 29 + (cond p.transpose 1 0) * 2 ^ 30 := by
  simp only [pointer.toUlong]
  rw [shiftLeft_or_eq_add _ _ _ hp, shiftLeft_or_eq_add]
  · rw [Nat.shiftLeft_eq, Nat.shiftLeft_eq]
  · cases p.mirror <;> simp [Nat.shiftLeft_eq] <;> omega

theorem toUlong_fields (p q : pointer) (hp : p.data < 2 ^ 29) (hq : q.data < 2 ^ 29)
    (h : p.toUlong = q.toUlong) :
    p.data = q.data ∧ p.mirror = q.mirror ∧ p.transpose = q.transpose := by
  rw [toUlong_eq_add p hp, toUlong_eq_add q hq] at h
  cases hpm : p.mirror <;> cases hqm : q.mirror <;>
    cases hpt : p.transpose <;> cases hqt : q.transpose <;>
    simp only [hpm, hqm, hpt, hqt, cond_true, cond_false] at h <;>
    refine ⟨by omega, ?_, ?_⟩ <;>
    first
      | rfl
      | (exfalso; omega)

theorem beq_iff_toUlong (p q : pointer) : p.beq q = true ↔ p.toUlong = q.toUlong := by
  simp [pointer.beq]

/-! ## Sequence transform algebra -/

def seqWf (s : List dna) : Prop := ∀ x ∈ s, x.wfv

theorem seqWf_nil : seqWf [] := by intro x hx; cases hx

theorem seqWf_append (a b : List dna) (ha : seqWf a) (hb : seqWf b) : seqWf (a ++ b) := by
  intro x hx
  rcases List.mem_append.mp hx with h | h
  · exact ha x h
  · exact hb x h

theorem seqWf_append_left (a b : List dna) (h : seqWf (a ++ b)) : seqWf a :=
  fun x hx => h x (List.mem_append.mpr (Or.inl hx))

theorem seqWf_append_right (a b : List dna) (h : seqWf (a ++ b)) : seqWf b :=
  fun x hx => h x (List.mem_append.mpr (Or.inr hx))

theorem dna.applyTx_comp (L : Nat) (m1 t1 m2 t2 : Bool) (x : dna) (h : x.wfv) :
    dna.applyTx L m2 t2 (dna.applyTx L m1 t1 x) = dna.applyTx L (m2 != m1) (t2 != t1) x := by
  have hm : (x.mirrored L).wfv := dna.mirrored_wfv L x h
  have ht : x.transposed.wfv := dna.transposed_wfv x h
  have htm : ((x.mirrored L).transposed).wfv := dna.transposed_wfv _ hm
  cases m1 <;> cases t1 <;> cases m2 <;> cases t2 <;> simp [dna.applyTx]
  all_goals first
    | rfl
    | exact dna.transposed_transposed x h
    | exact dna.mirrored_mirrored L x h
    | exact dna.mirrored_transposed_comm L x h
    | exact (dna.mirrored_transposed_comm L x h).symm
    | rw [dna.mirrored_transposed_comm L x h, dna.transposed_transposed _ hm]
    | rw [dna.mirrored_mirrored L x h]
    | rw [dna.transposed_transposed x h]
    | rw [dna.transposed_transposed _ hm]
    | rw [dna.mirrored_transposed_comm L _ hm,
        dna.transposed_transposed _ (dna.mirrored_wfv L _ hm), dna.mirrored_mirrored L x h]
    | rw [dna.mirrored_transposed_comm L _ hm, dna.mirrored_mirrored L x h]

theorem dna.applyTx_id (L : Nat) (x : dna) : dna.applyTx L false false x = x := rfl

/-- seqTx in map-over-optional-reverse normal form. -/
theorem seqTx_eq (L : Nat) (m t : Bool) (s : List dna) :
    seqTx L m t s = (if m then s.reverse else s).map (dna.applyTx L m t) := by
  cases m <;> cases t <;>
    simp [seqTx, mirrorSeq, transposeSeq, dna.applyTx, Function.comp]
  rw [show dna.applyTx L false false = fun y => y from rfl]
  simp

theorem seqTx_length (L : Nat) (m t : Bool) (s : List dna) :
    (seqTx L m t s).length = s.length := by
  rw [seqTx_eq]
  cases m <;> simp

theorem seqTx_nil (L : Nat) (m t : Bool) : seqTx L m t [] = [] := by
  rw [seqTx_eq]
  cases m <;> simp

theorem seqTx_singleton (L : Nat) (m t : Bool) (x : dna) :
    seqTx L m t [x] = [dna.applyTx L m t x] := by
  rw [seqTx_eq]
  cases m <;> simp

theorem seqTx_id (L : Nat) (s : List dna) : seqTx L false false s = s := by
  rw [seqTx_eq]
  rw [show dna.applyTx L false false = fun y => y from rfl]
  simp

theorem seqTx_wf (L : Nat) (m t : Bool) (s : List dna) (h : seqWf s) :
    seqWf (seqTx L m t s) := by
  rw [seqTx_eq]
  intro x hx
  rcases List.mem_map.mp hx with ⟨y, hy, rfl⟩
  have hyw : y.wfv := by
    apply h
    cases m <;> simp_all
  exact dna.applyTx_wfv L m t y hyw

theorem seqTx_comp (L : Nat) (m1 t1 m2 t2 : Bool) (s : List dna) (h : seqWf s) :
    seqTx L m2 t2 (seqTx L m1 t1 s) = seqTx L (m2 != m1) (t2 != t1) s := by
  have key : ∀ (r : List dna) (m t m' t' : Bool), seqWf r →
      List.map (dna.applyTx L m' t') (List.map (dna.applyTx L m t) r) =
      List.map (dna.applyTx L (m' != m) (t' != t)) r := by
    intro r m t m' t' hr
    rw [List.map_map]
    apply List.map_congr_left
    intro x hx
    simp only [Function.comp_apply]
    exact dna.applyTx_comp L m t m' t' x (hr x hx)
  have hrw : seqWf s.reverse := by
    intro x hx
    exact h x (List.mem_reverse.mp hx)
  rw [seqTx_eq, seqTx_eq, seqTx_eq]
  cases m1 <;> cases t1 <;> cases m2 <;> cases t2 <;> simp <;>
    first
      | (intro a ha; exact dna.applyTx_comp L _ _ _ _ a (h a ha))
      | (intro a ha; exact dna.applyTx_comp L _ _ _ _ a (hrw a ha))

/-! ## Denotation basics -/

theorem denoteAt_null (L : Nat) (nodes : List (List node)) (leaves : List dna)
    (k : Nat) (p : pointer) (h : p.isNull = true) :
    denoteAt L nodes leaves k p = [] := by
  cases k <;> simp [denoteAt, h]

theorem denoteAt_nonnull (L : Nat) (nodes : List (List node)) (leaves : List dna)
    (k : Nat) (p : pointer) (h : p.isNull = false) :
    denoteAt L nodes leaves (k + 1) p =
      seqTx L p.mirror p.transpose
        (denoteAt L nodes leaves k (access_node nodes k p).left ++
         denoteAt L nodes leaves k (access_node nodes k p).right) := by
  simp [denoteAt, h]

theorem denoteAt_length_le (L : Nat) (nodes : List (List node)) (leaves : List dna) :
    ∀ (k : Nat) (p : pointer), (denoteAt L nodes leaves k p).length ≤ 2 ^ k
  | 0, p => by
      by_cases h : p.isNull = true <;> simp [denoteAt, h]
  | k + 1, p => by
      by_cases h : p.isNull = true
      · simp [denoteAt, h]
      · rw [denoteAt_nonnull L nodes leaves k p (by simp_all), seqTx_length,
          List.length_append, pow_succ]
        have h1 := denoteAt_length_le L nodes leaves k (access_node nodes k p).left
        have h2 := denoteAt_length_le L nodes leaves k (access_node nodes k p).right
        omega

theorem getD_wf (leaves : List dna) (h : ∀ x ∈ leaves, x.wfv) (i : Nat) :
    (leaves.getD i default).wfv := by
  by_cases hi : i < leaves.length
  · apply h
    rw [List.getD_eq_getElem _ _ hi]
    exact List.getElem_mem hi
  · rw [List.getD_eq_default _ _ (by omega)]
    show (0 : Nat) < 2 ^ 64
    norm_num

theorem access_leaf_wf (L : Nat) (leaves : List dna) (p : pointer)
    (h : ∀ x ∈ leaves, x.wfv) : (access_leaf L leaves p).wfv := by
  have h0 := getD_wf leaves h p.index
  simp only [access_leaf]
  split <;> split <;>
    first
      | exact dna.transposed_wfv _ (dna.mirrored_wfv L _ h0)
      | exact dna.mirrored_wfv L _ h0
      | exact dna.transposed_wfv _ h0
      | exact h0

theorem denoteAt_wf (L : Nat) (nodes : List (List node)) (leaves : List dna)
    (hl : ∀ x ∈ leaves, x.wfv) :
    ∀ (k : Nat) (p : pointer), seqWf (denoteAt L nodes leaves k p)
  | 0, p => by
      by_cases h : p.isNull = true
      · simp [denoteAt, h, seqWf_nil]
      · simp only [denoteAt, h, if_false, Bool.false_eq_true]
        intro x hx
        rw [List.mem_singleton] at hx
        subst hx
        exact access_leaf_wf L leaves p hl
  | k + 1, p => by
      by_cases h : p.isNull = true
      · simp [denoteAt, h, seqWf_nil]
      · rw [denoteAt_nonnull L nodes leaves k p (by simp_all)]
        exact seqTx_wf _ _ _ _
          (seqWf_append _ _ (denoteAt_wf L nodes leaves hl k _)
            (denoteAt_wf L nodes leaves hl k _))

/-- seqTx splits over append, reversing the halves when mirrored. -/
theorem seqTx_append (L : Nat) (m t : Bool) (a b : List dna) :
    seqTx L m t (a ++ b) =
      if m then seqTx L m t b ++ seqTx L m t a else seqTx L m t a ++ seqTx L m t b := by
  cases m <;> simp [seqTx_eq]

/-- The mirror transform alone is mirrorSeq. -/
theorem seqTx_mirror (L : Nat) (s : List dna) : seqTx L true false s = mirrorSeq L s := by
  simp [seqTx]

theorem mirrorSeq_seqTx (L : Nat) (m t : Bool) (s : List dna) (h : seqWf s) :
    mirrorSeq L (seqTx L m t s) = seqTx L (!m) t s := by
  rw [← seqTx_mirror, seqTx_comp L m t true false s h]
  cases m <;> cases t <;> rfl

theorem seqTx_mirror_drop (L : Nat) (s : List dna) (qt : Bool) (hs : seqWf s)
    (hfix : seqTx L true qt s = seqTx L false qt s) (t' : Bool) :
    seqTx L true t' s = seqTx L false t' s := by
  have h2 := congrArg (seqTx L false (t' != qt)) hfix
  rw [seqTx_comp L true qt false (t' != qt) s hs,
    seqTx_comp L false qt false (t' != qt) s hs] at h2
  cases t' <;> cases qt <;> simp_all

theorem seqTx_flag_comp (L : Nat) (qm qt qinv m t : Bool) (base : List dna) (hb : seqWf base)
    (hclamp : qinv = true → qm = false)
    (hfix : qinv = true → mirrorSeq L (seqTx L qm qt base) = seqTx L qm qt base) :
    seqTx L ((m != qm) && !qinv) (t != qt) base = seqTx L m t (seqTx L qm qt base) := by
  rw [seqTx_comp L qm qt m t base hb]
  cases hqi : qinv
  · simp
  · have hqm : qm = false := hclamp hqi
    have hfx := hfix hqi
    rw [mirrorSeq_seqTx L qm qt base hb] at hfx
    subst hqm
    simp only [Bool.not_true, Bool.and_false]
    cases hm : m
    · simp
    · have := seqTx_mirror_drop L base qt hb (by simpa using hfx) (t != qt)
      simpa using this.symm

/-- Reading a leaf is flag application to the raw stored strand. -/
theorem access_leaf_eq (L : Nat) (leaves : List dna) (p : pointer) :
    access_leaf L leaves p =
      dna.applyTx L p.mirror p.transpose (leaves.getD p.data default) := rfl

theorem denoteAt_zero (L : Nat) (nodes : List (List node)) (leaves : List dna)
    (p : pointer) (h : p.isNull = false) :
    denoteAt L nodes leaves 0 p =
      seqTx L p.mirror p.transpose [leaves.getD p.data default] := by
  simp only [denoteAt, h, Bool.false_eq_true, if_false, seqTx_singleton]
  rw [access_leaf_eq]

/-- Denotation of the copy-transform constructor: the flags act on the
denoted sequence, with the invariance clamp washed out by truthfulness. -/
theorem denote_transform (L : Nat) (nodes : List (List node)) (leaves : List dna)
    (k : Nat) (q : pointer) (m t : Bool) (hq : pWF q)
    (hlv : ∀ x ∈ leaves, x.wfv)
    (htr : truthfulAt L nodes leaves k q) :
    denoteAt L nodes leaves k (q.transform m t) =
      seqTx L m t (denoteAt L nodes leaves k q) := by
  by_cases hd : q.data = 0x1fffffff
  · rw [hq.2.1 hd, transform_null, denoteAt_null _ _ _ _ _ null_isNull, seqTx_nil]
  · have hnn : q.isNull = false := isNull_false_of_data q hd
    have hnn' : (q.transform m t).isNull = false := by
      rw [isNull_transform q m t hq]; exact hnn
    have hqm : (q.transform m t).mirror = ((m != q.mirror) && !q.invariant) := rfl
    have hqt : (q.transform m t).transpose = ((t != q.transpose) && !q.isNull) := rfl
    have htrq : q.invariant = true →
        mirrorSeq L (denoteAt L nodes leaves k q) = denoteAt L nodes leaves k q :=
      fun hi => (htr hi hnn).1
    cases k with
    | zero =>
      rw [denoteAt_zero L nodes leaves q hnn, denoteAt_zero L nodes leaves _ hnn']
      rw [show (q.transform m t).data = q.data from rfl, hqm, hqt, hnn]
      simp only [Bool.not_false, Bool.and_true]
      refine seqTx_flag_comp L q.mirror q.transpose q.invariant m t _ ?_ hq.1 ?_
      · intro x hx
        rw [List.mem_singleton] at hx
        subst hx
        exact getD_wf leaves hlv q.data
      · intro hi
        have := htrq hi
        rwa [denoteAt_zero L nodes leaves q hnn] at this
    | succ k =>
      rw [denoteAt_nonnull _ _ _ _ _ hnn, denoteAt_nonnull _ _ _ _ _ hnn']
      rw [show access_node nodes k (q.transform m t) = access_node nodes k q from rfl]
      rw [hqm, hqt, hnn]
      simp only [Bool.not_false, Bool.and_true]
      refine seqTx_flag_comp L q.mirror q.transpose q.invariant m t _ ?_ hq.1 ?_
      · exact seqWf_append _ _ (denoteAt_wf L nodes leaves hlv k _)
          (denoteAt_wf L nodes leaves hlv k _)
      · intro hi
        have := htrq hi
        rwa [denoteAt_nonnull _ _ _ _ _ hnn] at this

/-! ## Congruence in the packed word: denotation, shape and completeness read
only the data word and the mirror and transpose bits -/

theorem toUlong_congr (p p' : pointer) (hdata : p.data = p'.data)
    (hm : p.mirror = p'.mirror) (ht : p.transpose = p'.transpose) :
    p.toUlong = p'.toUlong := by
  simp [pointer.toUlong, hdata, hm, ht]

theorem isNull_congr (p p' : pointer) (hdata : p.data = p'.data)
    (hm : p.mirror = p'.mirror) (ht : p.transpose = p'.transpose) :
    p.isNull = p'.isNull := by
  simp [pointer.isNull, pointer.beq, toUlong_congr p p' hdata hm ht]

theorem wfAt_congr (nodes : List (List node)) (leaves : List dna) (k : Nat)
    (p p' : pointer) (hdata : p.data = p'.data) (hnull : p.isNull = p'.isNull) :
    wfAt nodes leaves k p ↔ wfAt nodes leaves k p' := by
  cases k <;> simp [wfAt, access_node, pointer.index, hdata, hnull]

theorem denoteAt_congr (L : Nat) (nodes : List (List node)) (leaves : List dna)
    (k : Nat) (p p' : pointer) (hdata : p.data = p'.data)
    (hm : p.mirror = p'.mirror) (ht : p.transpose = p'.transpose) :
    denoteAt L nodes leaves k p = denoteAt L nodes leaves k p' := by
  have hnull := isNull_congr p p' hdata hm ht
  cases k with
  | zero =>
      by_cases hn : p.isNull = true
      · rw [denoteAt_null _ _ _ _ _ hn, denoteAt_null _ _ _ _ _ (hnull ▸ hn)]
      · have hn' : p'.isNull = false := by rw [← hnull]; simp_all
        rw [denoteAt_zero _ _ _ _ (by simp_all), denoteAt_zero _ _ _ _ hn', hdata, hm, ht]
  | succ k =>
      by_cases hn : p.isNull = true
      · rw [denoteAt_null _ _ _ _ _ hn, denoteAt_null _ _ _ _ _ (hnull ▸ hn)]
      · have hn' : p'.isNull = false := by rw [← hnull]; simp_all
        rw [denoteAt_nonnull _ _ _ _ _ (by simp_all), denoteAt_nonnull _ _ _ _ _ hn', hm, ht]
        simp [access_node, pointer.index, hdata]

theorem fullAt_congr (L : Nat) (nodes : List (List node)) (leaves : List dna)
    (k : Nat) (p p' : pointer) (hdata : p.data = p'.data)
    (hm : p.mirror = p'.mirror) (ht : p.transpose = p'.transpose) :
    fullAt L nodes leaves k p ↔ fullAt L nodes leaves k p' := by
  rw [fullAt, fullAt, denoteAt_congr L nodes leaves k p p' hdata hm ht]

theorem lcAt_congr (L : Nat) (nodes : List (List node)) (leaves : List dna)
    (k : Nat) (p p' : pointer) (hdata : p.data = p'.data)
    (hm : p.mirror = p'.mirror) (ht : p.transpose = p'.transpose) :
    lcAt L nodes leaves k p ↔ lcAt L nodes leaves k p' := by
  have hnull := isNull_congr p p' hdata hm ht
  cases k with
  | zero => simp [lcAt]
  | succ k =>
      simp [lcAt, logicalL, logicalR, access_node, pointer.index, hdata, hm, ht, hnull]

/-! ## Transform preservation of shape, truthfulness and completeness -/

theorem wfAt_transform (nodes : List (List node)) (leaves : List dna) (k : Nat)
    (q : pointer) (m t : Bool) (hq : pWF q) :
    wfAt nodes leaves k (q.transform m t) ↔ wfAt nodes leaves k q :=
  wfAt_congr nodes leaves k (q.transform m t) q rfl (isNull_transform q m t hq)

theorem truthfulAt_transform (L : Nat) (nodes : List (List node)) (leaves : List dna)
    (k : Nat) (q : pointer) (m t : Bool) (hq : pWF q)
    (hlv : ∀ x ∈ leaves, x.wfv) (htr : truthfulAt L nodes leaves k q) :
    truthfulAt L nodes leaves k (q.transform m t) := by
  intro hi hnn
  have hqi : q.invariant = true := hi
  have hqn : q.isNull = false := by rw [← isNull_transform q m t hq]; exact hnn
  obtain ⟨hmir, hlen⟩ := htr hqi hqn
  have hD := denote_transform L nodes leaves k q m t hq hlv htr
  have hwD : seqWf (denoteAt L nodes leaves k q) := denoteAt_wf L nodes leaves hlv k q
  constructor
  · rw [hD, mirrorSeq_seqTx L m t _ hwD]
    have hdrop : ∀ b : Bool, seqTx L b t (denoteAt L nodes leaves k q) =
        seqTx L false t (denoteAt L nodes leaves k q) := by
      intro b
      cases b
      · rfl
      · have h1 : seqTx L true t (denoteAt L nodes leaves k q) =
            seqTx L false t (seqTx L true false (denoteAt L nodes leaves k q)) := by
          rw [seqTx_comp L true false false t _ hwD]
          simp
        rw [seqTx_mirror, hmir] at h1
        exact h1
    rw [hdrop (!m), hdrop m]
  · rw [hD, seqTx_length, hlen]

/-! ## Store extension monotonicity -/

def storeLe (nodes : List (List node)) (leaves : List dna)
    (nodes' : List (List node)) (leaves' : List dna) : Prop :=
  (∃ d, leaves' = leaves ++ d) ∧ nodes.length ≤ nodes'.length ∧
  (∀ k, ∃ d, nodes'.getD k [] = nodes.getD k [] ++ d)

theorem storeLe_refl (nodes : List (List node)) (leaves : List dna) :
    storeLe nodes leaves nodes leaves :=
  ⟨⟨[], by simp⟩, le_refl _, fun _ => ⟨[], by simp⟩⟩

theorem storeLe_trans {n1 l1 n2 l2 n3 l3} (h12 : storeLe n1 l1 n2 l2)
    (h23 : storeLe n2 l2 n3 l3) : storeLe n1 l1 n3 l3 := by
  obtain ⟨⟨d1, hd1⟩, hl1, hn1⟩ := h12
  obtain ⟨⟨d2, hd2⟩, hl2, hn2⟩ := h23
  refine ⟨⟨d1 ++ d2, by rw [hd2, hd1, List.append_assoc]⟩, le_trans hl1 hl2, ?_⟩
  intro k
  obtain ⟨e1, he1⟩ := hn1 k
  obtain ⟨e2, he2⟩ := hn2 k
  exact ⟨e1 ++ e2, by rw [he2, he1, List.append_assoc]⟩

theorem getD_append_lt {α : Type} (l d : List α) (dflt : α) (i : Nat)
    (h : i < l.length) :
    (l ++ d).getD i dflt = l.getD i dflt := by
  rw [List.getD_eq_getElem _ _ (by rw [List.length_append]; omega),
    List.getD_eq_getElem _ _ h]
  exact List.getElem_append_left h

theorem access_mem (nodes : List (List node)) (k : Nat) (p : pointer)
    (h : p.index < (nodes.getD k []).length) :
    access_node nodes k p ∈ nodes.getD k [] := by
  rw [show access_node nodes k p = (nodes.getD k []).getD p.index default from rfl,
    List.getD_eq_getElem _ _ h]
  exact List.getElem_mem h

def storePtrWF (nodes : List (List node)) : Prop :=
  ∀ k, ∀ nd ∈ nodes.getD k [], pWF nd.left ∧ pWF nd.right

theorem storeLe_wf_denote (L : Nat) {nodes leaves nodes' leaves'}
    (hle : storeLe nodes leaves nodes' leaves') :
    ∀ (k : Nat) (p : pointer), wfAt nodes leaves k p →
      wfAt nodes' leaves' k p ∧
      denoteAt L nodes' leaves' k p = denoteAt L nodes leaves k p
  | 0, p, hwf => by
      obtain ⟨⟨dl, hdl⟩, hlen, hnd⟩ := hle
      rcases hwf with hn | hidx
      · exact ⟨Or.inl hn,
          by rw [denoteAt_null _ _ _ _ _ hn, denoteAt_null _ _ _ _ _ hn]⟩
      · refine ⟨Or.inr (by rw [hdl, List.length_append]; omega), ?_⟩
        by_cases hn : p.isNull = true
        · rw [denoteAt_null _ _ _ _ _ hn, denoteAt_null _ _ _ _ _ hn]
        · rw [denoteAt_zero _ _ _ _ (by simp_all), denoteAt_zero _ _ _ _ (by simp_all),
            hdl, getD_append_lt _ _ _ p.data hidx]
  | k + 1, p, hwf => by
      rcases hwf with hn | ⟨hk, hidx, hl, hr⟩
      · exact ⟨Or.inl hn,
          by rw [denoteAt_null _ _ _ _ _ hn, denoteAt_null _ _ _ _ _ hn]⟩
      · have hacc : access_node nodes' k p = access_node nodes k p := by
          obtain ⟨d, hd⟩ := (hle.2.2) k
          simp only [access_node, hd]
          exact getD_append_lt _ _ _ _ hidx
        have ihl := storeLe_wf_denote L hle k _ hl
        have ihr := storeLe_wf_denote L hle k _ hr
        constructor
        · refine Or.inr ⟨lt_of_lt_of_le hk hle.2.1, ?_, ?_, ?_⟩
          · obtain ⟨d, hd⟩ := (hle.2.2) k
            rw [hd, List.length_append]
            omega
          · rw [hacc]
            exact ihl.1
          · rw [hacc]
            exact ihr.1
        · by_cases hn : p.isNull = true
          · rw [denoteAt_null _ _ _ _ _ hn, denoteAt_null _ _ _ _ _ hn]
          · rw [denoteAt_nonnull _ _ _ _ _ (by simp_all),
              denoteAt_nonnull _ _ _ _ _ (by simp_all), hacc, ihl.2, ihr.2]

theorem storeLe_truthful (L : Nat) {nodes leaves nodes' leaves'}
    (hle : storeLe nodes leaves nodes' leaves') (k : Nat) (p : pointer)
    (hwf : wfAt nodes leaves k p) (htr : truthfulAt L nodes leaves k p) :
    truthfulAt L nodes' leaves' k p := by
  intro hi hnn
  rw [(storeLe_wf_denote L hle k p hwf).2]
  exact htr hi hnn

theorem storeLe_full (L : Nat) {nodes leaves nodes' leaves'}
    (hle : storeLe nodes leaves nodes' leaves') (k : Nat) (p : pointer)
    (hwf : wfAt nodes leaves k p) (hf : fullAt L nodes leaves k p) :
    fullAt L nodes' leaves' k p := by
  rw [fullAt, (storeLe_wf_denote L hle k p hwf).2]
  exact hf

theorem storeLe_lc (L : Nat) {nodes leaves nodes' leaves'}
    (hle : storeLe nodes leaves nodes' leaves') (hpw : storePtrWF nodes) :
    ∀ (k : Nat) (p : pointer), wfAt nodes leaves k p →
      lcAt L nodes leaves k p → lcAt L nodes' leaves' k p
  | 0, _, _, _ => trivial
  | k + 1, p, hwf, hlc => by
      intro hnn
      rcases hwf with hn | ⟨hk, hidx, hl, hr⟩
      · rw [hn] at hnn; cases hnn
      · have hacc : access_node nodes' k p = access_node nodes k p := by
          obtain ⟨d, hd⟩ := (hle.2.2) k
          simp only [access_node, hd]
          exact getD_append_lt _ _ _ _ hidx
        have hselw := hpw k _ (access_mem nodes k p hidx)
        obtain ⟨hLn, hLlc, hRalt⟩ := hlc hnn
        have hlogL : logicalL nodes' k p = logicalL nodes k p := by
          simp only [logicalL, hacc]
        have hlogR : logicalR nodes' k p = logicalR nodes k p := by
          simp only [logicalR, hacc]
        have hwfL : wfAt nodes leaves k (logicalL nodes k p) := by
          unfold logicalL
          split
          · rw [wfAt_transform _ _ _ _ _ _ hselw.2]
            exact hr
          · rw [wfAt_transform _ _ _ _ _ _ hselw.1]
            exact hl
        have hwfR : wfAt nodes leaves k (logicalR nodes k p) := by
          unfold logicalR
          split
          · rw [wfAt_transform _ _ _ _ _ _ hselw.1]
            exact hl
          · rw [wfAt_transform _ _ _ _ _ _ hselw.2]
            exact hr
        refine ⟨hlogL ▸ hLn, hlogL ▸ storeLe_lc L hle hpw k _ hwfL hLlc, ?_⟩
        rcases hRalt with hRn | ⟨hRlc, hLf⟩
        · exact Or.inl (hlogR ▸ hRn)
        · exact Or.inr ⟨hlogR ▸ storeLe_lc L hle hpw k _ hwfR hRlc,
            hlogL ▸ storeLe_full L hle k _ hwfL hLf⟩

/-! ## Store invariant and the logical-children split -/

def storeInv (L : Nat) (nodes : List (List node)) (leaves : List dna) : Prop :=
  (∀ x ∈ leaves, x.wfv) ∧
  leaves.length ≤ 0x1fffffff ∧
  (∀ k, (nodes.getD k []).length ≤ 0x1fffffff) ∧
  (∀ k, ∀ nd ∈ nodes.getD k [], pWF nd.left ∧ pWF nd.right ∧
    wfAt nodes leaves k nd.left ∧ wfAt nodes leaves k nd.right ∧
    truthfulAt L nodes leaves k nd.left ∧ truthfulAt L nodes leaves k nd.right) ∧
  (∀ k, ∀ nd ∈ nodes.getD k [], (node.canonical nd).1 = nd)

theorem storeInv_ptrWF {L nodes leaves} (h : storeInv L nodes leaves) :
    storePtrWF nodes :=
  fun k nd hm => ⟨(h.2.2.2.1 k nd hm).1, (h.2.2.2.1 k nd hm).2.1⟩

/-- The denotation of a non-null node pointer splits into its two logical
children. -/
theorem denote_split (L : Nat) (nodes : List (List node)) (leaves : List dna)
    (hlv : ∀ x ∈ leaves, x.wfv) (k : Nat) (p : pointer) (hnn : p.isNull = false)
    (hL : pWF (access_node nodes k p).left)
    (hR : pWF (access_node nodes k p).right)
    (hTL : truthfulAt L nodes leaves k (access_node nodes k p).left)
    (hTR : truthfulAt L nodes leaves k (access_node nodes k p).right) :
    denoteAt L nodes leaves (k + 1) p =
      denoteAt L nodes leaves k (logicalL nodes k p) ++
      denoteAt L nodes leaves k (logicalR nodes k p) := by
  rw [denoteAt_nonnull _ _ _ _ _ hnn, seqTx_append]
  cases hm : p.mirror
  · simp only [Bool.false_eq_true, if_false, logicalL, logicalR, hm]
    rw [denote_transform L nodes leaves k _ false p.transpose hL hlv hTL,
      denote_transform L nodes leaves k _ false p.transpose hR hlv hTR]
  · simp only [if_true, logicalL, logicalR, hm]
    rw [denote_transform L nodes leaves k _ true p.transpose hR hlv hTR,
      denote_transform L nodes leaves k _ true p.transpose hL hlv hTL]

/-- Denotation length depends only on the data word. -/
theorem denoteAt_length_congr (L : Nat) (nodes : List (List node)) (leaves : List dna)
    (k : Nat) (q q' : pointer) (hdata : q.data = q'.data)
    (hn : q.isNull = false) (hn' : q'.isNull = false) :
    (denoteAt L nodes leaves k q).length = (denoteAt L nodes leaves k q').length := by
  cases k with
  | zero =>
      rw [denoteAt_zero _ _ _ _ hn, denoteAt_zero _ _ _ _ hn', seqTx_length, seqTx_length]
      simp
  | succ k =>
      rw [denoteAt_nonnull _ _ _ _ _ hn, denoteAt_nonnull _ _ _ _ _ hn',
        seqTx_length, seqTx_length]
      simp [access_node, pointer.index, hdata]

/-- A full node has two full stored children. -/
theorem full_children (L : Nat) (nodes : List (List node)) (leaves : List dna)
    (k : Nat) (p : pointer) (hnn : p.isNull = false)
    (hf : fullAt L nodes leaves (k + 1) p) :
    (denoteAt L nodes leaves k (access_node nodes k p).left).length = 2 ^ k ∧
    (denoteAt L nodes leaves k (access_node nodes k p).right).length = 2 ^ k := by
  rw [fullAt, denoteAt_nonnull _ _ _ _ _ hnn, seqTx_length, List.length_append] at hf
  have h1 := denoteAt_length_le L nodes leaves k (access_node nodes k p).left
  have h2 := denoteAt_length_le L nodes leaves k (access_node nodes k p).right
  rw [pow_succ] at hf
  omega

theorem full_nonnull (L : Nat) (nodes : List (List node)) (leaves : List dna)
    (k : Nat) (p : pointer) (hf : fullAt L nodes leaves k p) : p.isNull = false := by
  cases hn : p.isNull
  · rfl
  · exfalso
    rw [fullAt, denoteAt_null _ _ _ _ _ hn] at hf
    have : 0 < 2 ^ k := Nat.pos_pow_of_pos _ (by omega)
    simp at hf
    omega

/-- On a full subtree, left-completeness (with fullness and shape) holds for
every reorientation of the top pointer. -/
theorem lc_full_anyflags (L : Nat) (nodes : List (List node)) (leaves : List dna)
    (hpw : storePtrWF nodes) :
    ∀ (k : Nat) (p p' : pointer), p.data = p'.data → pWF p → pWF p' →
      wfAt nodes leaves k p → lcAt L nodes leaves k p → fullAt L nodes leaves k p →
      lcAt L nodes leaves k p' ∧ fullAt L nodes leaves k p' ∧ wfAt nodes leaves k p'
  | 0, p, p', hdata, hp, hp', hwf, _, hf => by
      have hnn : p.isNull = false := full_nonnull L nodes leaves 0 p hf
      have hd : p.data ≠ 0x1fffffff := by
        intro hc
        rw [hp.2.1 hc] at hnn
        exact absurd hnn (by rw [null_isNull]; simp)
      have hnn' : p'.isNull = false := isNull_false_of_data p' (hdata ▸ hd)
      refine ⟨trivial, ?_, ?_⟩
      · rw [fullAt, denoteAt_zero _ _ _ _ hnn', seqTx_length]
        simp
      · rcases hwf with h | h
        · rw [h] at hnn; cases hnn
        · refine Or.inr ?_
          show p'.data < leaves.length
          rw [← hdata]
          exact h
  | k + 1, p, p', hdata, hp, hp', hwf, hlc, hf => by
      have hnn : p.isNull = false := full_nonnull L nodes leaves (k + 1) p hf
      have hd : p.data ≠ 0x1fffffff := by
        intro hc
        rw [hp.2.1 hc] at hnn
        exact absurd hnn (by rw [null_isNull]; simp)
      have hnn' : p'.isNull = false := isNull_false_of_data p' (hdata ▸ hd)
      rcases hwf with h | ⟨hk, hidx, hwl, hwr⟩
      · rw [h] at hnn; cases hnn
      · have hacc : access_node nodes k p' = access_node nodes k p := by
          simp [access_node, pointer.index, hdata]
        have hmem := access_mem nodes k p hidx
        obtain ⟨hcwL, hcwR⟩ := hpw k _ hmem
        obtain ⟨hfl, hfr⟩ := full_children L nodes leaves k p hnn hf
        -- both stored children are non-null
        have hlnn : (access_node nodes k p).left.isNull = false :=
          full_nonnull L nodes leaves k _ hfl
        have hrnn : (access_node nodes k p).right.isNull = false :=
          full_nonnull L nodes leaves k _ hfr
        -- p's logical children are lc and full
        obtain ⟨hLn, hLlc, hRalt⟩ := hlc hnn
        have hRnn : (logicalR nodes k p).isNull = false := by
          unfold logicalR
          split
          · rw [isNull_transform _ _ _ hcwL]; exact hlnn
          · rw [isNull_transform _ _ _ hcwR]; exact hrnn
        have hRlc : lcAt L nodes leaves k (logicalR nodes k p) := by
          rcases hRalt with h | h
          · rw [h] at hRnn; cases hRnn
          · exact h.1
        have hLdata : (logicalL nodes k p).data =
            (if p.mirror then (access_node nodes k p).right else (access_node nodes k p).left).data := rfl
        have hRdata : (logicalR nodes k p).data =
            (if p.mirror then (access_node nodes k p).left else (access_node nodes k p).right).data := rfl
        have hLwf : wfAt nodes leaves k (logicalL nodes k p) := by
          unfold logicalL
          split
          · rw [wfAt_transform _ _ _ _ _ _ hcwR]; exact hwr
          · rw [wfAt_transform _ _ _ _ _ _ hcwL]; exact hwl
        have hRwf : wfAt nodes leaves k (logicalR nodes k p) := by
          unfold logicalR
          split
          · rw [wfAt_transform _ _ _ _ _ _ hcwL]; exact hwl
          · rw [wfAt_transform _ _ _ _ _ _ hcwR]; exact hwr
        have hLpw : pWF (logicalL nodes k p) := by
          unfold logicalL
          split
          · exact pWF_transform _ _ _ hcwR
          · exact pWF_transform _ _ _ hcwL
        have hRpw : pWF (logicalR nodes k p) := by
          unfold logicalR
          split
          · exact pWF_transform _ _ _ hcwL
          · exact pWF_transform _ _ _ hcwR
        have hLfull : fullAt L nodes leaves k (logicalL nodes k p) := by
          rw [fullAt]
          unfold logicalL
          split
          case isTrue hm =>
            rw [denoteAt_length_congr L nodes leaves k
              ((access_node nodes k p).right.transform p.mirror p.transpose)
              (access_node nodes k p).right rfl
              (by rw [isNull_transform _ _ _ hcwR]; exact hrnn) hrnn]
            exact hfr
          case isFalse hm =>
            rw [denoteAt_length_congr L nodes leaves k
              ((access_node nodes k p).left.transform p.mirror p.transpose)
              (access_node nodes k p).left rfl
              (by rw [isNull_transform _ _ _ hcwL]; exact hlnn) hlnn]
            exact hfl
        have hRfull : fullAt L nodes leaves k (logicalR nodes k p) := by
          rw [fullAt]
          unfold logicalR
          split
          case isTrue hm =>
            rw [denoteAt_length_congr L nodes leaves k
              ((access_node nodes k p).left.transform p.mirror p.transpose)
              (access_node nodes k p).left rfl
              (by rw [isNull_transform _ _ _ hcwL]; exact hlnn) hlnn]
            exact hfl
          case isFalse hm =>
            rw [denoteAt_length_congr L nodes leaves k
              ((access_node nodes k p).right.transform p.mirror p.transpose)
              (access_node nodes k p).right rfl
              (by rw [isNull_transform _ _ _ hcwR]; exact hrnn) hrnn]
            exact hfr
        -- p''s logical children relate to p's by data
        have hL'pw : pWF (logicalL nodes k p') := by
          unfold logicalL
          rw [hacc]
          split
          · exact pWF_transform _ _ _ hcwR
          · exact pWF_transform _ _ _ hcwL
        have hR'pw : pWF (logicalR nodes k p') := by
          unfold logicalR
          rw [hacc]
          split
          · exact pWF_transform _ _ _ hcwL
          · exact pWF_transform _ _ _ hcwR
        have hIHL := lc_full_anyflags L nodes leaves hpw k
          (if p.mirror = p'.mirror then logicalL nodes k p else logicalR nodes k p)
          (logicalL nodes k p')
          (by
            unfold logicalL logicalR
            rw [hacc]
            cases hm : p.mirror <;> cases hm' : p'.mirror <;>
              simp [hm, hm', transform_data])
          (by split <;> assumption) hL'pw
          (by split <;> assumption)
          (by split <;> assumption)
          (by split <;> assumption)
        have hIHR := lc_full_anyflags L nodes leaves hpw k
          (if p.mirror = p'.mirror then logicalR nodes k p else logicalL nodes k p)
          (logicalR nodes k p')
          (by
            unfold logicalL logicalR
            rw [hacc]
            cases hm : p.mirror <;> cases hm' : p'.mirror <;>
              simp [hm, hm', transform_data])
          (by split <;> assumption) hR'pw
          (by split <;> assumption)
          (by split <;> assumption)
          (by split <;> assumption)
        refine ⟨?_, ?_, ?_⟩
        · intro _
          refine ⟨?_, hIHL.1, Or.inr ⟨hIHR.1, hIHL.2.1⟩⟩
          · have := full_nonnull L nodes leaves k _ hIHL.2.1
            exact this
        · rw [fullAt, denoteAt_length_congr L nodes leaves (k + 1) p' p hdata.symm hnn' hnn]
          exact hf
        · refine Or.inr ⟨hk, ?_, by rw [hacc]; exact hwl, by rw [hacc]; exact hwr⟩
          show p'.data < (nodes.getD k []).length
          rw [← hdata]
          exact hidx

/-! ## Node canonicalization: orbit, ordering, idempotence -/

theorem pointer_mirrored_mirrored (p : pointer) (h : pWF p) : p.mirrored.mirrored = p := by
  rw [pointer.mirrored, pointer.mirrored, transform_transform p true false true false h]
  exact transform_id p h

theorem pointer_transposed_transposed (p : pointer) (h : pWF p) :
    p.transposed.transposed = p := by
  rw [pointer.transposed, pointer.transposed, transform_transform p false true false true h]
  exact transform_id p h

theorem node_canonical_cases (n : node) :
    node.canonical n = (n, false, false) ∨
    node.canonical n = (n.mirroredN, true, false) ∨
    node.canonical n = (n.transposedN, false, true) ∨
    node.canonical n = (n.invertedN, true, true) :=
  vmin4_mem _ _ _ _ _

theorem vmin4_first {α : Type} (lt : α → α → Bool) (a b c d : α)
    (hb : lt b a = false) (hc : lt c a = false) (hd : lt d a = false) :
    vmin4 lt a b c d = a := by
  simp [vmin4, hb, hc, hd]

/-- Packed comparison key of a node: the pair of child words. -/
def keyN (n : node) : Nat := n.left.toUlong * 2 ^ 32 + n.right.toUlong

theorem toUlong_lt_two_pow (p : pointer) (h : p.data < 2 ^ 32) :
    p.toUlong < 2 ^ 32 := by
  have h1 : (cond p.mirror 1 0) <<< 29 < 2 ^ 32 := by
    cases p.mirror <;> decide
  have h2 : (cond p.transpose 1 0) <<< 30 < 2 ^ 32 := by
    cases p.transpose <;> decide
  exact Nat.or_lt_two_pow (Nat.or_lt_two_pow h h1) h2

theorem keyLt_iff (a b : node) (ha : a.right.toUlong < 2 ^ 32)
    (hb : b.right.toUlong < 2 ^ 32) :
    node.keyLt a b = true ↔ keyN a < keyN b := by
  have h32 : (2 : Nat) ^ 32 = 4294967296 := by norm_num
  simp only [node.keyLt, keyN, Bool.or_eq_true, decide_eq_true_eq, Bool.and_eq_true,
    beq_iff_eq]
  rw [h32] at ha hb ⊢
  constructor
  · rintro (h | ⟨h1, h2⟩) <;> omega
  · intro h
    rcases Nat.lt_trichotomy a.left.toUlong b.left.toUlong with h' | h' | h'
    · exact Or.inl h'
    · exact Or.inr ⟨h', by omega⟩
    · exfalso
      omega

theorem node_variant_bounds (n : node) (hl : n.left.data < 2 ^ 32)
    (hr : n.right.data < 2 ^ 32) :
    n.right.toUlong < 2 ^ 32 ∧ (n.mirroredN).right.toUlong < 2 ^ 32 ∧
    (n.transposedN).right.toUlong < 2 ^ 32 ∧ (n.invertedN).right.toUlong < 2 ^ 32 := by
  refine ⟨toUlong_lt_two_pow _ hr, toUlong_lt_two_pow _ hl, toUlong_lt_two_pow _ hr,
    toUlong_lt_two_pow _ hl⟩

theorem canonical_key_le (n : node) (hl : n.left.data < 2 ^ 32)
    (hr : n.right.data < 2 ^ 32) :
    keyN (node.canonical n).1 ≤ keyN n ∧
    keyN (node.canonical n).1 ≤ keyN n.mirroredN ∧
    keyN (node.canonical n).1 ≤ keyN n.transposedN ∧
    keyN (node.canonical n).1 ≤ keyN n.invertedN := by
  obtain ⟨hB0, hB1, hB2, hB3⟩ := node_variant_bounds n hl hr
  have e1 := keyLt_iff n.mirroredN n hB1 hB0
  have e2m := keyLt_iff n.transposedN n.mirroredN hB2 hB1
  have e2a := keyLt_iff n.transposedN n hB2 hB0
  have e3i := keyLt_iff n.invertedN n.transposedN hB3 hB2
  have e3m := keyLt_iff n.invertedN n.mirroredN hB3 hB1
  have e3a := keyLt_iff n.invertedN n hB3 hB0
  simp only [node.canonical, vmin4]
  by_cases h1 : node.keyLt n.mirroredN n = true <;>
    simp only [h1, Bool.false_eq_true, if_true, if_false, Bool.true_eq_false]
  · by_cases h2 : node.keyLt n.transposedN n.mirroredN = true <;>
      simp only [h2, Bool.false_eq_true, if_true, if_false, Bool.true_eq_false]
    · by_cases h3 : node.keyLt n.invertedN n.transposedN = true <;>
        simp only [h3, Bool.false_eq_true, if_true, if_false, Bool.true_eq_false] <;>
        rw [e1] at h1 <;> rw [e2m] at h2 <;> rw [e3i] at h3 <;> omega
    · by_cases h3 : node.keyLt n.invertedN n.mirroredN = true <;>
        simp only [h3, Bool.false_eq_true, if_true, if_false, Bool.true_eq_false] <;>
        rw [e1] at h1 <;> rw [e2m] at h2 <;> rw [e3m] at h3 <;> omega
  · by_cases h2 : node.keyLt n.transposedN n = true <;>
      simp only [h2, Bool.false_eq_true, if_true, if_false, Bool.true_eq_false]
    · by_cases h3 : node.keyLt n.invertedN n.transposedN = true <;>
        simp only [h3, Bool.false_eq_true, if_true, if_false, Bool.true_eq_false] <;>
        rw [e1] at h1 <;> rw [e2a] at h2 <;> rw [e3i] at h3 <;> omega
    · by_cases h3 : node.keyLt n.invertedN n = true <;>
        simp only [h3, Bool.false_eq_true, if_true, if_false, Bool.true_eq_false] <;>
        rw [e1] at h1 <;> rw [e2a] at h2 <;> rw [e3a] at h3 <;> omega

theorem keyLt_false_of_ge (a b : node) (ha : a.right.toUlong < 2 ^ 32)
    (hb : b.right.toUlong < 2 ^ 32) (h : keyN b ≤ keyN a) :
    node.keyLt a b = false := by
  cases hlt : node.keyLt a b
  · rfl
  · exact absurd ((keyLt_iff a b ha hb).mp hlt) (by omega)

theorem pointer_TM (p : pointer) (h : pWF p) :
    p.transposed.mirrored = p.mirrored.transposed := by
  rw [pointer.transposed, pointer.mirrored, transform_transform p false true true false h,
    pointer.mirrored, pointer.transposed, transform_transform p true false false true h]
  simp

theorem node_MM (n : node) (hL : pWF n.left) (hR : pWF n.right) :
    (n.mirroredN).mirroredN = n := by
  cases n with
  | mk a b =>
      simp only [node.mirroredN]
      rw [pointer_mirrored_mirrored a hL, pointer_mirrored_mirrored b hR]

theorem node_TT (n : node) (hL : pWF n.left) (hR : pWF n.right) :
    (n.transposedN).transposedN = n := by
  cases n with
  | mk a b =>
      simp only [node.transposedN]
      rw [pointer_transposed_transposed a hL, pointer_transposed_transposed b hR]

theorem node_TM (n : node) (hL : pWF n.left) (hR : pWF n.right) :
    (n.transposedN).mirroredN = n.invertedN := by
  cases n with
  | mk a b =>
      simp only [node.transposedN, node.mirroredN, node.invertedN]
      rw [pointer_TM a hL, pointer_TM b hR]

theorem node_pWF_mirroredN (n : node) (hL : pWF n.left) (hR : pWF n.right) :
    pWF (n.mirroredN).left ∧ pWF (n.mirroredN).right :=
  ⟨pWF_transform _ _ _ hR, pWF_transform _ _ _ hL⟩

theorem node_pWF_transposedN (n : node) (hL : pWF n.left) (hR : pWF n.right) :
    pWF (n.transposedN).left ∧ pWF (n.transposedN).right :=
  ⟨pWF_transform _ _ _ hL, pWF_transform _ _ _ hR⟩

/-- Canonicalization is idempotent on nodes with machine-wellformed
children: the canonical form's own canonical form is itself. -/
theorem node_canonical_idem (n : node) (hL : pWF n.left) (hR : pWF n.right)
    (hld : n.left.data < 2 ^ 32) (hrd : n.right.data < 2 ^ 32) :
    (node.canonical (node.canonical n).1).1 = (node.canonical n).1 := by
  have hkey := canonical_key_le n hld hrd
  obtain ⟨hB0, hB1, hB2, hB3⟩ := node_variant_bounds n hld hrd
  have hMpw := node_pWF_mirroredN n hL hR
  have hTpw := node_pWF_transposedN n hL hR
  have hIpw : pWF (n.invertedN).left ∧ pWF (n.invertedN).right :=
    node_pWF_transposedN n.mirroredN hMpw.1 hMpw.2
  -- variant compositions
  have cMM : (n.mirroredN).mirroredN = n := node_MM n hL hR
  have cMT : (n.mirroredN).transposedN = n.invertedN := rfl
  have cMI : (n.mirroredN).invertedN = n.transposedN := by
    show ((n.mirroredN).mirroredN).transposedN = n.transposedN
    rw [cMM]
  have cTM : (n.transposedN).mirroredN = n.invertedN := node_TM n hL hR
  have cTT : (n.transposedN).transposedN = n := node_TT n hL hR
  have cTI : (n.transposedN).invertedN = n.mirroredN := by
    show ((n.transposedN).mirroredN).transposedN = n.mirroredN
    rw [cTM]
    show ((n.mirroredN).transposedN).transposedN = n.mirroredN
    exact node_TT n.mirroredN hMpw.1 hMpw.2
  have cIM : (n.invertedN).mirroredN = n.transposedN := by
    rw [← cMT]
    rw [node_TM n.mirroredN hMpw.1 hMpw.2]
    show ((n.mirroredN).mirroredN).transposedN = n.transposedN
    rw [cMM]
  have cIT : (n.invertedN).transposedN = n.mirroredN := by
    rw [← cMT]
    exact node_TT n.mirroredN hMpw.1 hMpw.2
  have cII : (n.invertedN).invertedN = n := by
    show ((n.invertedN).mirroredN).transposedN = n
    rw [cIM, cTT]
  rcases node_canonical_cases n with hc | hc | hc | hc <;> rw [hc] at hkey ⊢ <;>
    simp only
  · rw [hc]
  · show (node.canonical n.mirroredN).1 = n.mirroredN
    have h1 : node.keyLt (n.mirroredN).mirroredN n.mirroredN = false := by
      rw [cMM]
      exact keyLt_false_of_ge n n.mirroredN hB0 hB1 hkey.1
    have h2 : node.keyLt (n.mirroredN).transposedN n.mirroredN = false := by
      rw [cMT]
      exact keyLt_false_of_ge n.invertedN n.mirroredN hB3 hB1 hkey.2.2.2
    have h3 : node.keyLt (n.mirroredN).invertedN n.mirroredN = false := by
      rw [cMI]
      exact keyLt_false_of_ge n.transposedN n.mirroredN hB2 hB1 hkey.2.2.1
    have hfirst := vmin4_first (fun x y : node × Bool × Bool => node.keyLt x.1 y.1)
      (n.mirroredN, false, false) ((n.mirroredN).mirroredN, true, false)
      ((n.mirroredN).transposedN, false, true) ((n.mirroredN).invertedN, true, true)
      h1 h2 h3
    rw [show node.canonical n.mirroredN = vmin4
        (fun x y : node × Bool × Bool => node.keyLt x.1 y.1)
        (n.mirroredN, false, false) ((n.mirroredN).mirroredN, true, false)
        ((n.mirroredN).transposedN, false, true) ((n.mirroredN).invertedN, true, true)
      from rfl, hfirst]
  · show (node.canonical n.transposedN).1 = n.transposedN
    have h1 : node.keyLt (n.transposedN).mirroredN n.transposedN = false := by
      rw [cTM]
      exact keyLt_false_of_ge n.invertedN n.transposedN hB3 hB2 hkey.2.2.2
    have h2 : node.keyLt (n.transposedN).transposedN n.transposedN = false := by
      rw [cTT]
      exact keyLt_false_of_ge n n.transposedN hB0 hB2 hkey.1
    have h3 : node.keyLt (n.transposedN).invertedN n.transposedN = false := by
      rw [cTI]
      exact keyLt_false_of_ge n.mirroredN n.transposedN hB1 hB2 hkey.2.1
    have hfirst := vmin4_first (fun x y : node × Bool × Bool => node.keyLt x.1 y.1)
      (n.transposedN, false, false) ((n.transposedN).mirroredN, true, false)
      ((n.transposedN).transposedN, false, true) ((n.transposedN).invertedN, true, true)
      h1 h2 h3
    rw [show node.canonical n.transposedN = vmin4
        (fun x y : node × Bool × Bool => node.keyLt x.1 y.1)
        (n.transposedN, false, false) ((n.transposedN).mirroredN, true, false)
        ((n.transposedN).transposedN, false, true) ((n.transposedN).invertedN, true, true)
      from rfl, hfirst]
  · show (node.canonical n.invertedN).1 = n.invertedN
    have h1 : node.keyLt (n.invertedN).mirroredN n.invertedN = false := by
      rw [cIM]
      exact keyLt_false_of_ge n.transposedN n.invertedN hB2 hB3 hkey.2.2.1
    have h2 : node.keyLt (n.invertedN).transposedN n.invertedN = false := by
      rw [cIT]
      exact keyLt_false_of_ge n.mirroredN n.invertedN hB1 hB3 hkey.2.1
    have h3 : node.keyLt (n.invertedN).invertedN n.invertedN = false := by
      rw [cII]
      exact keyLt_false_of_ge n n.invertedN hB0 hB3 hkey.1
    have hfirst := vmin4_first (fun x y : node × Bool × Bool => node.keyLt x.1 y.1)
      (n.invertedN, false, false) ((n.invertedN).mirroredN, true, false)
      ((n.invertedN).transposedN, false, true) ((n.invertedN).invertedN, true, true)
      h1 h2 h3
    rw [show node.canonical n.invertedN = vmin4
        (fun x y : node × Bool × Bool => node.keyLt x.1 y.1)
        (n.invertedN, false, false) ((n.invertedN).mirroredN, true, false)
        ((n.invertedN).transposedN, false, true) ((n.invertedN).invertedN, true, true)
      from rfl, hfirst]

/-! ## Good pointers -/

theorem lcAt_null (L : Nat) (nodes : List (List node)) (leaves : List dna)
    (k : Nat) (p : pointer) (h : p.isNull = true) : lcAt L nodes leaves k p := by
  cases k with
  | zero => trivial
  | succ k =>
      intro hnn
      rw [h] at hnn
      cases hnn

/-- The bundle of invariants carried by every pointer handed around during
construction; the null pointer satisfies it with the empty denotation. -/
def GoodN (L : Nat) (nodes : List (List node)) (leaves : List dna) (lev : Nat)
    (p : pointer) (s : List dna) : Prop :=
  pWF p ∧ wfAt nodes leaves lev p ∧ truthfulAt L nodes leaves lev p ∧
  lcAt L nodes leaves lev p ∧ denoteAt L nodes leaves lev p = s

theorem wfAt_null (nodes : List (List node)) (leaves : List dna) (k : Nat)
    (p : pointer) (h : p.isNull = true) : wfAt nodes leaves k p := by
  cases k <;> exact Or.inl h

theorem GoodN_null (L : Nat) (nodes : List (List node)) (leaves : List dna)
    (lev : Nat) : GoodN L nodes leaves lev pointer.null [] := by
  refine ⟨pWF_null, wfAt_null _ _ _ _ null_isNull, ?_,
    lcAt_null _ _ _ _ _ null_isNull, denoteAt_null _ _ _ _ _ null_isNull⟩
  intro _ hnn
  rw [null_isNull] at hnn
  cases hnn

theorem GoodN_mono (L : Nat) {nodes leaves nodes' leaves'}
    (hle : storeLe nodes leaves nodes' leaves') (hpw : storePtrWF nodes)
    (lev : Nat) (p : pointer) (s : List dna) (h : GoodN L nodes leaves lev p s) :
    GoodN L nodes' leaves' lev p s := by
  obtain ⟨h1, h2, h3, h4, h5⟩ := h
  exact ⟨h1, (storeLe_wf_denote L hle lev p h2).1, storeLe_truthful L hle lev p h2 h3,
    storeLe_lc L hle hpw lev p h2 h4, by rw [(storeLe_wf_denote L hle lev p h2).2]; exact h5⟩

theorem isNull_eq_of_ulong (p q : pointer) (h : p.toUlong = q.toUlong) :
    p.isNull = q.isNull := by
  simp [pointer.isNull, pointer.beq, h]

theorem ulong_fields_or_null (p q : pointer) (hp : pWF p) (hq : pWF q)
    (hpd : p.data = 0x1fffffff ∨ p.data < 0x1fffffff)
    (hqd : q.data = 0x1fffffff ∨ q.data < 0x1fffffff)
    (h : p.toUlong = q.toUlong) :
    (p = pointer.null ∧ q = pointer.null) ∨
    (p.data = q.data ∧ p.mirror = q.mirror ∧ p.transpose = q.transpose) := by
  rcases hpd with hpd | hpd
  · left
    have hpn : p = pointer.null := hp.2.1 hpd
    refine ⟨hpn, ?_⟩
    have : q.isNull = true := by
      rw [← isNull_eq_of_ulong p q h, hpn, null_isNull]
    exact hq.2.1 (pointer_isNull_char q this).1
  · rcases hqd with hqd | hqd
    · left
      have hqn : q = pointer.null := hq.2.1 hqd
      have : p.isNull = true := by
        rw [isNull_eq_of_ulong p q h, hqn, null_isNull]
      exact absurd (pointer_isNull_char p this).1 (by omega)
    · right
      exact toUlong_fields p q (by omega) (by omega) h

theorem data_bound_of_wf (nodes : List (List node)) (leaves : List dna)
    (hlb : leaves.length ≤ 0x1fffffff) (hnb : ∀ j, (nodes.getD j []).length ≤ 0x1fffffff)
    (k : Nat) (p : pointer) (hp : pWF p) (hwf : wfAt nodes leaves k p) :
    p.data = 0x1fffffff ∨ p.data < 0x1fffffff := by
  by_cases hd : p.data = 0x1fffffff
  · exact Or.inl hd
  · right
    have hnn : p.isNull = false := isNull_false_of_data p hd
    cases k with
    | zero =>
        rcases hwf with h | h
        · rw [h] at hnn; cases hnn
        · have h2 : p.data < leaves.length := h
          omega
    | succ k =>
        rcases hwf with h | ⟨_, h, _, _⟩
        · rw [h] at hnn; cases hnn
        · have hbk := hnb k
          have hx : p.data < (nodes.getD k []).length := h
          omega

/-- Transfer of everything across two word-equal pointers wrapped by the same
copy-transform: the packed word determines denotation, shape and (using
full-subtree reorientation when the invariance clamps differ)
left-completeness. -/
theorem transform_transfer (L : Nat) (nodes : List (List node)) (leaves : List dna)
    (hpwS : storePtrWF nodes) (hlv : ∀ x ∈ leaves, x.wfv) (k : Nat)
    (q q' : pointer) (m t : Bool) (hqWF : pWF q) (hq'WF : pWF q')
    (hqwf : wfAt nodes leaves k q) (hq'wf : wfAt nodes leaves k q')
    (hqtr : truthfulAt L nodes leaves k q) (hq'tr : truthfulAt L nodes leaves k q')
    (hqd : q.data = 0x1fffffff ∨ q.data < 0x1fffffff)
    (hq'd : q'.data = 0x1fffffff ∨ q'.data < 0x1fffffff)
    (hulong : q.toUlong = q'.toUlong)
    (hlc' : lcAt L nodes leaves k (q'.transform m t)) :
    denoteAt L nodes leaves k (q.transform m t) =
      denoteAt L nodes leaves k (q'.transform m t) ∧
    wfAt nodes leaves k (q.transform m t) ∧
    lcAt L nodes leaves k (q.transform m t) := by
  have hden : denoteAt L nodes leaves k (q.transform m t) =
      denoteAt L nodes leaves k (q'.transform m t) := by
    rw [denote_transform L nodes leaves k q m t hqWF hlv hqtr,
      denote_transform L nodes leaves k q' m t hq'WF hlv hq'tr]
    rcases ulong_fields_or_null q q' hqWF hq'WF hqd hq'd hulong with ⟨h1, h2⟩ | ⟨h1, h2, h3⟩
    · rw [h1, h2]
    · rw [denoteAt_congr L nodes leaves k q q' h1 h2 h3]
  refine ⟨hden, ?_, ?_⟩
  · rcases ulong_fields_or_null q q' hqWF hq'WF hqd hq'd hulong with ⟨h1, h2⟩ | ⟨h1, h2, h3⟩
    · rw [h1, transform_null]
      exact wfAt_null _ _ _ _ null_isNull
    · rw [wfAt_transform _ _ _ _ _ _ hqWF]
      exact hqwf
  · rcases ulong_fields_or_null q q' hqWF hq'WF hqd hq'd hulong with ⟨h1, h2⟩ | ⟨h1, h2, h3⟩
    · rw [h1, transform_null]
      exact lcAt_null _ _ _ _ _ null_isNull
    · by_cases hnn : q.isNull = true
      · have hqn : q = pointer.null := hqWF.2.1 (pointer_isNull_char q hnn).1
        rw [hqn, transform_null]
        exact lcAt_null _ _ _ _ _ null_isNull
      · simp only [Bool.not_eq_true] at hnn
        have hnn' : q'.isNull = false := by rw [← isNull_eq_of_ulong q q' hulong]; exact hnn
        by_cases hinv : q.invariant = q'.invariant
        · have : q.transform m t = pointer.mk q'.data ((m != q'.mirror) && !q'.invariant)
              ((t != q'.transpose) && !q'.isNull) q.invariant := by
            simp only [pointer.transform, h1, h2, h3, hinv,
              isNull_congr q q' h1 h2 h3]
          refine (lcAt_congr L nodes leaves k _ (q'.transform m t) ?_ ?_ ?_).mpr hlc'
          · rw [this]; rfl
          · rw [this]; simp [pointer.transform, hinv]
          · rw [this]; rfl
        · -- the invariance flags differ: the inv-marked side is truthful, so
          -- the subtree is full and mirror-symmetric; reorient.
          have hfull' : fullAt L nodes leaves k q' := by
            cases hq1 : q.invariant
            · cases hq2 : q'.invariant
              · rw [hq1, hq2] at hinv
                exact absurd rfl hinv
              · exact (hq'tr hq2 hnn').2
            · have := (hqtr hq1 hnn).2
              rw [fullAt, ← denoteAt_congr L nodes leaves k q q' h1 h2 h3]
              exact this
          have hfullT : fullAt L nodes leaves k (q'.transform m t) := by
            rw [fullAt, denote_transform L nodes leaves k q' m t hq'WF hlv hq'tr,
              seqTx_length]
            exact hfull'
          have hwfT : wfAt nodes leaves k (q'.transform m t) := by
            rw [wfAt_transform _ _ _ _ _ _ hq'WF]
            exact hq'wf
          exact (lc_full_anyflags L nodes leaves hpwS k (q'.transform m t)
            (q.transform m t) (by rw [transform_data, transform_data, h1])
            (pWF_transform _ _ _ hq'WF) (pWF_transform _ _ _ hqWF)
            hwfT hlc' hfullT).1

theorem mirrorSeq_length (L : Nat) (s : List dna) : (mirrorSeq L s).length = s.length := by
  simp [mirrorSeq]

/-- Core of emplace_node's correctness: a pointer built from the
canonicalization flags onto a stored node that word-matches the canonical
node is Good for the concatenated child sequences, provided the exact
transforms of the canonical node's children (the logical children the
accessors will reconstruct) are Good for `sl` and `sr`. -/
theorem entry_good_core (L : Nat) (nodes : List (List node)) (leaves : List dna)
    (hSI : storeInv L nodes leaves) (k idx : Nat)
    (hk : k < nodes.length) (hidx : idx < (nodes.getD k []).length)
    (cm ct inv : Bool) (can : node)
    (hbeq : node.beqN ((nodes.getD k []).getD idx default) can = true)
    (hcanL : pWF can.left ∧ wfAt nodes leaves k can.left ∧
      truthfulAt L nodes leaves k can.left)
    (hcanR : pWF can.right ∧ wfAt nodes leaves k can.right ∧
      truthfulAt L nodes leaves k can.right)
    (eL eR : pointer) (sl sr : List dna)
    (heL : pointer.transform (if (cm && !inv) = true then can.right else can.left)
      (cm && !inv) ct = eL)
    (heR : pointer.transform (if (cm && !inv) = true then can.left else can.right)
      (cm && !inv) ct = eR)
    (heLG : GoodN L nodes leaves k eL sl) (heLn : eL.isNull = false)
    (heRG : GoodN L nodes leaves k eR sr)
    (hfullL : eR.isNull = false → fullAt L nodes leaves k eL)
    (hrnull : eR.isNull = true → sr = [])
    (hinvtr : inv = true → mirrorSeq L (sl ++ sr) = sl ++ sr ∧
      (sl ++ sr).length = 2 ^ (k + 1)) :
    GoodN L nodes leaves (k + 1) (pointer.ofIndex idx cm ct inv) (sl ++ sr) ∧
    (pointer.ofIndex idx cm ct inv).isNull = false := by
  obtain ⟨hlv, hlb, hnb, hchild, hcanon⟩ := hSI
  have hidx29 : idx < 0x1fffffff := lt_of_lt_of_le hidx (hnb k)
  have hpwS : storePtrWF nodes := fun j nd hm => ⟨(hchild j nd hm).1, (hchild j nd hm).2.1⟩
  set rp := pointer.ofIndex idx cm ct inv with hrp
  have hrpWF : pWF rp := pWF_ofIndex idx cm ct inv hidx29
  have hrpn : rp.isNull = false := ofIndex_isNull idx cm ct inv hidx29
  have hrpd : rp.data = idx := ofIndex_data idx cm ct inv (by omega)
  have hrpm : rp.mirror = (cm && !inv) := rfl
  have hrpt : rp.transpose = ct := rfl
  have hrpi : rp.invariant = inv := rfl
  have hacc : access_node nodes k rp = (nodes.getD k []).getD idx default := by
    simp [access_node, pointer.index, hrpd]
  have hmem : access_node nodes k rp ∈ nodes.getD k [] := by
    rw [hacc, List.getD_eq_getElem _ _ hidx]
    exact List.getElem_mem hidx
  obtain ⟨hSL, hSR, hSwl, hSwr, hStl, hStr⟩ := hchild k _ hmem
  have hULl : (access_node nodes k rp).left.toUlong = can.left.toUlong := by
    have := hbeq
    rw [hacc]
    simp only [node.beqN, Bool.and_eq_true, pointer.beq, beq_iff_eq] at this
    exact this.1
  have hULr : (access_node nodes k rp).right.toUlong = can.right.toUlong := by
    have := hbeq
    rw [hacc]
    simp only [node.beqN, Bool.and_eq_true, pointer.beq, beq_iff_eq] at this
    exact this.2
  -- data dichotomies
  have hdSL := data_bound_of_wf nodes leaves hlb hnb k _ hSL hSwl
  have hdSR := data_bound_of_wf nodes leaves hlb hnb k _ hSR hSwr
  have hdCL := data_bound_of_wf nodes leaves hlb hnb k _ hcanL.1 hcanL.2.1
  have hdCR := data_bound_of_wf nodes leaves hlb hnb k _ hcanR.1 hcanR.2.1
  -- the logical children of rp
  have hlogL : logicalL nodes k rp =
      pointer.transform (if rp.mirror = true then (access_node nodes k rp).right
        else (access_node nodes k rp).left) rp.mirror rp.transpose := rfl
  have hlogR : logicalR nodes k rp =
      pointer.transform (if rp.mirror = true then (access_node nodes k rp).left
        else (access_node nodes k rp).right) rp.mirror rp.transpose := rfl
  -- transfer for the logical left child
  have hTL : denoteAt L nodes leaves k (logicalL nodes k rp) =
        denoteAt L nodes leaves k eL ∧
      wfAt nodes leaves k (logicalL nodes k rp) ∧
      lcAt L nodes leaves k (logicalL nodes k rp) := by
    rw [hlogL, hrpm, hrpt]
    cases hcm : (cm && !inv)
    · simp only [Bool.false_eq_true, if_false]
      rw [hcm] at heL
      simp only [Bool.false_eq_true, if_false] at heL
      rw [← heL] at heLG ⊢
      obtain ⟨e1, e2, e3, e4, e5⟩ := heLG
      exact transform_transfer L nodes leaves hpwS hlv k _ can.left false ct
        hSL hcanL.1 hSwl hcanL.2.1 hStl hcanL.2.2 hdSL hdCL hULl e4
    · simp only [if_true]
      rw [hcm] at heL
      simp only [if_true] at heL
      rw [← heL] at heLG ⊢
      obtain ⟨e1, e2, e3, e4, e5⟩ := heLG
      exact transform_transfer L nodes leaves hpwS hlv k _ can.right true ct
        hSR hcanR.1 hSwr hcanR.2.1 hStr hcanR.2.2 hdSR hdCR hULr e4
  have hTR : denoteAt L nodes leaves k (logicalR nodes k rp) =
        denoteAt L nodes leaves k eR ∧
      wfAt nodes leaves k (logicalR nodes k rp) ∧
      lcAt L nodes leaves k (logicalR nodes k rp) := by
    rw [hlogR, hrpm, hrpt]
    cases hcm : (cm && !inv)
    · simp only [Bool.false_eq_true, if_false]
      rw [hcm] at heR
      simp only [Bool.false_eq_true, if_false] at heR
      rw [← heR] at heRG ⊢
      obtain ⟨e1, e2, e3, e4, e5⟩ := heRG
      exact transform_transfer L nodes leaves hpwS hlv k _ can.right false ct
        hSR hcanR.1 hSwr hcanR.2.1 hStr hcanR.2.2 hdSR hdCR hULr e4
    · simp only [if_true]
      rw [hcm] at heR
      simp only [if_true] at heR
      rw [← heR] at heRG ⊢
      obtain ⟨e1, e2, e3, e4, e5⟩ := heRG
      exact transform_transfer L nodes leaves hpwS hlv k _ can.left true ct
        hSL hcanL.1 hSwl hcanL.2.1 hStl hcanL.2.2 hdSL hdCL hULl e4
  -- null status of the logical children matches eL / eR
  have hLn : (logicalL nodes k rp).isNull = eL.isNull := by
    rw [hlogL, hrpm, hrpt, ← heL]
    cases hcm : (cm && !inv)
    · simp only [Bool.false_eq_true, if_false]
      rw [isNull_transform _ _ _ hSL, isNull_transform _ _ _ hcanL.1]
      exact isNull_eq_of_ulong _ _ hULl
    · simp only [if_true]
      rw [isNull_transform _ _ _ hSR, isNull_transform _ _ _ hcanR.1]
      exact isNull_eq_of_ulong _ _ hULr
  have hRn : (logicalR nodes k rp).isNull = eR.isNull := by
    rw [hlogR, hrpm, hrpt, ← heR]
    cases hcm : (cm && !inv)
    · simp only [Bool.false_eq_true, if_false]
      rw [isNull_transform _ _ _ hSR, isNull_transform _ _ _ hcanR.1]
      exact isNull_eq_of_ulong _ _ hULr
    · simp only [if_true]
      rw [isNull_transform _ _ _ hSL, isNull_transform _ _ _ hcanL.1]
      exact isNull_eq_of_ulong _ _ hULl
  -- denotation of rp
  have hden : denoteAt L nodes leaves (k + 1) rp = sl ++ sr := by
    rw [denote_split L nodes leaves hlv k rp hrpn hSL hSR hStl hStr, hTL.1, hTR.1,
      heLG.2.2.2.2, heRG.2.2.2.2]
  refine ⟨⟨hrpWF, ?_, ?_, ?_, hden⟩, hrpn⟩
  · exact Or.inr ⟨hk, by rw [pointer.index, hrpd]; exact hidx, hSwl, hSwr⟩
  · intro hi hnn
    have hinv : inv = true := hi
    rw [hden]
    obtain ⟨hm1, hm2⟩ := hinvtr hinv
    exact ⟨hm1, hm2⟩
  · intro _
    refine ⟨by rw [hLn]; exact heLn, hTL.2.2, ?_⟩
    cases hrn : eR.isNull
    · refine Or.inr ⟨hTR.2.2, ?_⟩
      have hfe := hfullL hrn
      rw [fullAt, heLG.2.2.2.2] at hfe
      rw [fullAt, hTL.1, heLG.2.2.2.2]
      exact hfe
    · exact Or.inl (by rw [hRn]; exact hrn)

/-! ## The exact logical children of a canonicalized node -/

theorem mirrorSeq_append (L : Nat) (a b : List dna) :
    mirrorSeq L (a ++ b) = mirrorSeq L b ++ mirrorSeq L a := by
  simp [mirrorSeq]

theorem mirrorSeq_mirrorSeq (L : Nat) (s : List dna) (h : seqWf s) :
    mirrorSeq L (mirrorSeq L s) = s := by
  rw [← seqTx_mirror, ← seqTx_mirror, seqTx_comp L true false true false s h]
  show seqTx L false false s = s
  exact seqTx_id L s

theorem transform_M_tf (x : pointer) (h : pWF x) : (x.mirrored).transform true false = x :=
  pointer_mirrored_mirrored x h

theorem transform_T_ft (x : pointer) (h : pWF x) : (x.transposed).transform false true = x :=
  pointer_transposed_transposed x h

theorem transform_MT_tt (x : pointer) (h : pWF x) :
    ((x.mirrored).transposed).transform true true = x := by
  rw [pointer.mirrored, pointer.transposed, transform_transform x true false false true h,
    transform_transform x (false != true) (true != false) true true h]
  exact transform_id x h

theorem transform_MT_ft (x : pointer) (h : pWF x) :
    ((x.mirrored).transposed).transform false true = x.mirrored := by
  rw [pointer.mirrored, pointer.transposed, transform_transform x true false false true h,
    transform_transform x (false != true) (true != false) false true h]
  rfl

theorem GoodN_mirrored_full (L : Nat) (nodes : List (List node)) (leaves : List dna)
    (hpwS : storePtrWF nodes) (hlv : ∀ x ∈ leaves, x.wfv) (k : Nat) (x : pointer)
    (s : List dna) (hG : GoodN L nodes leaves k x s) (hxn : x.isNull = false)
    (hfull : s.length = 2 ^ k) :
    GoodN L nodes leaves k x.mirrored (mirrorSeq L s) ∧ (x.mirrored).isNull = false := by
  obtain ⟨h1, h2, h3, h4, h5⟩ := hG
  have hfx : fullAt L nodes leaves k x := by rw [fullAt, h5]; exact hfull
  have hlc := lc_full_anyflags L nodes leaves hpwS k x x.mirrored rfl h1
    (pWF_transform _ _ _ h1) h2 h4 hfx
  refine ⟨⟨pWF_transform _ _ _ h1, (wfAt_transform _ _ _ _ _ _ h1).mpr h2,
    truthfulAt_transform _ _ _ _ _ _ _ h1 hlv h3, hlc.1, ?_⟩, ?_⟩
  · rw [pointer.mirrored, denote_transform _ _ _ _ _ _ _ h1 hlv h3, h5, seqTx_mirror]
  · rw [pointer.mirrored, isNull_transform _ _ _ h1]
    exact hxn

/-- Semantic content of the invariance flag `left == right.mirrored()`
computed by emplace_node. -/
theorem inv_flag_sem (L : Nat) (nodes : List (List node)) (leaves : List dna)
    (hlb : leaves.length ≤ 0x1fffffff) (hnb : ∀ j, (nodes.getD j []).length ≤ 0x1fffffff)
    (hlv : ∀ x ∈ leaves, x.wfv) (k : Nat) (l r : pointer) (sl sr : List dna)
    (hGl : GoodN L nodes leaves k l sl) (hln : l.isNull = false)
    (hGr : GoodN L nodes leaves k r sr)
    (hfullhyp : r.isNull = false → sl.length = 2 ^ k)
    (hi : l.beq r.mirrored = true) :
    r.isNull = false ∧ sl = mirrorSeq L sr ∧ sr = mirrorSeq L sl ∧
    sl.length = 2 ^ k ∧ sr.length = 2 ^ k := by
  have hUL : l.toUlong = (r.mirrored).toUlong := (beq_iff_toUlong _ _).mp hi
  have hrn : r.isNull = false := by
    cases hrn : r.isNull
    · rfl
    · exfalso
      have hr0 : r = pointer.null := hGr.1.2.1 (pointer_isNull_char r hrn).1
      rw [hr0, pointer.mirrored, transform_null] at hUL
      have : l.isNull = true := by
        simp [pointer.isNull, pointer.beq, hUL]
      rw [this] at hln
      cases hln
  have hwsr : seqWf sr := by
    rw [← hGr.2.2.2.2]
    exact denoteAt_wf L nodes leaves hlv k r
  have hdl := data_bound_of_wf nodes leaves hlb hnb k l hGl.1 hGl.2.1
  have hdrm := data_bound_of_wf nodes leaves hlb hnb k r.mirrored
    (pWF_transform _ _ _ hGr.1) ((wfAt_transform _ _ _ _ _ _ hGr.1).mpr hGr.2.1)
  rcases ulong_fields_or_null l r.mirrored hGl.1 (pWF_transform _ _ _ hGr.1)
      hdl hdrm hUL with ⟨h1, _⟩ | ⟨h1, h2, h3⟩
  · rw [h1, null_isNull] at hln
    cases hln
  · have hdeq : denoteAt L nodes leaves k l = denoteAt L nodes leaves k r.mirrored :=
      denoteAt_congr L nodes leaves k l r.mirrored h1 h2 h3
    rw [hGl.2.2.2.2] at hdeq
    rw [pointer.mirrored, denote_transform _ _ _ _ _ _ _ hGr.1 hlv hGr.2.2.1,
      hGr.2.2.2.2, seqTx_mirror] at hdeq
    have hslf : sl.length = 2 ^ k := hfullhyp hrn
    refine ⟨hrn, hdeq, ?_, hslf, ?_⟩
    · rw [hdeq, mirrorSeq_mirrorSeq L sr hwsr]
    · rw [← mirrorSeq_mirrorSeq L sr hwsr, ← hdeq, mirrorSeq_length, hslf]

/-- The pointer returned by emplace_node is Good for `sl ++ sr` whenever the
store holds, at `idx` in layer `k`, a node comparing equal to the canonical
form of `node{l, r}`. -/
theorem emplace_entry_good (L : Nat) (nodes : List (List node)) (leaves : List dna)
    (hSI : storeInv L nodes leaves) (k idx : Nat)
    (hk : k < nodes.length) (hidx : idx < (nodes.getD k []).length)
    (l r : pointer) (sl sr : List dna)
    (hGl : GoodN L nodes leaves k l sl) (hln : l.isNull = false)
    (hGr : GoodN L nodes leaves k r sr)
    (hfullhyp : r.isNull = false → sl.length = 2 ^ k)
    (hrnull : r.isNull = true → sr = [])
    (hbeq : node.beqN ((nodes.getD k []).getD idx default)
      (node.canonical (node.mk l r)).1 = true) :
    GoodN L nodes leaves (k + 1)
      (pointer.ofIndex idx (node.canonical (node.mk l r)).2.1
        (node.canonical (node.mk l r)).2.2 (l.beq r.mirrored)) (sl ++ sr) ∧
    (pointer.ofIndex idx (node.canonical (node.mk l r)).2.1
        (node.canonical (node.mk l r)).2.2 (l.beq r.mirrored)).isNull = false := by
  have hpwS := storeInv_ptrWF hSI
  have hlv := hSI.1
  have hlb := hSI.2.1
  have hnb := hSI.2.2.1
  have hinvtr : l.beq r.mirrored = true → mirrorSeq L (sl ++ sr) = sl ++ sr ∧
      (sl ++ sr).length = 2 ^ (k + 1) := by
    intro hi
    obtain ⟨hrn, hm1, hm2, hl1, hl2⟩ := inv_flag_sem L nodes leaves hlb hnb hlv k l r sl sr
      hGl hln hGr hfullhyp hi
    constructor
    · rw [mirrorSeq_append, ← hm1, ← hm2]
    · rw [List.length_append, hl1, hl2, pow_succ]
      ring
  have hfullL0 : r.isNull = false → fullAt L nodes leaves k l := by
    intro hrn
    rw [fullAt, hGl.2.2.2.2]
    exact hfullhyp hrn
  have hcl : pWF l ∧ wfAt nodes leaves k l ∧ truthfulAt L nodes leaves k l :=
    ⟨hGl.1, hGl.2.1, hGl.2.2.1⟩
  have hcr : pWF r ∧ wfAt nodes leaves k r ∧ truthfulAt L nodes leaves k r :=
    ⟨hGr.1, hGr.2.1, hGr.2.2.1⟩
  have hclM : pWF l.mirrored ∧ wfAt nodes leaves k l.mirrored ∧
      truthfulAt L nodes leaves k l.mirrored :=
    ⟨pWF_transform _ _ _ hGl.1, (wfAt_transform _ _ _ _ _ _ hGl.1).mpr hGl.2.1,
      truthfulAt_transform _ _ _ _ _ _ _ hGl.1 hlv hGl.2.2.1⟩
  have hcrM : pWF r.mirrored ∧ wfAt nodes leaves k r.mirrored ∧
      truthfulAt L nodes leaves k r.mirrored :=
    ⟨pWF_transform _ _ _ hGr.1, (wfAt_transform _ _ _ _ _ _ hGr.1).mpr hGr.2.1,
      truthfulAt_transform _ _ _ _ _ _ _ hGr.1 hlv hGr.2.2.1⟩
  have hclT : pWF l.transposed ∧ wfAt nodes leaves k l.transposed ∧
      truthfulAt L nodes leaves k l.transposed :=
    ⟨pWF_transform _ _ _ hGl.1, (wfAt_transform _ _ _ _ _ _ hGl.1).mpr hGl.2.1,
      truthfulAt_transform _ _ _ _ _ _ _ hGl.1 hlv hGl.2.2.1⟩
  have hcrT : pWF r.transposed ∧ wfAt nodes leaves k r.transposed ∧
      truthfulAt L nodes leaves k r.transposed :=
    ⟨pWF_transform _ _ _ hGr.1, (wfAt_transform _ _ _ _ _ _ hGr.1).mpr hGr.2.1,
      truthfulAt_transform _ _ _ _ _ _ _ hGr.1 hlv hGr.2.2.1⟩
  have hclMT : pWF (l.mirrored).transposed ∧ wfAt nodes leaves k (l.mirrored).transposed ∧
      truthfulAt L nodes leaves k (l.mirrored).transposed :=
    ⟨pWF_transform _ _ _ hclM.1, (wfAt_transform _ _ _ _ _ _ hclM.1).mpr hclM.2.1,
      truthfulAt_transform _ _ _ _ _ _ _ hclM.1 hlv hclM.2.2⟩
  have hcrMT : pWF (r.mirrored).transposed ∧ wfAt nodes leaves k (r.mirrored).transposed ∧
      truthfulAt L nodes leaves k (r.mirrored).transposed :=
    ⟨pWF_transform _ _ _ hcrM.1, (wfAt_transform _ _ _ _ _ _ hcrM.1).mpr hcrM.2.1,
      truthfulAt_transform _ _ _ _ _ _ _ hcrM.1 hlv hcrM.2.2⟩
  rcases node_canonical_cases (node.mk l r) with hC | hC | hC | hC <;> rw [hC] at hbeq ⊢
  · -- canonical is the node itself
    exact entry_good_core L nodes leaves hSI k idx hk hidx false false (l.beq r.mirrored)
      (node.mk l r) hbeq hcl hcr l r sl sr
      (transform_id l hGl.1) (transform_id r hGr.1) hGl hln hGr hfullL0 hrnull hinvtr
  · -- canonical is the mirrored node
    cases hinv : l.beq r.mirrored
    · exact entry_good_core L nodes leaves hSI k idx hk hidx true false false
        (node.mirroredN (node.mk l r)) hbeq hcrM hclM l r sl sr
        (transform_M_tf l hGl.1) (transform_M_tf r hGr.1) hGl hln hGr hfullL0 hrnull
        (fun h => by cases h)
    · obtain ⟨hrn, hm1, hm2, hl1, hl2⟩ := inv_flag_sem L nodes leaves hlb hnb hlv k l r sl sr
        hGl hln hGr hfullhyp hinv
      obtain ⟨hGrm, hGrmn⟩ := GoodN_mirrored_full L nodes leaves hpwS hlv k r sr hGr hrn hl2
      obtain ⟨hGlm, hGlmn⟩ := GoodN_mirrored_full L nodes leaves hpwS hlv k l sl hGl hln hl1
      rw [← hm1] at hGrm
      rw [← hm2] at hGlm
      exact entry_good_core L nodes leaves hSI k idx hk hidx true false true
        (node.mirroredN (node.mk l r)) hbeq hcrM hclM r.mirrored l.mirrored sl sr
        (transform_id r.mirrored hcrM.1) (transform_id l.mirrored hclM.1)
        hGrm hGrmn hGlm
        (fun _ => by rw [fullAt, hGrm.2.2.2.2]; exact hl1)
        (fun h => by rw [h] at hGlmn; cases hGlmn) (fun _ => hinvtr hinv)
  · -- canonical is the transposed node
    exact entry_good_core L nodes leaves hSI k idx hk hidx false true (l.beq r.mirrored)
      (node.transposedN (node.mk l r)) hbeq hclT hcrT l r sl sr
      (transform_T_ft l hGl.1) (transform_T_ft r hGr.1) hGl hln hGr hfullL0 hrnull hinvtr
  · -- canonical is the inverted node
    cases hinv : l.beq r.mirrored
    · exact entry_good_core L nodes leaves hSI k idx hk hidx true true false
        (node.invertedN (node.mk l r)) hbeq hcrMT hclMT l r sl sr
        (transform_MT_tt l hGl.1) (transform_MT_tt r hGr.1) hGl hln hGr hfullL0 hrnull
        (fun h => by cases h)
    · obtain ⟨hrn, hm1, hm2, hl1, hl2⟩ := inv_flag_sem L nodes leaves hlb hnb hlv k l r sl sr
        hGl hln hGr hfullhyp hinv
      obtain ⟨hGrm, hGrmn⟩ := GoodN_mirrored_full L nodes leaves hpwS hlv k r sr hGr hrn hl2
      obtain ⟨hGlm, hGlmn⟩ := GoodN_mirrored_full L nodes leaves hpwS hlv k l sl hGl hln hl1
      rw [← hm1] at hGrm
      rw [← hm2] at hGlm
      exact entry_good_core L nodes leaves hSI k idx hk hidx true true true
        (node.invertedN (node.mk l r)) hbeq hcrMT hclMT r.mirrored l.mirrored sl sr
        (transform_MT_ft r hGr.1) (transform_MT_ft l hGl.1)
        hGrm hGrmn hGlm
        (fun _ => by rw [fullAt, hGrm.2.2.2.2]; exact hl1)
        (fun h => by rw [h] at hGlmn; cases hGlmn) (fun _ => hinvtr hinv)

/-! ## Lookup and list bookkeeping lemmas -/

theorem posOf_some {α : Type} (p : α → Bool) (d : α) :
    ∀ (l : List α) (i : Nat), posOf p l = some i →
      i < l.length ∧ p (l.getD i d) = true
  | [], i, h => by simp [posOf] at h
  | a :: l, i, h => by
      simp only [posOf] at h
      split at h
      case isTrue hpa =>
        injection h with h'
        subst h'
        exact ⟨Nat.succ_pos _, hpa⟩
      case isFalse hpa =>
        cases hrec : posOf p l with
        | none => rw [hrec] at h; simp at h
        | some j =>
            rw [hrec] at h
            have h2 : j + 1 = i := by simpa using h
            subst h2
            have ih := posOf_some p d l j hrec
            refine ⟨by simp only [List.length_cons]; omega, ?_⟩
            simpa [List.getD_cons_succ] using ih.2

theorem posOf_none {α : Type} (p : α → Bool) :
    ∀ (l : List α), posOf p l = none → ∀ x ∈ l, p x = false
  | [], _, x, hx => by cases hx
  | a :: l, h, x, hx => by
      simp only [posOf] at h
      split at h
      · cases h
      case isFalse hpa =>
        rcases List.mem_cons.mp hx with rfl | hx'
        · simp only [Bool.not_eq_true] at hpa
          exact hpa
        · have hnone : posOf p l = none := by
            cases hrec : posOf p l
            · rfl
            · rw [hrec] at h; simp at h
          exact posOf_none p l hnone x hx'

theorem getD_append_self {α : Type} (l : List α) (a d : α) :
    (l ++ [a]).getD l.length d = a := by
  induction l with
  | nil => rfl
  | cons b l ih => simpa [List.getD_cons_succ] using ih

theorem getD_set_self {α : Type} :
    ∀ (l : List α) (k : Nat) (v d : α), k < l.length → (l.set k v).getD k d = v
  | [], k, v, d, h => by cases h
  | a :: l, 0, v, d, _ => rfl
  | a :: l, k + 1, v, d, h => by
      simp only [List.set_cons_succ, List.getD_cons_succ]
      exact getD_set_self l k v d (by simp at h; omega)

theorem getD_set_ne {α : Type} :
    ∀ (l : List α) (j k : Nat) (v d : α), j ≠ k → (l.set k v).getD j d = l.getD j d
  | [], j, k, v, d, h => rfl
  | a :: l, j, 0, v, d, h => by
      cases j with
      | zero => exact absurd rfl h
      | succ j => rfl
  | a :: l, 0, k + 1, v, d, h => rfl
  | a :: l, j + 1, k + 1, v, d, h => by
      simp only [List.set_cons_succ, List.getD_cons_succ]
      exact getD_set_ne l j k v d (by omega)

theorem node_beqN_refl (n : node) : node.beqN n n = true := by
  simp [node.beqN, pointer.beq]

theorem canonical_children_props (L : Nat) (nodes : List (List node)) (leaves : List dna)
    (hlv : ∀ x ∈ leaves, x.wfv) (k : Nat) (l r : pointer)
    (hlp : pWF l) (hrp : pWF r)
    (hlw : wfAt nodes leaves k l) (hrw : wfAt nodes leaves k r)
    (hlt : truthfulAt L nodes leaves k l) (hrt : truthfulAt L nodes leaves k r) :
    pWF (node.canonical (node.mk l r)).1.left ∧
    pWF (node.canonical (node.mk l r)).1.right ∧
    wfAt nodes leaves k (node.canonical (node.mk l r)).1.left ∧
    wfAt nodes leaves k (node.canonical (node.mk l r)).1.right ∧
    truthfulAt L nodes leaves k (node.canonical (node.mk l r)).1.left ∧
    truthfulAt L nodes leaves k (node.canonical (node.mk l r)).1.right := by
  rcases node_canonical_cases (node.mk l r) with hC | hC | hC | hC <;> rw [hC]
  · exact ⟨hlp, hrp, hlw, hrw, hlt, hrt⟩
  · exact ⟨pWF_transform _ _ _ hrp, pWF_transform _ _ _ hlp,
      (wfAt_transform _ _ _ _ _ _ hrp).mpr hrw, (wfAt_transform _ _ _ _ _ _ hlp).mpr hlw,
      truthfulAt_transform _ _ _ _ _ _ _ hrp hlv hrt,
      truthfulAt_transform _ _ _ _ _ _ _ hlp hlv hlt⟩
  · exact ⟨pWF_transform _ _ _ hlp, pWF_transform _ _ _ hrp,
      (wfAt_transform _ _ _ _ _ _ hlp).mpr hlw, (wfAt_transform _ _ _ _ _ _ hrp).mpr hrw,
      truthfulAt_transform _ _ _ _ _ _ _ hlp hlv hlt,
      truthfulAt_transform _ _ _ _ _ _ _ hrp hlv hrt⟩
  · have h1 : pWF r.mirrored := pWF_transform _ _ _ hrp
    have h2 : pWF l.mirrored := pWF_transform _ _ _ hlp
    exact ⟨pWF_transform _ _ _ h1, pWF_transform _ _ _ h2,
      (wfAt_transform _ _ _ _ _ _ h1).mpr ((wfAt_transform _ _ _ _ _ _ hrp).mpr hrw),
      (wfAt_transform _ _ _ _ _ _ h2).mpr ((wfAt_transform _ _ _ _ _ _ hlp).mpr hlw),
      truthfulAt_transform _ _ _ _ _ _ _ h1 hlv
        (truthfulAt_transform _ _ _ _ _ _ _ hrp hlv hrt),
      truthfulAt_transform _ _ _ _ _ _ _ h2 hlv
        (truthfulAt_transform _ _ _ _ _ _ _ hlp hlv hlt)⟩

/-- Full specification of tree_constructor::emplace_node: the store invariant
is preserved, the store only grows (by at most one node in layer `k`), and
the returned pointer is Good for the concatenation of the children's
sequences. -/
theorem emplace_node_spec (L : Nat) (c : tree_constructor) (k : Nat) (l r : pointer)
    (sl sr : List dna)
    (hSI : storeInv L c.tree_nodes c.tree_leaves)
    (hk : k < c.tree_nodes.length)
    (hroom : (c.tree_nodes.getD k []).length < 0x1fffffff)
    (hGl : GoodN L c.tree_nodes c.tree_leaves k l sl) (hln : l.isNull = false)
    (hGr : GoodN L c.tree_nodes c.tree_leaves k r sr)
    (hfullhyp : r.isNull = false → sl.length = 2 ^ k)
    (hrnull : r.isNull = true → sr = []) :
    storeInv L (c.emplace_node k l r).1.tree_nodes (c.emplace_node k l r).1.tree_leaves ∧
    storeLe c.tree_nodes c.tree_leaves (c.emplace_node k l r).1.tree_nodes
      (c.emplace_node k l r).1.tree_leaves ∧
    (c.emplace_node k l r).1.tree_leaves = c.tree_leaves ∧
    (c.emplace_node k l r).1.tree_nodes.length = c.tree_nodes.length ∧
    (c.emplace_node k l r).1.roots = c.roots ∧
    (∀ j, j ≠ k → (c.emplace_node k l r).1.tree_nodes.getD j [] = c.tree_nodes.getD j []) ∧
    ((c.emplace_node k l r).1.tree_nodes.getD k []).length ≤
      (c.tree_nodes.getD k []).length + 1 ∧
    GoodN L (c.emplace_node k l r).1.tree_nodes (c.emplace_node k l r).1.tree_leaves
      (k + 1) (c.emplace_node k l r).2 (sl ++ sr) ∧
    (c.emplace_node k l r).2.isNull = false := by
  have hpwS := storeInv_ptrWF hSI
  have hlv := hSI.1
  cases hlook : lookupNode (c.tree_nodes.getD k []) (node.canonical (node.mk l r)).1 with
  | some idx =>
      have hres : c.emplace_node k l r =
          (c, pointer.ofIndex idx (node.canonical (node.mk l r)).2.1
            (node.canonical (node.mk l r)).2.2 (l.beq r.mirrored)) := by
        simp only [tree_constructor.emplace_node, hlook]
      obtain ⟨hidx, hpred⟩ := posOf_some _ default _ idx hlook
      obtain ⟨hG, hn⟩ := emplace_entry_good L c.tree_nodes c.tree_leaves hSI k idx hk hidx
        l r sl sr hGl hln hGr hfullhyp hrnull hpred
      rw [hres]
      exact ⟨hSI, storeLe_refl _ _, rfl, rfl, rfl, fun _ _ => rfl, Nat.le_succ _, hG, hn⟩
  | none =>
      set can := (node.canonical (node.mk l r)).1 with hcan
      set layer := c.tree_nodes.getD k [] with hlayer
      have hres : c.emplace_node k l r =
          ({ c with tree_nodes := c.tree_nodes.set k (layer ++ [can]) },
           pointer.ofIndex layer.length (node.canonical (node.mk l r)).2.1
            (node.canonical (node.mk l r)).2.2 (l.beq r.mirrored)) := by
        simp only [tree_constructor.emplace_node, hlook]
      have hle : storeLe c.tree_nodes c.tree_leaves
          (c.tree_nodes.set k (layer ++ [can])) c.tree_leaves := by
        refine ⟨⟨[], by simp⟩, by rw [List.length_set], ?_⟩
        intro j
        by_cases hj : j = k
        · exact ⟨[can], by rw [hj, getD_set_self _ _ _ _ hk]⟩
        · exact ⟨[], by rw [getD_set_ne _ _ _ _ _ hj]; simp⟩
      have hgk : (c.tree_nodes.set k (layer ++ [can])).getD k [] = layer ++ [can] :=
        getD_set_self _ _ _ _ hk
      have hccp := canonical_children_props L c.tree_nodes c.tree_leaves hlv k l r
        hGl.1 hGr.1 hGl.2.1 hGr.2.1 hGl.2.2.1 hGr.2.2.1
      have hSI' : storeInv L (c.tree_nodes.set k (layer ++ [can])) c.tree_leaves := by
        obtain ⟨h1, h2, h3, h4, h5⟩ := hSI
        refine ⟨h1, h2, ?_, ?_, ?_⟩
        · intro j
          by_cases hj : j = k
          · rw [hj, hgk, List.length_append]
            simp only [List.length_singleton]
            omega
          · rw [getD_set_ne _ _ _ _ _ hj]
            exact h3 j
        · intro j nd hm
          by_cases hj : j = k
          · rw [hj] at hm ⊢
            rw [hgk] at hm
            rcases List.mem_append.mp hm with hm | hm
            · obtain ⟨p1, p2, p3, p4, p5, p6⟩ := h4 k nd hm
              exact ⟨p1, p2, (storeLe_wf_denote L hle k nd.left p3).1,
                (storeLe_wf_denote L hle k nd.right p4).1,
                storeLe_truthful L hle k nd.left p3 p5,
                storeLe_truthful L hle k nd.right p4 p6⟩
            · rw [List.mem_singleton] at hm
              subst hm
              obtain ⟨q1, q2, q3, q4, q5, q6⟩ := hccp
              exact ⟨q1, q2, (storeLe_wf_denote L hle k _ q3).1,
                (storeLe_wf_denote L hle k _ q4).1,
                storeLe_truthful L hle k _ q3 q5,
                storeLe_truthful L hle k _ q4 q6⟩
          · rw [getD_set_ne _ _ _ _ _ hj] at hm
            obtain ⟨p1, p2, p3, p4, p5, p6⟩ := h4 j nd hm
            exact ⟨p1, p2, (storeLe_wf_denote L hle j nd.left p3).1,
              (storeLe_wf_denote L hle j nd.right p4).1,
              storeLe_truthful L hle j nd.left p3 p5,
              storeLe_truthful L hle j nd.right p4 p6⟩
        · intro j nd hm
          by_cases hj : j = k
          · rw [hj] at hm
            rw [hgk] at hm
            rcases List.mem_append.mp hm with hm | hm
            · exact h5 k nd hm
            · rw [List.mem_singleton] at hm
              subst hm
              exact node_canonical_idem (node.mk l r) hGl.1 hGr.1 hGl.1.2.2 hGr.1.2.2
          · rw [getD_set_ne _ _ _ _ _ hj] at hm
            exact h5 j nd hm
      have hbeqn : node.beqN
          (((c.tree_nodes.set k (layer ++ [can])).getD k []).getD layer.length default)
          can = true := by
        rw [hgk, getD_append_self]
        exact node_beqN_refl can
      obtain ⟨hG, hn⟩ := emplace_entry_good L (c.tree_nodes.set k (layer ++ [can]))
        c.tree_leaves hSI' k layer.length (by rw [List.length_set]; exact hk)
        (by rw [hgk, List.length_append]; simp)
        l r sl sr (GoodN_mono L hle hpwS k l sl hGl) hln
        (GoodN_mono L hle hpwS k r sr hGr) hfullhyp hrnull hbeqn
      rw [hres]
      refine ⟨hSI', hle, rfl, by rw [List.length_set], rfl, ?_, ?_, hG, hn⟩
      · intro j hj
        exact getD_set_ne _ _ _ _ _ hj
      · rw [hgk, List.length_append]
        simp

/-! ## emplace_leaf specification -/

theorem mirrorSeq_singleton (L : Nat) (x : dna) :
    mirrorSeq L [x] = [x.mirrored L] := by
  simp [mirrorSeq]

/-- A pointer built from the canonicalization flags onto a stored canonical
strand is Good for the original strand. -/
theorem leaf_entry_good (L : Nat) (nodes : List (List node)) (leaves : List dna)
    (hlb : leaves.length ≤ 0x1fffffff) (x : dna) (hx : x.wfv)
    (idx : Nat) (hidx : idx < leaves.length)
    (hentry : leaves.getD idx default = (dna.canonical L x).1) :
    GoodN L nodes leaves 0
      (pointer.ofIndex idx (dna.canonical L x).2.1 (dna.canonical L x).2.2.1
        (dna.canonical L x).2.2.2) [x] ∧
    (pointer.ofIndex idx (dna.canonical L x).2.1 (dna.canonical L x).2.2.1
        (dna.canonical L x).2.2.2).isNull = false := by
  obtain ⟨hcw, hrec, hinv⟩ := dna.canonical_recover L x hx
  have hidx29 : idx < 0x1fffffff := by omega
  have hn : (pointer.ofIndex idx (dna.canonical L x).2.1 (dna.canonical L x).2.2.1
      (dna.canonical L x).2.2.2).isNull = false := ofIndex_isNull _ _ _ _ hidx29
  have hdata : (pointer.ofIndex idx (dna.canonical L x).2.1 (dna.canonical L x).2.2.1
      (dna.canonical L x).2.2.2).data = idx := ofIndex_data _ _ _ _ (by omega)
  have hden : denoteAt L nodes leaves 0
      (pointer.ofIndex idx (dna.canonical L x).2.1 (dna.canonical L x).2.2.1
        (dna.canonical L x).2.2.2) = [x] := by
    rw [denoteAt_zero _ _ _ _ hn, hdata, hentry, seqTx_singleton]
    rw [show (pointer.ofIndex idx (dna.canonical L x).2.1 (dna.canonical L x).2.2.1
      (dna.canonical L x).2.2.2).mirror =
      ((dna.canonical L x).2.1 && !(dna.canonical L x).2.2.2) from rfl]
    rw [show (pointer.ofIndex idx (dna.canonical L x).2.1 (dna.canonical L x).2.2.1
      (dna.canonical L x).2.2.2).transpose = (dna.canonical L x).2.2.1 from rfl]
    rw [hrec]
  refine ⟨⟨pWF_ofIndex _ _ _ _ hidx29, Or.inr (by rw [pointer.index, hdata]; exact hidx),
    ?_, trivial, hden⟩, hn⟩
  intro hi _
  have hxi : x.invariant L = true := by
    rw [← hinv]
    exact hi
  rw [hden, mirrorSeq_singleton, dna.invariant_eq L x hxi]
  exact ⟨rfl, rfl⟩

theorem emplace_leaf_spec (L : Nat) (c : tree_constructor) (x : dna) (hx : x.wfv)
    (hSI : storeInv L c.tree_nodes c.tree_leaves)
    (hroom : c.tree_leaves.length < 0x1fffffff) :
    storeInv L (c.emplace_leaf L x).1.tree_nodes (c.emplace_leaf L x).1.tree_leaves ∧
    storeLe c.tree_nodes c.tree_leaves (c.emplace_leaf L x).1.tree_nodes
      (c.emplace_leaf L x).1.tree_leaves ∧
    (c.emplace_leaf L x).1.tree_nodes = c.tree_nodes ∧
    (c.emplace_leaf L x).1.tree_leaves.length ≤ c.tree_leaves.length + 1 ∧
    (c.emplace_leaf L x).1.roots = c.roots ∧
    GoodN L (c.emplace_leaf L x).1.tree_nodes (c.emplace_leaf L x).1.tree_leaves 0
      (c.emplace_leaf L x).2 [x] ∧
    (c.emplace_leaf L x).2.isNull = false := by
  cases hlook : lookupLeaf c.tree_leaves (dna.canonical L x).1 with
  | some idx =>
      have hres : c.emplace_leaf L x =
          (c, pointer.ofIndex idx (dna.canonical L x).2.1 (dna.canonical L x).2.2.1
            (dna.canonical L x).2.2.2) := by
        simp only [tree_constructor.emplace_leaf, hlook]
      obtain ⟨hidx, hpred⟩ := posOf_some _ default _ idx hlook
      have hentry : c.tree_leaves.getD idx default = (dna.canonical L x).1 := by
        have := hpred
        rwa [beq_iff_eq] at this
      obtain ⟨hG, hn⟩ := leaf_entry_good L c.tree_nodes c.tree_leaves hSI.2.1 x hx idx
        hidx hentry
      rw [hres]
      exact ⟨hSI, storeLe_refl _ _, rfl, Nat.le_succ _, rfl, hG, hn⟩
  | none =>
      have hres : c.emplace_leaf L x =
          ({ c with tree_leaves := c.tree_leaves ++ [(dna.canonical L x).1] },
           pointer.ofIndex c.tree_leaves.length (dna.canonical L x).2.1
            (dna.canonical L x).2.2.1 (dna.canonical L x).2.2.2) := by
        simp only [tree_constructor.emplace_leaf, hlook]
      have hle : storeLe c.tree_nodes c.tree_leaves c.tree_nodes
          (c.tree_leaves ++ [(dna.canonical L x).1]) :=
        ⟨⟨[(dna.canonical L x).1], rfl⟩, le_refl _, fun _ => ⟨[], by simp⟩⟩
      obtain ⟨h1, h2, h3, h4, h5⟩ := hSI
      have hSI' : storeInv L c.tree_nodes (c.tree_leaves ++ [(dna.canonical L x).1]) := by
        refine ⟨?_, ?_, h3, ?_, h5⟩
        · intro y hy
          rcases List.mem_append.mp hy with hy | hy
          · exact h1 y hy
          · rw [List.mem_singleton] at hy
            subst hy
            exact (dna.canonical_recover L x hx).1
        · rw [List.length_append]
          simp only [List.length_singleton]
          omega
        · intro j nd hm
          obtain ⟨p1, p2, p3, p4, p5, p6⟩ := h4 j nd hm
          exact ⟨p1, p2, (storeLe_wf_denote L hle j nd.left p3).1,
            (storeLe_wf_denote L hle j nd.right p4).1,
            storeLe_truthful L hle j nd.left p3 p5,
            storeLe_truthful L hle j nd.right p4 p6⟩
      have hentry : (c.tree_leaves ++ [(dna.canonical L x).1]).getD
          c.tree_leaves.length default = (dna.canonical L x).1 :=
        getD_append_self _ _ _
      obtain ⟨hG, hn⟩ := leaf_entry_good L c.tree_nodes
        (c.tree_leaves ++ [(dna.canonical L x).1]) hSI'.2.1 x hx c.tree_leaves.length
        (by rw [List.length_append]; simp) hentry
      rw [hres]
      refine ⟨hSI', hle, rfl, ?_, rfl, hG, hn⟩
      rw [List.length_append]
      simp

/-! ## Chains of Good pointers and the reduce pipeline -/

/-- A production chain: pointers paired with the segments they denote, all
non-null, and every pointer except the last denoting a full subtree. -/
def GoodChain (L : Nat) (nodes : List (List node)) (leaves : List dna) (lev : Nat) :
    List pointer → List (List dna) → Prop
  | [], [] => True
  | p :: ps, s :: ss =>
      GoodN L nodes leaves lev p s ∧ p.isNull = false ∧
      (ps = [] ∨ s.length = 2 ^ lev) ∧ GoodChain L nodes leaves lev ps ss
  | _, _ => False

theorem GoodChain_mono (L : Nat) {nodes leaves nodes' leaves'}
    (hle : storeLe nodes leaves nodes' leaves') (hpw : storePtrWF nodes) (lev : Nat) :
    ∀ (ps : List pointer) (ss : List (List dna)),
      GoodChain L nodes leaves lev ps ss → GoodChain L nodes' leaves' lev ps ss
  | [], [], _ => trivial
  | p :: ps, s :: ss, h => by
      obtain ⟨h1, h2, h3, h4⟩ := h
      exact ⟨GoodN_mono L hle hpw lev p s h1, h2, h3,
        GoodChain_mono L hle hpw lev ps ss h4⟩
  | [], _ :: _, h => h.elim
  | _ :: _, [], h => h.elim

/-- Size of the store: leaves plus all stored nodes. -/
def stSize (c : tree_constructor) : Nat :=
  c.tree_leaves.length + (c.tree_nodes.map List.length).sum

theorem getD_length_le_sum (l : List (List node)) (j : Nat) :
    (l.getD j []).length ≤ (l.map List.length).sum := by
  by_cases h : j < l.length
  · rw [List.getD_eq_getElem _ _ h]
    refine List.single_le_sum (fun x _ => Nat.zero_le x) _ ?_
    exact List.mem_map.mpr ⟨_, List.getElem_mem h, rfl⟩
  · rw [List.getD_eq_default _ _ (by omega)]
    exact Nat.zero_le _

theorem sum_map_set_le :
    ∀ (l : List (List node)) (k : Nat) (a : List node) (m : Nat),
      a.length ≤ (l.getD k []).length + m →
      ((l.set k a).map List.length).sum ≤ (l.map List.length).sum + m
  | [], _, _, _, _ => by simp
  | b :: l, 0, a, m, h => by
      simp only [List.set_cons_zero, List.map_cons, List.sum_cons]
      have : (l.map List.length).sum ≤ (l.map List.length).sum := le_refl _
      simp only [List.getD_cons_zero] at h
      omega
  | b :: l, k + 1, a, m, h => by
      simp only [List.set_cons_succ, List.map_cons, List.sum_cons]
      have ih := sum_map_set_le l k a m (by simpa [List.getD_cons_succ] using h)
      omega

theorem emplace_node_stSize (L : Nat) (c : tree_constructor) (k : Nat) (l r : pointer) :
    stSize (c.emplace_node k l r).1 ≤ stSize c + 1 := by
  simp only [tree_constructor.emplace_node]
  cases hlook : lookupNode (c.tree_nodes.getD k []) (node.canonical ⟨l, r⟩).1 <;>
    simp only [hlook]
  · simp only [stSize]
    have := sum_map_set_le c.tree_nodes k
      (c.tree_nodes.getD k [] ++ [(node.canonical ⟨l, r⟩).1]) 1 (by simp)
    omega
  · exact Nat.le_succ _

theorem emplace_leaf_stSize (L : Nat) (c : tree_constructor) (x : dna) :
    stSize (c.emplace_leaf L x).1 ≤ stSize c + 1 := by
  simp only [tree_constructor.emplace_leaf]
  cases hlook : lookupLeaf c.tree_leaves (dna.canonical L x).1 <;> simp only [hlook]
  · simp only [stSize, List.length_append]
    simp only [List.length_cons, List.length_nil]
    omega
  · exact Nat.le_succ _

/-- The emplace_node pass of reduce_nodes, after the layer bookkeeping. -/
def emplacePairs (index : Nat) (c : tree_constructor) (ps : List pointer) :
    tree_constructor × List pointer :=
  foreachPair (fun s a b => s.emplace_node index a b)
    (fun s a => s.emplace_node index a pointer.null) c ps

theorem reduce_nodes_eq (c : tree_constructor) (ps : List pointer) (index : Nat) :
    c.reduce_nodes ps index =
      emplacePairs index (if c.tree_nodes.length + 1 - 2 < index
        then { c with tree_nodes := c.tree_nodes ++ [[]] } else c) ps := rfl

theorem emplacePairs_spec (L index : Nat) :
    ∀ (ps : List pointer) (ss : List (List dna)) (c : tree_constructor),
      storeInv L c.tree_nodes c.tree_leaves →
      index < c.tree_nodes.length →
      GoodChain L c.tree_nodes c.tree_leaves index ps ss →
      (c.tree_nodes.getD index []).length + (ps.length + 1) / 2 ≤ 0x1fffffff →
      storeInv L (emplacePairs index c ps).1.tree_nodes
        (emplacePairs index c ps).1.tree_leaves ∧
      storeLe c.tree_nodes c.tree_leaves (emplacePairs index c ps).1.tree_nodes
        (emplacePairs index c ps).1.tree_leaves ∧
      (emplacePairs index c ps).1.tree_leaves = c.tree_leaves ∧
      (emplacePairs index c ps).1.tree_nodes.length = c.tree_nodes.length ∧
      (emplacePairs index c ps).1.roots = c.roots ∧
      (∀ j, j ≠ index → (emplacePairs index c ps).1.tree_nodes.getD j [] =
        c.tree_nodes.getD j []) ∧
      ((emplacePairs index c ps).1.tree_nodes.getD index []).length ≤
        (c.tree_nodes.getD index []).length + (ps.length + 1) / 2 ∧
      ∃ ss', GoodChain L (emplacePairs index c ps).1.tree_nodes
          (emplacePairs index c ps).1.tree_leaves (index + 1)
          (emplacePairs index c ps).2 ss' ∧
        ss'.join = ss.join
  | [], ss, c => by
      intro hSI hidx hchain hroom
      cases ss with
      | cons s ss => exact hchain.elim
      | nil =>
          refine ⟨hSI, storeLe_refl _ _, rfl, rfl, rfl, fun _ _ => rfl,
            by simp only [emplacePairs, foreachPair]; omega, [], trivial, rfl⟩
  | [a], ss, c => by
      intro hSI hidx hchain hroom
      cases ss with
      | nil => exact hchain.elim
      | cons s ss =>
          obtain ⟨hGa, hna, _, htail⟩ := hchain
          cases ss with
          | cons s2 ss2 => exact htail.elim
          | nil =>
          have hroom1 : (c.tree_nodes.getD index []).length < 0x1fffffff := by
            simp only [List.length_cons, List.length_nil] at hroom; omega
          obtain ⟨hSI1, hle1, hlv1, hlen1, hroots1, hframe1, hgrow1, hGp, hnp⟩ :=
            emplace_node_spec L c index a pointer.null s [] hSI hidx hroom1 hGa hna
              (GoodN_null L c.tree_nodes c.tree_leaves index)
              (fun h => by rw [null_isNull] at h; cases h)
              (fun _ => rfl)
          refine ⟨hSI1, hle1, hlv1, hlen1, hroots1, hframe1, ?_, [s ++ []], ?_, by simp⟩
          · simpa using hgrow1
          · exact ⟨hGp, hnp, Or.inl rfl, trivial⟩
  | a :: b :: rest, ss, c => by
      intro hSI hidx hchain hroom
      cases ss with
      | nil => exact hchain.elim
      | cons sa ss =>
          obtain ⟨hGa, hna, hfa, htail⟩ := hchain
          cases ss with
          | nil => exact htail.elim
          | cons sb ssrest =>
          obtain ⟨hGb, hnb, hfb, htail2⟩ := htail
          have hfulla : sa.length = 2 ^ index := by
            rcases hfa with h | h
            · cases h
            · exact h
          have hroom1 : (c.tree_nodes.getD index []).length < 0x1fffffff := by
            simp only [List.length_cons] at hroom; omega
          obtain ⟨hSI1, hle1, hlv1, hlen1, hroots1, hframe1, hgrow1, hGp, hnp⟩ :=
            emplace_node_spec L c index a b sa sb hSI hidx hroom1 hGa hna hGb
              (fun _ => hfulla)
              (fun h => by rw [hnb] at h; cases h)
          set c1 := (c.emplace_node index a b).1 with hc1
          have hpw := storeInv_ptrWF hSI
          have hpw1 := storeInv_ptrWF hSI1
          have hchain1 : GoodChain L c1.tree_nodes c1.tree_leaves index rest ssrest :=
            GoodChain_mono L hle1 hpw index rest ssrest htail2
          have hidx1 : index < c1.tree_nodes.length := by rw [hlen1]; exact hidx
          have hroom2 : (c1.tree_nodes.getD index []).length +
              (rest.length + 1) / 2 ≤ 0x1fffffff := by
            simp only [List.length_cons] at hroom; omega
          obtain ⟨hSI2, hle2, hlv2, hlen2, hroots2, hframe2, hgrow2, ssr, hchainr, hjoinr⟩ :=
            emplacePairs_spec L index rest ssrest c1 hSI1 hidx1 hchain1 hroom2
          have hres : emplacePairs index c (a :: b :: rest) =
              ((emplacePairs index c1 rest).1,
               (c.emplace_node index a b).2 :: (emplacePairs index c1 rest).2) := rfl
          rw [hres]
          refine ⟨hSI2, storeLe_trans hle1 hle2, by rw [hlv2, hlv1],
            by rw [hlen2, hlen1], by rw [hroots2, hroots1],
            fun j hj => by rw [hframe2 j hj, hframe1 j hj], ?_,
            (sa ++ sb) :: ssr, ?_, ?_⟩
          · have := hgrow2
            have := hgrow1
            simp only [List.length_cons]
            omega
          · refine ⟨GoodN_mono L hle2 hpw1 (index + 1) _ _ hGp, hnp, ?_, hchainr⟩
            cases rest with
            | nil => exact Or.inl rfl
            | cons p2 rest2 =>
                right
                have hfullb : sb.length = 2 ^ index := by
                  rcases hfb with h | h
                  · cases h
                  · exact h
                rw [List.length_append, hfulla, hfullb, pow_succ]
                omega
          · have h := hjoinr
            simp only [List.join] at h ⊢
            simp [h, List.append_assoc]

theorem getD_append_layer (nodes : List (List node)) (k : Nat) :
    (nodes ++ [([] : List node)]).getD k [] = nodes.getD k [] := by
  by_cases h : k < nodes.length
  · exact getD_append_lt _ _ _ _ h
  · by_cases h2 : k = nodes.length
    · rw [h2, getD_append_self, List.getD_eq_default _ _ (le_refl _)]
    · rw [List.getD_eq_default _ _ (by simp; omega),
        List.getD_eq_default _ _ (by omega)]

theorem add_layer_storeLe (nodes : List (List node)) (leaves : List dna) :
    storeLe nodes leaves (nodes ++ [([] : List node)]) leaves :=
  ⟨⟨[], by simp⟩, by simp, fun k => ⟨[], by rw [getD_append_layer]; simp⟩⟩

theorem add_layer_storeInv (L : Nat) {nodes : List (List node)} {leaves : List dna}
    (hSI : storeInv L nodes leaves) :
    storeInv L (nodes ++ [([] : List node)]) leaves := by
  obtain ⟨h1, h2, h3, h4, h5⟩ := hSI
  have hle := add_layer_storeLe nodes leaves
  refine ⟨h1, h2, fun k => by rw [getD_append_layer]; exact h3 k, ?_,
    fun k nd hm => h5 k nd (by rwa [getD_append_layer] at hm)⟩
  intro k nd hm
  rw [getD_append_layer] at hm
  obtain ⟨hpl, hpr, hwl, hwr, htl, htr⟩ := h4 k nd hm
  exact ⟨hpl, hpr, (storeLe_wf_denote L hle k _ hwl).1,
    (storeLe_wf_denote L hle k _ hwr).1,
    storeLe_truthful L hle k _ hwl htl, storeLe_truthful L hle k _ hwr htr⟩

theorem reduce_nodes_spec (L : Nat) (c : tree_constructor) (ps : List pointer)
    (ss : List (List dna)) (index : Nat)
    (hSI : storeInv L c.tree_nodes c.tree_leaves)
    (hil : 1 ≤ index) (hiu : index ≤ c.tree_nodes.length)
    (hchain : GoodChain L c.tree_nodes c.tree_leaves index ps ss)
    (hroom : (c.tree_nodes.getD index []).length + (ps.length + 1) / 2 ≤ 0x1fffffff) :
    storeInv L (c.reduce_nodes ps index).1.tree_nodes
      (c.reduce_nodes ps index).1.tree_leaves ∧
    storeLe c.tree_nodes c.tree_leaves (c.reduce_nodes ps index).1.tree_nodes
      (c.reduce_nodes ps index).1.tree_leaves ∧
    (c.reduce_nodes ps index).1.tree_leaves = c.tree_leaves ∧
    index < (c.reduce_nodes ps index).1.tree_nodes.length ∧
    (c.reduce_nodes ps index).1.roots = c.roots ∧
    (∀ j, j ≠ index → (c.reduce_nodes ps index).1.tree_nodes.getD j [] =
      c.tree_nodes.getD j []) ∧
    ((c.reduce_nodes ps index).1.tree_nodes.getD index []).length ≤
      (c.tree_nodes.getD index []).length + (ps.length + 1) / 2 ∧
    ∃ ss', GoodChain L (c.reduce_nodes ps index).1.tree_nodes
        (c.reduce_nodes ps index).1.tree_leaves (index + 1)
        (c.reduce_nodes ps index).2 ss' ∧
      ss'.join = ss.join := by
  rw [reduce_nodes_eq]
  by_cases hadd : c.tree_nodes.length + 1 - 2 < index
  · simp only [if_pos hadd]
    set c0 : tree_constructor :=
      { c with tree_nodes := c.tree_nodes ++ [[]] } with hc0
    have hSI0 : storeInv L c0.tree_nodes c0.tree_leaves := add_layer_storeInv L hSI
    have hle0 : storeLe c.tree_nodes c.tree_leaves c0.tree_nodes c0.tree_leaves :=
      add_layer_storeLe _ _
    have hidx0 : index < c0.tree_nodes.length := by
      simp only [hc0, List.length_append, List.length_cons, List.length_nil]
      omega
    have hchain0 : GoodChain L c0.tree_nodes c0.tree_leaves index ps ss :=
      GoodChain_mono L hle0 (storeInv_ptrWF hSI) index ps ss hchain
    have hroom0 : (c0.tree_nodes.getD index []).length + (ps.length + 1) / 2 ≤
        0x1fffffff := by
      show ((c.tree_nodes ++ [[]]).getD index []).length + _ ≤ _
      rw [getD_append_layer]
      exact hroom
    obtain ⟨hSI1, hle1, hlv1, hlen1, hroots1, hframe1, hgrow1, hss⟩ :=
      emplacePairs_spec L index ps ss c0 hSI0 hidx0 hchain0 hroom0
    refine ⟨hSI1, storeLe_trans hle0 hle1, hlv1, by omega, hroots1, ?_, ?_, hss⟩
    · intro j hj
      rw [hframe1 j hj]
      exact getD_append_layer _ _
    · calc ((emplacePairs index c0 ps).1.tree_nodes.getD index []).length ≤
          (c0.tree_nodes.getD index []).length + (ps.length + 1) / 2 := hgrow1
        _ = (c.tree_nodes.getD index []).length + (ps.length + 1) / 2 := by
            show ((c.tree_nodes ++ [[]]).getD index []).length + _ = _
            rw [getD_append_layer]
  · simp only [if_neg hadd]
    have hidx : index < c.tree_nodes.length := by omega
    obtain ⟨hSI1, hle1, hlv1, hlen1, hroots1, hframe1, hgrow1, hss⟩ :=
      emplacePairs_spec L index ps ss c hSI hidx hchain hroom
    exact ⟨hSI1, hle1, hlv1, by omega, hroots1, hframe1, hgrow1, hss⟩

theorem emplacePairs_stSize (index : Nat) :
    ∀ (ps : List pointer) (c : tree_constructor),
      stSize (emplacePairs index c ps).1 ≤ stSize c + (ps.length + 1) / 2
  | [], c => by simp [emplacePairs, foreachPair]
  | [a], c => by
      have h := emplace_node_stSize 0 c index a pointer.null
      simp only [emplacePairs, foreachPair, List.length_cons, List.length_nil]
      omega
  | a :: b :: rest, c => by
      have h1 := emplace_node_stSize 0 c index a b
      have h2 := emplacePairs_stSize index rest (c.emplace_node index a b).1
      simp only [emplacePairs] at h2
      simp only [emplacePairs, foreachPair, List.length_cons]
      omega

theorem reduce_nodes_stSize (c : tree_constructor) (ps : List pointer) (index : Nat) :
    stSize (c.reduce_nodes ps index).1 ≤ stSize c + (ps.length + 1) / 2 := by
  rw [reduce_nodes_eq]
  by_cases hadd : c.tree_nodes.length + 1 - 2 < index
  · simp only [if_pos hadd]
    have h := emplacePairs_stSize index ps
      { c with tree_nodes := c.tree_nodes ++ [[]] }
    have heq : stSize { c with tree_nodes := c.tree_nodes ++ [([] : List node)] } =
        stSize c := by
      simp [stSize]
    omega
  · simp only [if_neg hadd]
    exact emplacePairs_stSize index ps c

theorem layer_le_stSize (c : tree_constructor) (j : Nat) :
    (c.tree_nodes.getD j []).length ≤ stSize c := by
  have h := getD_length_le_sum c.tree_nodes j
  simp only [stSize]
  omega

theorem reduceBulkGo_spec (L : Nat) (c : tree_constructor) (ps : List pointer)
    (index : Nat) :
    ∀ (ss : List (List dna)),
      storeInv L c.tree_nodes c.tree_leaves →
      1 ≤ index → index ≤ c.tree_nodes.length → ps ≠ [] →
      GoodChain L c.tree_nodes c.tree_leaves index ps ss →
      stSize c + 2 * ps.length + (c.tree_nodes.length - index) < 0x1fffffff →
      storeInv L (reduceBulkGo c ps index).1.tree_nodes
        (reduceBulkGo c ps index).1.tree_leaves ∧
      storeLe c.tree_nodes c.tree_leaves (reduceBulkGo c ps index).1.tree_nodes
        (reduceBulkGo c ps index).1.tree_leaves ∧
      (reduceBulkGo c ps index).1.tree_leaves = c.tree_leaves ∧
      (reduceBulkGo c ps index).1.roots = c.roots ∧
      index ≤ (reduceBulkGo c ps index).1.tree_nodes.length ∧
      stSize (reduceBulkGo c ps index).1 + 2 ≤
        stSize c + 2 * ps.length + (c.tree_nodes.length - index) ∧
      ∃ p sfin, (reduceBulkGo c ps index).2 = [p] ∧ p.isNull = false ∧
        GoodN L (reduceBulkGo c ps index).1.tree_nodes
          (reduceBulkGo c ps index).1.tree_leaves
          (reduceBulkGo c ps index).1.tree_nodes.length p sfin ∧
        sfin = ss.join := by
  induction c, ps, index using reduceBulkGo.induct with
  | case1 c ps index hguard ih =>
      intro ss hSI hil hiu hne hchain hbud
      have hn1 : 1 ≤ ps.length := by
        cases ps with
        | nil => exact absurd rfl hne
        | cons a l => simp
      have hroom : (c.tree_nodes.getD index []).length + (ps.length + 1) / 2 ≤
          0x1fffffff := by
        have := layer_le_stSize c index
        omega
      obtain ⟨hSI1, hle1, hlv1, hd1, hroots1, hframe1, hgrow1, ss1, hchain1, hjoin1⟩ :=
        reduce_nodes_spec L c ps ss index hSI hil hiu hchain hroom
      have hout := reduce_nodes_out_length c ps index
      have hdep := reduce_nodes_depth c ps index
      have hstep := reduce_nodes_stSize c ps index
      have hne1 : (c.reduce_nodes ps index).2 ≠ [] := by
        intro h
        rw [h] at hout
        simp at hout
        omega
      have hbud1 : stSize (c.reduce_nodes ps index).1 +
          2 * (c.reduce_nodes ps index).2.length +
          ((c.reduce_nodes ps index).1.tree_nodes.length - (index + 1)) <
          0x1fffffff := by
        rw [hout]
        rcases hdep with h | ⟨h, h2⟩ <;> rw [h] <;> omega
      obtain ⟨hSI2, hle2, hlv2, hroots2, hiu2, hsz2, p, sfin, hout2, hpn, hGp, hjoin2⟩ :=
        ih ss1 hSI1 (by omega) hd1 hne1 hchain1 hbud1
      rw [reduceBulkGo, if_pos hguard]
      refine ⟨hSI2, storeLe_trans hle1 hle2, by rw [hlv2, hlv1],
        by rw [hroots2, hroots1], by omega, ?_,
        p, sfin, hout2, hpn, hGp, by rw [hjoin2, hjoin1]⟩
      rw [hout] at hsz2
      rcases hdep with h | ⟨h, h2⟩ <;> rw [h] at hsz2 <;> omega
  | case2 c ps index hguard =>
      intro ss hSI hil hiu hne hchain hbud
      rw [reduceBulkGo, if_neg hguard]
      push_neg at hguard
      obtain ⟨hps, hidx⟩ := hguard
      have hidx2 : index = c.tree_nodes.length := by omega
      cases ps with
      | nil => exact absurd rfl hne
      | cons p rest =>
          cases rest with
          | cons q rest2 => simp at hps
          | nil =>
              cases ss with
              | nil => exact hchain.elim
              | cons s ss2 =>
                  obtain ⟨hGp, hpn, _, htail⟩ := hchain
                  cases ss2 with
                  | cons s2 ss3 => exact htail.elim
                  | nil =>
                      refine ⟨hSI, storeLe_refl _ _, rfl, rfl, hiu, by simp,
                        p, s, rfl, hpn, ?_, by simp⟩
                      rw [← hidx2]
                      exact hGp

theorem emplace_leaves2_spec (L : Nat) (c : tree_constructor) (a b : dna)
    (ha : a.wfv) (hb : b.wfv)
    (hSI : storeInv L c.tree_nodes c.tree_leaves)
    (h0 : 0 < c.tree_nodes.length)
    (hrooml : c.tree_leaves.length + 2 ≤ 0x1fffffff)
    (hroomn : (c.tree_nodes.getD 0 []).length < 0x1fffffff) :
    storeInv L (c.emplace_leaves2 L a b).1.tree_nodes
      (c.emplace_leaves2 L a b).1.tree_leaves ∧
    storeLe c.tree_nodes c.tree_leaves (c.emplace_leaves2 L a b).1.tree_nodes
      (c.emplace_leaves2 L a b).1.tree_leaves ∧
    (c.emplace_leaves2 L a b).1.roots = c.roots ∧
    (c.emplace_leaves2 L a b).1.tree_nodes.length = c.tree_nodes.length ∧
    stSize (c.emplace_leaves2 L a b).1 ≤ stSize c + 3 ∧
    GoodN L (c.emplace_leaves2 L a b).1.tree_nodes
      (c.emplace_leaves2 L a b).1.tree_leaves 1 (c.emplace_leaves2 L a b).2 [a, b] ∧
    (c.emplace_leaves2 L a b).2.isNull = false := by
  obtain ⟨hSI1, hle1, hnd1, hlv1, hroots1, hGa, hna⟩ :=
    emplace_leaf_spec L c a ha hSI (by omega)
  set c1 := (c.emplace_leaf L a).1 with hc1
  have hlv1' : c1.tree_leaves.length < 0x1fffffff := by omega
  obtain ⟨hSI2, hle2, hnd2, hlv2, hroots2, hGb, hnb⟩ :=
    emplace_leaf_spec L c1 b hb hSI1 hlv1'
  set c2 := (c1.emplace_leaf L b).1 with hc2
  have hGa2 : GoodN L c2.tree_nodes c2.tree_leaves 0 (c.emplace_leaf L a).2 [a] :=
    GoodN_mono L hle2 (storeInv_ptrWF hSI1) 0 _ _ hGa
  have h02 : 0 < c2.tree_nodes.length := by rw [hnd2, hnd1]; exact h0
  have hroomn2 : (c2.tree_nodes.getD 0 []).length < 0x1fffffff := by
    rw [hnd2, hnd1]; exact hroomn
  obtain ⟨hSI3, hle3, hlv3, hlen3, hroots3, hframe3, hgrow3, hGp, hnp⟩ :=
    emplace_node_spec L c2 0 (c.emplace_leaf L a).2 ((c1.emplace_leaf L b).2)
      [a] [b] hSI2 h02 hroomn2 hGa2 hna hGb
      (fun _ => rfl) (fun h => by rw [hnb] at h; cases h)
  have hres : c.emplace_leaves2 L a b =
      c2.emplace_node 0 (c.emplace_leaf L a).2 (c1.emplace_leaf L b).2 := rfl
  rw [hres]
  have hst1 := emplace_leaf_stSize L c a
  have hst2 := emplace_leaf_stSize L c1 b
  have hst3 := emplace_node_stSize L c2 0 (c.emplace_leaf L a).2 (c1.emplace_leaf L b).2
  rw [← hc1] at hst1
  rw [← hc2] at hst2
  refine ⟨hSI3, storeLe_trans hle1 (storeLe_trans hle2 hle3),
    by rw [hroots3, hroots2, hroots1],
    by rw [hlen3, hnd2, hnd1], by omega, hGp, hnp⟩

theorem emplace_leaves1_spec (L : Nat) (c : tree_constructor) (a : dna)
    (ha : a.wfv)
    (hSI : storeInv L c.tree_nodes c.tree_leaves)
    (h0 : 0 < c.tree_nodes.length)
    (hrooml : c.tree_leaves.length + 1 ≤ 0x1fffffff)
    (hroomn : (c.tree_nodes.getD 0 []).length < 0x1fffffff) :
    storeInv L (c.emplace_leaves1 L a).1.tree_nodes
      (c.emplace_leaves1 L a).1.tree_leaves ∧
    storeLe c.tree_nodes c.tree_leaves (c.emplace_leaves1 L a).1.tree_nodes
      (c.emplace_leaves1 L a).1.tree_leaves ∧
    (c.emplace_leaves1 L a).1.roots = c.roots ∧
    (c.emplace_leaves1 L a).1.tree_nodes.length = c.tree_nodes.length ∧
    stSize (c.emplace_leaves1 L a).1 ≤ stSize c + 2 ∧
    GoodN L (c.emplace_leaves1 L a).1.tree_nodes
      (c.emplace_leaves1 L a).1.tree_leaves 1 (c.emplace_leaves1 L a).2 [a] ∧
    (c.emplace_leaves1 L a).2.isNull = false := by
  obtain ⟨hSI1, hle1, hnd1, hlv1, hroots1, hGa, hna⟩ :=
    emplace_leaf_spec L c a ha hSI (by omega)
  set c1 := (c.emplace_leaf L a).1 with hc1
  have h01 : 0 < c1.tree_nodes.length := by rw [hnd1]; exact h0
  have hroomn1 : (c1.tree_nodes.getD 0 []).length < 0x1fffffff := by
    rw [hnd1]; exact hroomn
  obtain ⟨hSI3, hle3, hlv3, hlen3, hroots3, hframe3, hgrow3, hGp, hnp⟩ :=
    emplace_node_spec L c1 0 (c.emplace_leaf L a).2 pointer.null
      [a] [] hSI1 h01 hroomn1 hGa hna
      (GoodN_null L c1.tree_nodes c1.tree_leaves 0)
      (fun h => by rw [null_isNull] at h; cases h) (fun _ => rfl)
  have hres : c.emplace_leaves1 L a =
      c1.emplace_node 0 (c.emplace_leaf L a).2 pointer.null := rfl
  rw [hres]
  have hst1 := emplace_leaf_stSize L c a
  have hst3 := emplace_node_stSize L c1 0 (c.emplace_leaf L a).2 pointer.null
  rw [← hc1] at hst1
  have hGp' : GoodN L (c1.emplace_node 0 (c.emplace_leaf L a).2 pointer.null).1.tree_nodes
      (c1.emplace_node 0 (c.emplace_leaf L a).2 pointer.null).1.tree_leaves 1
      (c1.emplace_node 0 (c.emplace_leaf L a).2 pointer.null).2 [a] := by
    have h : [a] ++ ([] : List dna) = [a] := by simp
    rw [← h]
    exact hGp
  refine ⟨hSI3, storeLe_trans hle1 hle3, by rw [hroots3, hroots1],
    by rw [hlen3, hnd1], by omega, hGp', hnp⟩

/-- The emplace_leaves pass of reduce_leaves, after the layer bookkeeping. -/
def leafPairs (L : Nat) (c : tree_constructor) (seg : List dna) :
    tree_constructor × List pointer :=
  foreachPair (fun s a b => tree_constructor.emplace_leaves2 L s a b)
    (fun s a => tree_constructor.emplace_leaves1 L s a) c seg

theorem reduce_leaves_eq (L : Nat) (c : tree_constructor) (seg : List dna) :
    c.reduce_leaves L seg =
      leafPairs L (if c.tree_nodes.length + 1 = 1
        then { c with tree_nodes := c.tree_nodes ++ [[]] } else c) seg := rfl

theorem leafPairs_spec (L : Nat) :
    ∀ (seg : List dna) (c : tree_constructor),
      storeInv L c.tree_nodes c.tree_leaves →
      0 < c.tree_nodes.length →
      (∀ x ∈ seg, x.wfv) →
      2 * stSize c + 3 * seg.length + 1 ≤ 2 * 0x1fffffff →
      storeInv L (leafPairs L c seg).1.tree_nodes (leafPairs L c seg).1.tree_leaves ∧
      storeLe c.tree_nodes c.tree_leaves (leafPairs L c seg).1.tree_nodes
        (leafPairs L c seg).1.tree_leaves ∧
      (leafPairs L c seg).1.roots = c.roots ∧
      (leafPairs L c seg).1.tree_nodes.length = c.tree_nodes.length ∧
      stSize (leafPairs L c seg).1 ≤ stSize c + 2 * seg.length ∧
      ∃ ss', GoodChain L (leafPairs L c seg).1.tree_nodes
          (leafPairs L c seg).1.tree_leaves 1 (leafPairs L c seg).2 ss' ∧
        ss'.join = seg
  | [], c => by
      intro hSI h0 hwf hbud
      exact ⟨hSI, storeLe_refl _ _, rfl, rfl, by simp [leafPairs, foreachPair], [], trivial, rfl⟩
  | [a], c => by
      intro hSI h0 hwf hbud
      have hl := layer_le_stSize c 0
      have hlv : c.tree_leaves.length ≤ stSize c := by
        simp only [stSize]; omega
      obtain ⟨hSI1, hle1, hroots1, hlen1, hst1, hGp, hnp⟩ :=
        emplace_leaves1_spec L c a (hwf a (by simp)) hSI h0
          (by simp only [List.length_cons, List.length_nil] at hbud; omega)
          (by simp only [List.length_cons, List.length_nil] at hbud; omega)
      have hres : leafPairs L c [a] =
          ((c.emplace_leaves1 L a).1, [(c.emplace_leaves1 L a).2]) := rfl
      rw [hres]
      exact ⟨hSI1, hle1, hroots1, hlen1, by simp only [List.length_cons]; omega,
        [[a]], ⟨hGp, hnp, Or.inl rfl, trivial⟩, by simp⟩
  | a :: b :: rest, c => by
      intro hSI h0 hwf hbud
      have hl := layer_le_stSize c 0
      have hlv : c.tree_leaves.length ≤ stSize c := by
        simp only [stSize]; omega
      simp only [List.length_cons] at hbud
      obtain ⟨hSI1, hle1, hroots1, hlen1, hst1, hGp, hnp⟩ :=
        emplace_leaves2_spec L c a b (hwf a (by simp)) (hwf b (by simp)) hSI h0
          (by omega) (by omega)
      set c1 := (c.emplace_leaves2 L a b).1 with hc1
      have hbud1 : 2 * stSize c1 + 3 * rest.length + 1 ≤ 2 * 0x1fffffff := by
        omega
      have hwf1 : ∀ x ∈ rest, x.wfv := fun x hx => hwf x (by simp [hx])
      have h01 : 0 < c1.tree_nodes.length := by rw [hlen1]; exact h0
      obtain ⟨hSI2, hle2, hroots2, hlen2, hst2, ssr, hchainr, hjoinr⟩ :=
        leafPairs_spec L rest c1 hSI1 h01 hwf1 hbud1
      have hres : leafPairs L c (a :: b :: rest) =
          ((leafPairs L c1 rest).1,
           (c.emplace_leaves2 L a b).2 :: (leafPairs L c1 rest).2) := rfl
      rw [hres]
      refine ⟨hSI2, storeLe_trans hle1 hle2, by rw [hroots2, hroots1],
        by rw [hlen2, hlen1], by simp only [List.length_cons]; omega,
        [a, b] :: ssr, ?_, ?_⟩
      · refine ⟨GoodN_mono L hle2 (storeInv_ptrWF hSI1) 1 _ _ hGp, hnp, ?_, hchainr⟩
        exact Or.inr (by simp)
      · have h := hjoinr
        simp only [List.join] at h ⊢
        simp [h]

theorem reduce_leaves_spec (L : Nat) (c : tree_constructor) (seg : List dna)
    (hSI : storeInv L c.tree_nodes c.tree_leaves)
    (hwf : ∀ x ∈ seg, x.wfv)
    (hbud : 2 * stSize c + 3 * seg.length + 1 ≤ 2 * 0x1fffffff) :
    storeInv L (c.reduce_leaves L seg).1.tree_nodes
      (c.reduce_leaves L seg).1.tree_leaves ∧
    storeLe c.tree_nodes c.tree_leaves (c.reduce_leaves L seg).1.tree_nodes
      (c.reduce_leaves L seg).1.tree_leaves ∧
    (c.reduce_leaves L seg).1.roots = c.roots ∧
    (c.reduce_leaves L seg).1.tree_nodes.length = max c.tree_nodes.length 1 ∧
    stSize (c.reduce_leaves L seg).1 ≤ stSize c + 2 * seg.length ∧
    (c.reduce_leaves L seg).2.length = (seg.length + 1) / 2 ∧
    ∃ ss', GoodChain L (c.reduce_leaves L seg).1.tree_nodes
        (c.reduce_leaves L seg).1.tree_leaves 1 (c.reduce_leaves L seg).2 ss' ∧
      ss'.join = seg := by
  have hout : (c.reduce_leaves L seg).2.length = (seg.length + 1) / 2 := by
    rw [reduce_leaves_eq]
    exact foreachPair_length _ _ seg _
  rw [reduce_leaves_eq]
  by_cases hadd : c.tree_nodes.length + 1 = 1
  · simp only [if_pos hadd]
    have hlen0 : c.tree_nodes.length = 0 := by omega
    set c0 : tree_constructor :=
      { c with tree_nodes := c.tree_nodes ++ [[]] } with hc0
    have hSI0 : storeInv L c0.tree_nodes c0.tree_leaves := add_layer_storeInv L hSI
    have hle0 : storeLe c.tree_nodes c.tree_leaves c0.tree_nodes c0.tree_leaves :=
      add_layer_storeLe _ _
    have h00 : 0 < c0.tree_nodes.length := by
      show 0 < (c.tree_nodes ++ [[]]).length
      simp
    have hst0 : stSize c0 = stSize c := by simp [stSize]
    obtain ⟨hSI1, hle1, hroots1, hlen1, hst1, hss⟩ :=
      leafPairs_spec L seg c0 hSI0 h00 hwf (by omega)
    refine ⟨hSI1, storeLe_trans hle0 hle1, hroots1, ?_, by omega, ?_, hss⟩
    · rw [hlen1]
      show (c.tree_nodes ++ [[]]).length = _
      simp [hlen0]
    · rw [reduce_leaves_eq] at hout
      rw [if_pos hadd] at hout
      exact hout
  · simp only [if_neg hadd]
    have h0 : 0 < c.tree_nodes.length := by omega
    obtain ⟨hSI1, hle1, hroots1, hlen1, hst1, hss⟩ :=
      leafPairs_spec L seg c hSI h0 hwf hbud
    refine ⟨hSI1, hle1, hroots1, by omega, hst1, ?_, hss⟩
    rw [reduce_leaves_eq] at hout
    rw [if_neg hadd] at hout
    exact hout

theorem reduceBulkGo_depth (c : tree_constructor) (ps : List pointer) (index : Nat) :
    ∀ m : Nat, ps.length ≤ 2 ^ m →
      (reduceBulkGo c ps index).1.tree_nodes.length ≤
        max c.tree_nodes.length (index + m) := by
  induction c, ps, index using reduceBulkGo.induct with
  | case1 c ps index hguard ih =>
      intro m hm
      have hout := reduce_nodes_out_length c ps index
      have hdep := reduce_nodes_depth c ps index
      rw [reduceBulkGo, if_pos hguard]
      by_cases hn : 2 ≤ ps.length
      · have hm1 : 1 ≤ m := by
          by_contra h
          have : m = 0 := by omega
          rw [this] at hm
          simp at hm
          omega
        have hpow : 2 ^ m = 2 * 2 ^ (m - 1) := by
          cases m with
          | zero => exact absurd hm1 (by omega)
          | succ k =>
              simp only [Nat.succ_sub_one, pow_succ]
              ring
        have hsz : (c.reduce_nodes ps index).2.length ≤ 2 ^ (m - 1) := by
          rw [hout]
          omega
        have := ih (m - 1) hsz
        rcases hdep with h | ⟨h, h2⟩ <;> rw [h] at this <;>
          simp only [Nat.max_def] at this ⊢ <;> split at this <;> split <;> omega
      · have hidx : index < c.tree_nodes.length := by
          rcases hguard with h | h
          · omega
          · exact h
        have hsz : (c.reduce_nodes ps index).2.length ≤ 2 ^ 0 := by
          rw [hout]
          simp
          omega
        have hnoadd : (c.reduce_nodes ps index).1.tree_nodes.length =
            c.tree_nodes.length := by
          rcases hdep with h | ⟨h, h2⟩
          · exact h
          · omega
        have := ih 0 hsz
        rw [hnoadd] at this
        simp only [Nat.max_def] at this ⊢
        split at this <;> split <;> omega
  | case2 c ps index hguard =>
      intro m hm
      rw [reduceBulkGo, if_neg hguard]
      exact le_max_left _ _

theorem chunksList_small {α : Type} (n : Nat) (l : List α) (hne : l ≠ [])
    (hlen : l.length ≤ n) : chunksList n l = [l] := by
  cases l with
  | nil => exact absurd rfl hne
  | cons a rest =>
      rw [chunksList]
      simp only [List.length_cons] at hlen
      rw [List.take_of_length_le (by omega), List.drop_eq_nil_of_le (by omega)]
      rw [chunksList]

theorem reduce_segment_spec (L : Nat) (c : tree_constructor) (seg : List dna)
    (hne : seg ≠ [])
    (hSI : storeInv L c.tree_nodes c.tree_leaves)
    (hwf : ∀ x ∈ seg, x.wfv)
    (hbud : stSize c + 3 * seg.length + c.tree_nodes.length + 2 ≤ 0x1fffffff) :
    storeInv L (c.reduce_segment L seg).tree_nodes
      (c.reduce_segment L seg).tree_leaves ∧
    storeLe c.tree_nodes c.tree_leaves (c.reduce_segment L seg).tree_nodes
      (c.reduce_segment L seg).tree_leaves ∧
    1 ≤ (c.reduce_segment L seg).tree_nodes.length ∧
    stSize (c.reduce_segment L seg) ≤ stSize c + 3 * seg.length + c.tree_nodes.length ∧
    (∀ m : Nat, (seg.length + 1) / 2 ≤ 2 ^ m →
      (c.reduce_segment L seg).tree_nodes.length ≤
        max (max c.tree_nodes.length 1) (1 + m)) ∧
    ∃ root, (c.reduce_segment L seg).roots = c.roots ++ [root] ∧
      root.isNull = false ∧
      GoodN L (c.reduce_segment L seg).tree_nodes (c.reduce_segment L seg).tree_leaves
        (c.reduce_segment L seg).tree_nodes.length root seg := by
  have hn1 : 1 ≤ seg.length := by
    cases seg with
    | nil => exact absurd rfl hne
    | cons a l => simp
  obtain ⟨hSI1, hle1, hroots1, hlen1, hst1, houtlen, ss1, hchain1, hjoin1⟩ :=
    reduce_leaves_spec L c seg hSI hwf (by omega)
  set r1 := c.reduce_leaves L seg with hr1
  have hpne : r1.2 ≠ [] := by
    intro h
    rw [h] at houtlen
    simp at houtlen
    omega
  have hbud2 : stSize r1.1 + 2 * r1.2.length + (r1.1.tree_nodes.length - 1) <
      0x1fffffff := by
    rw [houtlen]
    simp only [Nat.max_def] at hlen1
    split at hlen1 <;> omega
  obtain ⟨hSI2, hle2, hlv2, hroots2, hiu2, hst2, p, sfin, hout2, hpn, hGp, hjoin2⟩ :=
    reduceBulkGo_spec L r1.1 r1.2 1 ss1 hSI1 (le_refl 1) (by omega) hpne hchain1 hbud2
  set r2 := reduceBulkGo r1.1 r1.2 1 with hr2
  have hres : c.reduce_segment L seg =
      { r2.1 with roots := r2.1.roots ++ [r2.2.headD pointer.null] } := rfl
  have hhead : r2.2.headD pointer.null = p := by rw [hout2]; rfl
  rw [hres, hhead]
  have hsfin : sfin = seg := by rw [hjoin2, hjoin1]
  refine ⟨hSI2, storeLe_trans hle1 hle2,
    by show 1 ≤ r2.1.tree_nodes.length; omega, ?_, ?_, p,
    by show r2.1.roots ++ [p] = c.roots ++ [p]; rw [hroots2, hroots1], hpn, ?_⟩
  · show stSize r2.1 ≤ _
    simp only [Nat.max_def] at hlen1
    split at hlen1 <;> omega
  · intro m hm
    have hd := reduceBulkGo_depth r1.1 r1.2 1 m (by rw [houtlen]; exact hm)
    rw [← hr2] at hd
    show r2.1.tree_nodes.length ≤ _
    rw [hlen1] at hd
    exact le_trans hd (le_refl _)
  · rw [← hsfin]
    exact hGp

theorem reduce_roots_single (c : tree_constructor) (root : pointer)
    (hroots : c.roots = [root]) :
    c.reduce_roots = (c, root) := by
  simp only [tree_constructor.reduce_roots, hroots]
  rw [reduceRootsGo, if_neg (by simp)]
  rfl

theorem build_good (L : Nat) (data : List dna) (hne : data ≠ [])
    (hlen : data.length ≤ 2 ^ 25) (hwf : ∀ x ∈ data, x.wfv) :
    storeInv L (shared_tree.build L data).nodes (shared_tree.build L data).leaves ∧
    (shared_tree.build L data).root.isNull = false ∧
    1 ≤ (shared_tree.build L data).nodes.length ∧
    (shared_tree.build L data).nodes.length ≤ 25 ∧
    GoodN L (shared_tree.build L data).nodes (shared_tree.build L data).leaves
      (shared_tree.build L data).nodes.length (shared_tree.build L data).root data := by
  have hchunks : chunksList (2 ^ 25) data = [data] := chunksList_small _ _ hne hlen
  set c0 : tree_constructor := tree_constructor.mk [] [] [] with hc0
  have hSI0 : storeInv L c0.tree_nodes c0.tree_leaves := by
    refine ⟨fun x hx => absurd hx (by simp [hc0]), by simp [hc0], ?_, ?_, ?_⟩
    · intro k
      show (List.getD [] k []).length ≤ _
      rw [List.getD_eq_default _ _ (by simp)]
      simp
    · intro k nd hm
      rw [show (List.getD ([] : List (List node)) k []) = [] from
        List.getD_eq_default _ _ (by simp)] at hm
      exact absurd hm (by simp)
    · intro k nd hm
      rw [show (List.getD ([] : List (List node)) k []) = [] from
        List.getD_eq_default _ _ (by simp)] at hm
      exact absurd hm (by simp)
  have hbud : stSize c0 + 3 * data.length + c0.tree_nodes.length + 2 ≤ 0x1fffffff := by
    have h0 : stSize c0 = 0 := by simp [stSize, hc0]
    have h1 : c0.tree_nodes.length = 0 := by simp [hc0]
    omega
  obtain ⟨hSI1, hle1, hd1, hst1, hdep1, root, hroots1, hrn, hGr⟩ :=
    reduce_segment_spec L c0 data hne hSI0 hwf hbud
  set c1 := c0.reduce_segment L data with hc1
  have hfold : (chunksList (2 ^ 25) data).foldl
      (fun s seg => s.reduce_segment L seg) c0 = c1 := by
    rw [hchunks]
    rfl
  have hroots1' : c1.roots = [root] := by
    rw [hroots1]
    simp [hc0]
  have hred : c0.reduce L data = (c1, root) := by
    simp only [tree_constructor.reduce, hfold]
    exact reduce_roots_single c1 root hroots1'
  have hbuild : shared_tree.build L data =
      ⟨root, c1.tree_nodes, c1.tree_leaves⟩ := by
    simp only [shared_tree.build]
    rw [show (tree_constructor.mk [] [] []) = c0 from rfl, hred]
  rw [hbuild]
  have hdep : c1.tree_nodes.length ≤ 25 := by
    have h24 : (data.length + 1) / 2 ≤ 2 ^ 24 := by
      have : data.length ≤ 2 ^ 25 := hlen
      omega
    have h := hdep1 24 h24
    have hc0len : c0.tree_nodes.length = 0 := by simp [hc0]
    rw [hc0len] at h
    simp at h
    exact h
  exact ⟨hSI1, hrn, hd1, hdep, hGr⟩

theorem getD_append_ge {α : Type} (l r : List α) (d : α) (i : Nat)
    (h : l.length ≤ i) :
    (l ++ r).getD i d = r.getD (i - l.length) d := by
  simp only [List.getD]
  rw [List.get?_append_right h]

theorem GoodN_children (L : Nat) {nodes : List (List node)} {leaves : List dna}
    (hSI : storeInv L nodes leaves) (k : Nat) (p : pointer) (s : List dna)
    (hG : GoodN L nodes leaves (k + 1) p s) (hnn : p.isNull = false) :
    GoodN L nodes leaves k (logicalL nodes k p)
      (denoteAt L nodes leaves k (logicalL nodes k p)) ∧
    GoodN L nodes leaves k (logicalR nodes k p)
      (denoteAt L nodes leaves k (logicalR nodes k p)) ∧
    s = denoteAt L nodes leaves k (logicalL nodes k p) ++
        denoteAt L nodes leaves k (logicalR nodes k p) ∧
    (logicalL nodes k p).isNull = false ∧
    ((logicalR nodes k p).isNull = true ∨
      (denoteAt L nodes leaves k (logicalL nodes k p)).length = 2 ^ k) := by
  obtain ⟨hpWF, hwf, htr, hlc, hden⟩ := hG
  rcases hwf with hwf | ⟨hk, hidx, hwl, hwr⟩
  · rw [hnn] at hwf; cases hwf
  have hmem := access_mem nodes k p hidx
  obtain ⟨hpl, hpr, hwL, hwR, htL, htR⟩ := hSI.2.2.2.1 k _ hmem
  obtain ⟨hLn, hlcL, hRor⟩ := hlc hnn
  have hfalt : pWF (if p.mirror then (access_node nodes k p).right
      else (access_node nodes k p).left) := by
    cases p.mirror <;> simp only [if_true, if_false, Bool.false_eq_true] <;>
      first | exact hpl | exact hpr
  have hsalt : pWF (if p.mirror then (access_node nodes k p).left
      else (access_node nodes k p).right) := by
    cases p.mirror <;> simp only [if_true, if_false, Bool.false_eq_true] <;>
      first | exact hpl | exact hpr
  have hwfalt : wfAt nodes leaves k (if p.mirror then (access_node nodes k p).right
      else (access_node nodes k p).left) := by
    cases p.mirror <;> simp only [if_true, if_false, Bool.false_eq_true] <;>
      first | exact hwl | exact hwr
  have hwsalt : wfAt nodes leaves k (if p.mirror then (access_node nodes k p).left
      else (access_node nodes k p).right) := by
    cases p.mirror <;> simp only [if_true, if_false, Bool.false_eq_true] <;>
      first | exact hwl | exact hwr
  have htfalt : truthfulAt L nodes leaves k
      (if p.mirror then (access_node nodes k p).right
        else (access_node nodes k p).left) := by
    cases p.mirror <;> simp only [if_true, if_false, Bool.false_eq_true] <;>
      first | exact htL | exact htR
  have htsalt : truthfulAt L nodes leaves k
      (if p.mirror then (access_node nodes k p).left
        else (access_node nodes k p).right) := by
    cases p.mirror <;> simp only [if_true, if_false, Bool.false_eq_true] <;>
      first | exact htL | exact htR
  have hsplit := denote_split L nodes leaves hSI.1 k p hnn hpl hpr htL htR
  have hlcR : lcAt L nodes leaves k (logicalR nodes k p) := by
    rcases hRor with h | ⟨h, _⟩
    · exact lcAt_null L nodes leaves k _ h
    · exact h
  refine ⟨⟨pWF_transform _ _ _ hfalt, (wfAt_transform _ _ _ _ _ _ hfalt).mpr hwfalt,
      truthfulAt_transform L _ _ _ _ _ _ hfalt hSI.1 htfalt, hlcL, rfl⟩,
    ⟨pWF_transform _ _ _ hsalt, (wfAt_transform _ _ _ _ _ _ hsalt).mpr hwsalt,
      truthfulAt_transform L _ _ _ _ _ _ hsalt hSI.1 htsalt, hlcR, rfl⟩,
    by rw [← hden]; exact hsplit, hLn, ?_⟩
  rcases hRor with h | ⟨_, h⟩
  · exact Or.inl h
  · exact Or.inr h

theorem indexGo_correct (L : Nat) {nodes : List (List node)} {leaves : List dna}
    (hSI : storeInv L nodes leaves) :
    ∀ (lev : Nat) (p : pointer) (s : List dna) (i : Nat),
      lev ≤ 32 →
      GoodN L nodes leaves lev p s → i < s.length →
      access_leaf L leaves (indexGo L nodes lev p i).1 = s.getD i default
  | 0, p, s, i => by
      intro hlev hG hi
      have hnn : p.isNull = false := by
        cases hn : p.isNull
        · rfl
        · rw [← hG.2.2.2.2, denoteAt_null _ _ _ _ _ hn] at hi
          simp at hi
      have hs : s = [access_leaf L leaves p] := by
        rw [← hG.2.2.2.2, denoteAt, if_neg (by rw [hnn]; simp)]
      rw [indexGo]
      rw [hs] at hi
      simp only [List.length_cons, List.length_nil] at hi
      have hi0 : i = 0 := by omega
      rw [hi0, hs]
      rfl
  | m + 1, p, s, i => by
      intro hlev hG hi
      have hnn : p.isNull = false := by
        cases hn : p.isNull
        · rfl
        · rw [← hG.2.2.2.2, denoteAt_null _ _ _ _ _ hn] at hi
          simp at hi
      obtain ⟨hGL, hGR, hs, hLn, hfull⟩ := GoodN_children L hSI m p s hG hnn
      have hsize : 2 ^ m % 2 ^ 32 = 2 ^ m :=
        Nat.mod_eq_of_lt (Nat.pow_lt_pow_right (by omega) (by omega))
      have hstep : indexGo L nodes (m + 1) p i =
          if i < 2 ^ m % 2 ^ 32 then
            indexGo L nodes m (logicalL nodes m p) i
          else
            indexGo L nodes m (logicalR nodes m p) (i - 2 ^ m % 2 ^ 32) := rfl
      rw [hstep, hsize]
      have hlenL := denoteAt_length_le L nodes leaves m (logicalL nodes m p)
      by_cases hcmp : i < 2 ^ m
      · rw [if_pos hcmp]
        have hiL : i < (denoteAt L nodes leaves m (logicalL nodes m p)).length := by
          rcases hfull with h | h
          · rw [hs, denoteAt_null _ _ _ _ _ h, List.append_nil] at hi
            exact hi
          · omega
        have := indexGo_correct L hSI m (logicalL nodes m p) _ i (by omega) hGL hiL
        rw [this, hs, getD_append_lt _ _ _ _ hiL]
      · rw [if_neg hcmp]
        have hRn : (logicalR nodes m p).isNull = false := by
          cases hn : (logicalR nodes m p).isNull
          · rfl
          · rw [hs, denoteAt_null _ _ _ _ _ hn, List.append_nil] at hi
            omega
        have hfl : (denoteAt L nodes leaves m (logicalL nodes m p)).length = 2 ^ m := by
          rcases hfull with h | h
          · rw [h] at hRn; cases hRn
          · exact h
        have hiR : i - 2 ^ m <
            (denoteAt L nodes leaves m (logicalR nodes m p)).length := by
          rw [hs, List.length_append, hfl] at hi
          omega
        have := indexGo_correct L hSI m (logicalR nodes m p) _ (i - 2 ^ m)
          (by omega) hGR hiR
        rw [this, hs, getD_append_ge _ _ _ _ (by omega)]
        rw [hfl]

/-- C1: Random access fidelity: for an input strand sequence S (wellformed
64-bit words, at most one 2^25-strand segment) and every index i < |S|,
operator[] on the tree built from S returns S[i]; the embedded descent
(indexGo) treats the node as (right, left) before the left/right split
whenever the current pointer is mirrored, including the mirror/transpose
application at the leaf layer (access_leaf). -/
theorem C1_random_access (L : Nat) (data : List dna) (i : Nat)
    (hlen : data.length ≤ 2 ^ 25) (hwf : ∀ x ∈ data, x.wfv)
    (hi : i < data.length) :
    shared_tree.get L (shared_tree.build L data) i = data.getD i default := by
  have hne : data ≠ [] := by
    intro h
    rw [h] at hi
    simp at hi
  obtain ⟨hSI, hrn, hd1, hd25, hGr⟩ := build_good L data hne hlen hwf
  exact indexGo_correct L hSI (shared_tree.build L data).nodes.length
    (shared_tree.build L data).root data i (by omega) hGr hi

theorem C1_random_access_witness :
    (∀ x ∈ [dna.mk 1, dna.mk 2, dna.mk 3], x.wfv) ∧
    shared_tree.get 2 (shared_tree.build 2 [dna.mk 1, dna.mk 2, dna.mk 3]) 2 =
      [dna.mk 1, dna.mk 2, dna.mk 3].getD 2 default :=
  ⟨by decide, C1_random_access 2 [dna.mk 1, dna.mk 2, dna.mk 3] 2 (by decide)
    (by decide) (by decide)⟩

/-- C3: Canonical-form storage invariant: in every tree the constructor
produces, every node stored in any layer equals its own canonical form (the
variant-minimal node computed by node.canonical); insertions into the
per-layer dedup store are keyed by the canonical node. -/
theorem C3_canonical_storage (L : Nat) (data : List dna) (hne : data ≠ [])
    (hlen : data.length ≤ 2 ^ 25) (hwf : ∀ x ∈ data, x.wfv) :
    ∀ k : Nat, ∀ nd ∈ (shared_tree.build L data).nodes.getD k [],
      (node.canonical nd).1 = nd :=
  fun k nd hm => (build_good L data hne hlen hwf).1.2.2.2.2 k nd hm

theorem build2_eq : shared_tree.build 2 [dna.mk 1, dna.mk 2] =
    ⟨pointer.mk 0 false false false,
     [[node.mk (pointer.mk 0 false false false) (pointer.mk 1 false false false)]],
     [dna.mk 1, dna.mk 2]⟩ := by
  have hch : chunksList (2 ^ 25) [dna.mk 1, dna.mk 2] = [[dna.mk 1, dna.mk 2]] :=
    chunksList_small _ _ (by decide) (by decide)
  have hRL : tree_constructor.reduce_leaves 2 (tree_constructor.mk [] [] [])
      [dna.mk 1, dna.mk 2] =
      (tree_constructor.mk
        [[node.mk (pointer.mk 0 false false false) (pointer.mk 1 false false false)]]
        [dna.mk 1, dna.mk 2] [],
       [pointer.mk 0 false false false]) := rfl
  have hB : reduceBulkGo
      (tree_constructor.mk
        [[node.mk (pointer.mk 0 false false false) (pointer.mk 1 false false false)]]
        [dna.mk 1, dna.mk 2] [])
      [pointer.mk 0 false false false] 1 =
      (tree_constructor.mk
        [[node.mk (pointer.mk 0 false false false) (pointer.mk 1 false false false)]]
        [dna.mk 1, dna.mk 2] [],
       [pointer.mk 0 false false false]) := by
    rw [reduceBulkGo]
    rw [if_neg (by decide)]
  have hseg : (tree_constructor.mk [] [] []).reduce_segment 2 [dna.mk 1, dna.mk 2] =
      tree_constructor.mk
        [[node.mk (pointer.mk 0 false false false) (pointer.mk 1 false false false)]]
        [dna.mk 1, dna.mk 2] [pointer.mk 0 false false false] := by
    simp only [tree_constructor.reduce_segment, hRL, hB]
    rfl
  have hRR : reduceRootsGo
      (tree_constructor.mk
        [[node.mk (pointer.mk 0 false false false) (pointer.mk 1 false false false)]]
        [dna.mk 1, dna.mk 2] [pointer.mk 0 false false false])
      (tree_constructor.mk
        [[node.mk (pointer.mk 0 false false false) (pointer.mk 1 false false false)]]
        [dna.mk 1, dna.mk 2] [pointer.mk 0 false false false]).roots
      (tree_constructor.mk
        [[node.mk (pointer.mk 0 false false false) (pointer.mk 1 false false false)]]
        [dna.mk 1, dna.mk 2] [pointer.mk 0 false false false]).tree_nodes.length =
      (tree_constructor.mk
        [[node.mk (pointer.mk 0 false false false) (pointer.mk 1 false false false)]]
        [dna.mk 1, dna.mk 2] [pointer.mk 0 false false false],
       [pointer.mk 0 false false false]) := by
    rw [reduceRootsGo]
    rw [if_neg (by decide)]
  simp only [shared_tree.build, tree_constructor.reduce, hch, List.foldl_cons,
    List.foldl_nil, hseg, tree_constructor.reduce_roots, hRR]
  rfl

theorem C3_canonical_storage_witness :
    (node.canonical
        (((shared_tree.build 2 [dna.mk 1, dna.mk 2]).nodes.getD 0 []).getD 0
          default)).1 =
      ((shared_tree.build 2 [dna.mk 1, dna.mk 2]).nodes.getD 0 []).getD 0 default :=
  C3_canonical_storage 2 [dna.mk 1, dna.mk 2] (by decide) (by decide) (by decide) 0 _
    (by rw [build2_eq]; decide)

/-- The level denoted by a stack entry's layer field: the leaf marker is
level 0, node layer k is level k+1. -/
def levOf : Option Nat → Nat
  | none => 0
  | some k => k + 1

theorem levOf_sizeTPred (k : Nat) : levOf (sizeTPred k) = k := by
  cases k with
  | zero => rfl
  | succ j => rfl

/-- The strand sequence denoted by one stack entry. -/
def entryDen (L : Nat) (t : shared_tree) (e : iterEntry) : List dna :=
  denoteAt L t.nodes t.leaves (levOf e.layer) e.current

/-- The strand sequence denoted by the whole stack, top first. -/
def stackDen (L : Nat) (t : shared_tree) (s : List iterEntry) : List dna :=
  (s.map (entryDen L t)).join

theorem stackDen_nil (L : Nat) (t : shared_tree) : stackDen L t [] = [] := rfl

theorem stackDen_cons (L : Nat) (t : shared_tree) (e : iterEntry)
    (rest : List iterEntry) :
    stackDen L t (e :: rest) = entryDen L t e ++ stackDen L t rest := by
  simp [stackDen]

theorem stackDen_append (L : Nat) (t : shared_tree) (a b : List iterEntry) :
    stackDen L t (a ++ b) = stackDen L t a ++ stackDen L t b := by
  simp [stackDen]

/-- Every entry on the stack is wellformed, truthful, left-complete and
non-null at its own level. -/
def OKStack (L : Nat) (t : shared_tree) (s : List iterEntry) : Prop :=
  ∀ e ∈ s, GoodN L t.nodes t.leaves (levOf e.layer) e.current (entryDen L t e) ∧
    e.current.isNull = false


/-- The entries pushed by one next_leaf expansion step, written through the
logical children: the logical left child ends up on top. -/
def pushList (t : shared_tree) (k : Nat) (cur : pointer) : List iterEntry :=
  (if (logicalL t.nodes k cur).isNull then []
    else [⟨sizeTPred k, logicalL t.nodes k cur⟩]) ++
  (if (logicalR t.nodes k cur).isNull then []
    else [⟨sizeTPred k, logicalR t.nodes k cur⟩])

theorem push_eq (t : shared_tree) (k : Nat) (cur : pointer)
    (hpl : pWF (access_node t.nodes k cur).left)
    (hpr : pWF (access_node t.nodes k cur).right) :
    ((if cur.mirror then
        (if (access_node t.nodes k cur).right.isNull then []
         else [⟨sizeTPred k,
                pointer.transform (access_node t.nodes k cur).right
                  cur.mirror cur.transpose⟩]) ++
        (if (access_node t.nodes k cur).left.isNull then []
         else [⟨sizeTPred k,
                pointer.transform (access_node t.nodes k cur).left
                  cur.mirror cur.transpose⟩])
      else
        (if (access_node t.nodes k cur).left.isNull then []
         else [⟨sizeTPred k,
                pointer.transform (access_node t.nodes k cur).left
                  cur.mirror cur.transpose⟩]) ++
        (if (access_node t.nodes k cur).right.isNull then []
         else [⟨sizeTPred k,
                pointer.transform (access_node t.nodes k cur).right
                  cur.mirror cur.transpose⟩])) : List iterEntry) =
      pushList t k cur := by
  cases hm : cur.mirror
  · simp only [Bool.false_eq_true, if_false, pushList, logicalL, logicalR, hm]
    rw [isNull_transform _ _ _ hpl, isNull_transform _ _ _ hpr]
  · simp only [if_true, pushList, logicalL, logicalR, hm]
    rw [isNull_transform _ _ _ hpl, isNull_transform _ _ _ hpr]

theorem pushList_den (L : Nat) (t : shared_tree)
    (hSI : storeInv L t.nodes t.leaves) (k : Nat) (cur : pointer)
    (hGe : GoodN L t.nodes t.leaves (k + 1) cur
      (denoteAt L t.nodes t.leaves (k + 1) cur))
    (hne : cur.isNull = false) :
    stackDen L t (pushList t k cur) = denoteAt L t.nodes t.leaves (k + 1) cur ∧
    OKStack L t (pushList t k cur) := by
  obtain ⟨hGL, hGR, hs, hLn, hfull⟩ :=
    GoodN_children L hSI k cur (denoteAt L t.nodes t.leaves (k + 1) cur) hGe hne
  constructor
  · rw [pushList, stackDen_append, hs]
    congr 1
    · rw [if_neg (by rw [hLn]; simp)]
      rw [stackDen_cons, stackDen_nil, List.append_nil, entryDen]
      simp only [levOf_sizeTPred]
    · cases hr : (logicalR t.nodes k cur).isNull
      · rw [if_neg (by simp)]
        rw [stackDen_cons, stackDen_nil, List.append_nil, entryDen]
        simp only [levOf_sizeTPred]
      · rw [if_pos rfl, stackDen_nil, denoteAt_null _ _ _ _ _ hr]
  · intro x hx
    rw [pushList] at hx
    rcases List.mem_append.mp hx with hx | hx
    · rw [if_neg (by rw [hLn]; simp)] at hx
      have hxe : x = ⟨sizeTPred k, logicalL t.nodes k cur⟩ := by simpa using hx
      rw [hxe]
      refine ⟨?_, hLn⟩
      show GoodN L t.nodes t.leaves (levOf (sizeTPred k)) _ (entryDen L t _)
      rw [show entryDen L t ⟨sizeTPred k, logicalL t.nodes k cur⟩ =
        denoteAt L t.nodes t.leaves k (logicalL t.nodes k cur) from by
          rw [entryDen]; simp only [levOf_sizeTPred]]
      rw [levOf_sizeTPred]
      exact hGL
    · cases hr : (logicalR t.nodes k cur).isNull
      · rw [if_neg (by rw [hr]; simp)] at hx
        have hxe : x = ⟨sizeTPred k, logicalR t.nodes k cur⟩ := by simpa using hx
        rw [hxe]
        refine ⟨?_, hr⟩
        show GoodN L t.nodes t.leaves (levOf (sizeTPred k)) _ (entryDen L t _)
        rw [show entryDen L t ⟨sizeTPred k, logicalR t.nodes k cur⟩ =
          denoteAt L t.nodes t.leaves k (logicalR t.nodes k cur) from by
            rw [entryDen]; simp only [levOf_sizeTPred]]
        rw [levOf_sizeTPred]
        exact hGR
      · rw [if_pos hr] at hx
        exact absurd hx (by simp)

theorem nextLeaf_den (L : Nat) (t : shared_tree)
    (hSI : storeInv L t.nodes t.leaves) :
    ∀ s : List iterEntry, OKStack L t s →
      stackDen L t (nextLeaf t s) = stackDen L t s ∧
      OKStack L t (nextLeaf t s) := by
  intro s
  induction s using nextLeaf.induct t with
  | case1 =>
      intro _
      rw [nextLeaf]
      exact ⟨rfl, fun e he => absurd he (by simp)⟩
  | case2 e rest hl =>
      intro hOK
      rw [nextLeaf, hl]
      exact ⟨rfl, hOK⟩
  | case3 e rest k hl ih =>
      intro hOK
      obtain ⟨hGe, hne⟩ := hOK e (by simp)
      have hlev : levOf e.layer = k + 1 := by rw [hl]; rfl
      rw [hlev] at hGe
      have hdenE : entryDen L t e = denoteAt L t.nodes t.leaves (k + 1) e.current := by
        rw [entryDen, hlev]
      rw [hdenE] at hGe
      have hokRest : OKStack L t rest := fun x hx => hOK x (by simp [hx])
      rcases hGe.2.1 with hwf | ⟨hk, hidx, hwl, hwr⟩
      · rw [hne] at hwf; cases hwf
      obtain ⟨hpl, hpr, _, _, _, _⟩ :=
        hSI.2.2.2.1 k _ (access_mem t.nodes k e.current hidx)
      have hpe := push_eq t k e.current hpl hpr
      obtain ⟨hdenP, hOKP⟩ := pushList_den L t hSI k e.current hGe hne
      simp only [dite_eq_ite] at ih
      rw [hpe] at ih
      have hOKfull : OKStack L t (pushList t k e.current ++ rest) := by
        intro x hx
        rcases List.mem_append.mp hx with hx | hx
        · exact hOKP x hx
        · exact hokRest x hx
      obtain ⟨hd, hk2⟩ := ih hOKfull
      rw [nextLeaf, hl]
      simp only [dite_eq_ite]
      rw [hpe]
      refine ⟨?_, hk2⟩
      rw [hd, stackDen_append, hdenP, stackDen_cons, hdenE]

theorem nextLeaf_head (t : shared_tree) :
    ∀ s : List iterEntry, nextLeaf t s = [] ∨
      ∃ e rest, nextLeaf t s = e :: rest ∧ e.layer = none := by
  intro s
  induction s using nextLeaf.induct t with
  | case1 =>
      left
      rw [nextLeaf]
  | case2 e rest hl =>
      right
      exact ⟨e, rest, by rw [nextLeaf, hl], hl⟩
  | case3 e rest k hl ih =>
      rw [nextLeaf, hl]
      exact ih

theorem iterEmit_den (L : Nat) (t : shared_tree)
    (hSI : storeInv L t.nodes t.leaves) :
    ∀ stack : List iterEntry, OKStack L t stack →
      iterEmit L t stack = stackDen L t stack := by
  intro stack
  induction stack using iterEmit.induct L t with
  | case1 stack h =>
      intro hOK
      rw [iterEmit, h]
      obtain ⟨hd, _⟩ := nextLeaf_den L t hSI stack hOK
      rw [h, stackDen_nil] at hd
      rw [← hd]
  | case2 stack e rest h ih =>
      intro hOK
      rw [iterEmit, h]
      obtain ⟨hd, hOK2⟩ := nextLeaf_den L t hSI stack hOK
      rw [h] at hd hOK2
      have hlnone : e.layer = none := by
        rcases nextLeaf_head t stack with h2 | ⟨e2, rest2, h2, h3⟩
        · rw [h] at h2; cases h2
        · rw [h] at h2
          injection h2 with h4 h5
          rw [h4]
          exact h3
      obtain ⟨hGe, hne⟩ := hOK2 e (by simp)
      have hden0 : entryDen L t e = [access_leaf L t.leaves e.current] := by
        rw [entryDen, hlnone]
        show denoteAt L t.nodes t.leaves 0 e.current = _
        rw [denoteAt, if_neg (by rw [hne]; simp)]
      have hokRest : OKStack L t rest := fun x hx => hOK2 x (by simp [hx])
      show access_leaf L t.leaves e.current :: iterEmit L t rest = stackDen L t stack
      rw [ih hokRest, ← hd, stackDen_cons, hden0]
      rfl

/-- C2: Iteration fidelity: for an input strand sequence S (wellformed 64-bit
words, at most one 2^25-strand segment), in-order traversal of the tree built
from S with the explicit-stack iterator — next_leaf expanding nodes with each
child wrapped in the popped pointer's mirror/transpose flags, operator*
applying the flags at the leaf — yields exactly S in order. -/
theorem C2_iteration (L : Nat) (data : List dna)
    (hlen : data.length ≤ 2 ^ 25) (hwf : ∀ x ∈ data, x.wfv) :
    shared_tree.iterList L (shared_tree.build L data) = data := by
  cases hdata : data with
  | nil =>
      have hch : chunksList (2 ^ 25) ([] : List dna) = [] := by rw [chunksList]
      have hrr : reduceRootsGo (tree_constructor.mk [] [] [])
          (tree_constructor.mk [] [] []).roots
          (tree_constructor.mk [] [] []).tree_nodes.length =
          (tree_constructor.mk [] [] [], []) := by
        rw [reduceRootsGo]
        rw [if_neg (by simp)]
      have hb : shared_tree.build L [] = ⟨pointer.null, [], []⟩ := by
        simp only [shared_tree.build, tree_constructor.reduce, hch, List.foldl_nil,
          tree_constructor.reduce_roots, hrr]
        rfl
      rw [hb, shared_tree.iterList, if_pos (by rw [null_isNull])]
  | cons a rest =>
      rw [← hdata]
      have hne : data ≠ [] := by rw [hdata]; simp
      obtain ⟨hSI, hrn, hd1, hd25, hGr⟩ := build_good L data hne (hdata ▸ hlen)
        (hdata ▸ hwf)
      set t := shared_tree.build L data with ht
      rw [shared_tree.iterList, if_neg (by rw [hrn]; simp)]
      have hOK : OKStack L t [⟨sizeTPred t.nodes.length, t.root⟩] := by
        intro e he
        have he2 : e = ⟨sizeTPred t.nodes.length, t.root⟩ := by simpa using he
        rw [he2]
        have hlev : levOf (sizeTPred t.nodes.length) = t.nodes.length :=
          levOf_sizeTPred _
        refine ⟨?_, hrn⟩
        show GoodN L t.nodes t.leaves (levOf (sizeTPred t.nodes.length)) t.root
          (entryDen L t _)
        rw [show entryDen L t ⟨sizeTPred t.nodes.length, t.root⟩ =
          denoteAt L t.nodes t.leaves t.nodes.length t.root from by
            rw [entryDen]; simp only [hlev]]
        rw [hlev]
        exact ⟨hGr.1, hGr.2.1, hGr.2.2.1, hGr.2.2.2.1, rfl⟩
      rw [iterEmit_den L t hSI _ hOK, stackDen_cons, stackDen_nil, List.append_nil]
      rw [show entryDen L t ⟨sizeTPred t.nodes.length, t.root⟩ =
        denoteAt L t.nodes t.leaves t.nodes.length t.root from by
          rw [entryDen]; simp only [levOf_sizeTPred]]
      exact hGr.2.2.2.2

theorem C2_iteration_witness :
    (∀ x ∈ [dna.mk 5, dna.mk 6, dna.mk 7], x.wfv) ∧
    shared_tree.iterList 3 (shared_tree.build 3 [dna.mk 5, dna.mk 6, dna.mk 7]) =
      [dna.mk 5, dna.mk 6, dna.mk 7] :=
  ⟨by decide, C2_iteration 3 [dna.mk 5, dna.mk 6, dna.mk 7] (by decide) (by decide)⟩
